import Mathlib

/-!
Verification development for ghettonet.py.

The Python source is shallowly embedded: each regular expression is
translated into an explicit character-list matcher with the same greedy,
backtracking semantics (Python `re.match`), and each function into a pure
Lean function.  Lines handed to the matchers come from splitting on the
EOL pattern, so they contain no '\n'; the few places where Python's `.`
(any char except newline) or `$` would matter for embedded newlines are
noted in comments.
-/

set_option linter.unusedVariables false

/-- Python 2 whitespace for both the regex class \s and str.strip(). -/
def isPySpace (c : Char) : Bool :=
  c = ' ' || c = '\t' || c = '\n' || c = '\r' || c = '\x0b' || c = '\x0c'

/-- Regex class \d (ASCII digits, Python 2 default). -/
def isDigitC (c : Char) : Bool := '0' ≤ c && c ≤ '9'

/-- Numeric value of a digit character. -/
def digitVal (c : Char) : Nat := c.toNat - '0'.toNat

/-- Regex class \w (ASCII, Python 2 default: letters, digits, underscore). -/
def isWordC (c : Char) : Bool :=
  ('a' ≤ c && c ≤ 'z') || ('A' ≤ c && c ≤ 'Z') || isDigitC c || c = '_'

/-- Character class [\w\-] used by the NAME pattern. -/
def isWordDash (c : Char) : Bool := isWordC c || c = '-'

/-- Python str.lower on one ASCII character. -/
def pyLowerChar (c : Char) : Char :=
  if 'A' ≤ c && c ≤ 'Z' then Char.ofNat (c.toNat + 32) else c

/-- Python str.lower. -/
def pyLowerL (l : List Char) : List Char := l.map pyLowerChar

/-- Python str.strip() on a character list. -/
def pyStripL (l : List Char) : List Char :=
  ((l.dropWhile isPySpace).reverse.dropWhile isPySpace).reverse

/-- Python str.strip(). -/
def pyStrip (s : String) : String := String.mk (pyStripL s.data)

/-- After the opening '<' of a candidate HTML tag: the source pattern
<[^<>]+> requires one or more characters that are neither '<' nor '>',
then '>'.  `tagRest` is the scan after the first inner character. -/
def tagRest : List Char → Option (List Char)
  | [] => none
  | c :: rest =>
    if c = '>' then some rest
    else if c = '<' then none
    else tagRest rest

/-- Attempt to read [^<>]+> (the body of HTML = <[^<>]+>) at the head. -/
def tryTag : List Char → Option (List Char)
  | [] => none
  | c :: rest => if c = '>' || c = '<' then none else tagRest rest

theorem tagRest_length_le : ∀ l r, tagRest l = some r → r.length ≤ l.length := by
  intro l
  induction l with
  | nil => intro r h; simp [tagRest] at h
  | cons c rest ih =>
    intro r h
    simp only [tagRest] at h
    split at h
    · cases h
      simp only [List.length_cons]
      omega
    · split at h
      · cases h
      · have := ih r h
        simp only [List.length_cons]
        omega

theorem tryTag_length_le : ∀ l r, tryTag l = some r → r.length ≤ l.length := by
  intro l r h
  cases l with
  | nil => simp [tryTag] at h
  | cons c rest =>
    simp only [tryTag] at h
    split at h
    · cases h
    · have := tagRest_length_le rest r h
      simp only [List.length_cons]
      omega

/-- Fueled worker for HTML removal (fuel bounds the input length). -/
def removeHtmlAux : Nat → List Char → List Char
  | 0, _ => []
  | _ + 1, [] => []
  | fuel + 1, c :: rest =>
    if c = '<' then
      match h : tryTag rest with
      | some rest2 => removeHtmlAux fuel rest2
      | none => c :: removeHtmlAux fuel rest
    else c :: removeHtmlAux fuel rest

/-- remove_html: drops every leftmost non-overlapping match of <[^<>]+>
(''.join(HTML.split(line)) in the source). -/
def removeHtmlL (l : List Char) : List Char := removeHtmlAux l.length l

/-- remove_html on strings. -/
def remove_html (s : String) : String := String.mk (removeHtmlL s.data)

/-- Normalization applied by parse() to every input line:
line = remove_html(line).strip(). -/
def normalizeLine (s : String) : String := pyStrip (remove_html s)

/-- Consume a run of two-or-more '#' characters (regex #\x7b2,\x7d, whose
greedy maximal-run match is forced since backtracking cannot help). -/
def hashes2 : List Char → Option (List Char)
  | '#' :: '#' :: rest => some (rest.dropWhile (· = '#'))
  | _ => none

/-- Match a literal token case-insensitively (pattern given lowercase). -/
def ciToken : List Char → List Char → Option (List Char)
  | [], l => some l
  | _ :: _, [] => none
  | p :: ps, c :: cs => if pyLowerChar c = p then ciToken ps cs else none

/-- BEGIN = (?i)^\s*#\x7b2,\x7d\s*BEGIN\s*GHETTONET (prefix match). -/
def beginMatchL (l : List Char) : Bool :=
  match hashes2 (l.dropWhile isPySpace) with
  | none => false
  | some r =>
    match ciToken "begin".data (r.dropWhile isPySpace) with
    | none => false
    | some r2 => (ciToken "ghettonet".data (r2.dropWhile isPySpace)).isSome

def beginMatch (s : String) : Bool := beginMatchL s.data

/-- END = (?i)^\s*#\x7b2,\x7d\s*END\s*GHETTONET (prefix match). -/
def endMatchL (l : List Char) : Bool :=
  match hashes2 (l.dropWhile isPySpace) with
  | none => false
  | some r =>
    match ciToken "end".data (r.dropWhile isPySpace) with
    | none => false
    | some r2 => (ciToken "ghettonet".data (r2.dropWhile isPySpace)).isSome

def endMatch (s : String) : Bool := endMatchL s.data

/-- POSSIBLE_DATE = (?i)^\s*#\x7b2,\x7d\s*DATE (prefix match). -/
def possibleDateL (l : List Char) : Bool :=
  match hashes2 (l.dropWhile isPySpace) with
  | none => false
  | some r => (ciToken "date".data (r.dropWhile isPySpace)).isSome

def possibleDate (s : String) : Bool := possibleDateL s.data

/-- COMMENT_OR_BLANK = ^\s*(?:#.*)?$ .  Input lines are newline-free
(they come from EOL.split), so $ is end-of-string and `.` never hits
its newline exclusion. -/
def commentOrBlankL (l : List Char) : Bool :=
  match l.dropWhile isPySpace with
  | [] => true
  | c :: rest => c = '#' && rest.all (· ≠ '\n')

def commentOrBlank (s : String) : Bool := commentOrBlankL s.data

/-- Greedy \d\d? with full backtracking: try two digits, and if the
continuation fails retry with one digit (Python re semantics). -/
def digits12 (l : List Char) (k : Nat → List Char → Option α) : Option α :=
  match l with
  | [] => none
  | a :: rest =>
    if isDigitC a then
      match rest with
      | [] => k (digitVal a) []
      | b :: rest2 =>
        if isDigitC b then
          match k (digitVal a * 10 + digitVal b) rest2 with
          | some x => some x
          | none => k (digitVal a) rest
        else k (digitVal a) rest
    else none

/-- Fields captured by the DATE regular expression (before int
conversion and datetime validation). -/
structure DateFields where
  year : Nat
  month : Nat
  day : Nat
  hour : Option Nat
  minute : Option Nat
  second : Option Nat
  extra : Option String
  deriving Repr, DecidableEq

/-- Tail of the DATE pattern after the day: the optional time group
(\s+hh:mm(:ss)?)? then the optional extra group (\s+(?P<extra>.*))? then $.
Python tries each optional group present-first, backtracking to absent. -/
def dateTail (l : List Char) (y m d : Nat) : Option DateFields :=
  let extraTail : List Char → Nat → Nat → Nat → Option Nat → Option Nat →
      Option DateFields := fun r yy mm dd hh mi =>
    let withSec : Option Nat → List Char → Option DateFields := fun sec r2 =>
      -- optional (\s+(?P<extra>.*))? then $ ; lines are newline-free
      match r2 with
      | [] => some ⟨yy, mm, dd, hh, mi, sec, none⟩
      | c :: cs =>
        if isPySpace c then
          let body := cs.dropWhile isPySpace
          if (body.all (· ≠ '\n')) then
            some ⟨yy, mm, dd, hh, mi, sec, some (String.mk body)⟩
          else none
        else none
    match r with
    | ':' :: r2 =>
      match digits12 r2 (fun s r3 => withSec (some s) r3) with
      | some x => some x
      | none => withSec none (':' :: r2)
    | _ => withSec none r
  let timeThen : Option DateFields :=
    match l with
    | c :: cs =>
      if isPySpace c then
        let body := cs.dropWhile isPySpace
        digits12 body (fun h r =>
          match r with
          | ':' :: r2 => digits12 r2 (fun mi r3 => extraTail r3 y m d (some h) (some mi))
          | _ => none)
      else none
    | [] => none
  match timeThen with
  | some x => some x
  | none =>
    -- time group absent: optional extra group then $
    match l with
    | [] => some ⟨y, m, d, none, none, none, none⟩
    | c :: cs =>
      if isPySpace c then
        let body := cs.dropWhile isPySpace
        if (body.all (· ≠ '\n')) then
          some ⟨y, m, d, none, none, none, some (String.mk body)⟩
        else none
      else none

/-- DATE = (?i)^\s*#\x7b2,\x7d\s*DATE\s*(?P<year>\d\x7b4\x7d)-(?P<month>\d\d?)-
(?P<day>\d\d?)(\s+(?P<hour>\d\d?):(?P<min>\d\d?)(:(?P<sec>\d\d?))?)?
(\s+(?P<extra>.*))?$ . -/
def dateMatchL (l : List Char) : Option DateFields :=
  match hashes2 (l.dropWhile isPySpace) with
  | none => none
  | some r =>
    match ciToken "date".data (r.dropWhile isPySpace) with
    | none => none
    | some r2 =>
      match r2.dropWhile isPySpace with
      | y1 :: y2 :: y3 :: y4 :: '-' :: r3 =>
        if isDigitC y1 && isDigitC y2 && isDigitC y3 && isDigitC y4 then
          let y := ((digitVal y1 * 10 + digitVal y2) * 10 + digitVal y3) * 10
                     + digitVal y4
          digits12 r3 (fun m r4 =>
            match r4 with
            | '-' :: r5 => digits12 r5 (fun d r6 => dateTail r6 y m d)
            | _ => none)
        else none
      | _ => none

def dateMatch (s : String) : Option DateFields := dateMatchL s.data

/-- Take exactly n digit characters. -/
def takeD : Nat → List Char → Option (List Char × List Char)
  | 0, l => some ([], l)
  | _ + 1, [] => none
  | n + 1, c :: rest =>
    if isDigitC c then
      match takeD n rest with
      | some (t, r) => some (c :: t, r)
      | none => none
    else none

/-- Greedy \d\x7b1,3\x7d with full backtracking: lengths 3, 2, 1 tried in
that order, each with the whole continuation (Python re semantics). -/
def digits123 (l : List Char) (k : List Char → List Char → Option α) : Option α :=
  match takeD 3 l with
  | some (t, r) =>
    match k t r with
    | some x => some x
    | none =>
      match takeD 2 l with
      | some (t2, r2) =>
        match k t2 r2 with
        | some x => some x
        | none =>
          match takeD 1 l with
          | some (t1, r1) => k t1 r1
          | none => none
      | none =>
        match takeD 1 l with
        | some (t1, r1) => k t1 r1
        | none => none
  | none =>
    match takeD 2 l with
    | some (t2, r2) =>
      match k t2 r2 with
      | some x => some x
      | none =>
        match takeD 1 l with
        | some (t1, r1) => k t1 r1
        | none => none
    | none =>
      match takeD 1 l with
      | some (t1, r1) => k t1 r1
      | none => none

/-- One occurrence of `.` in the IPV4 pattern: the dots are NOT escaped
in the source (r'^\s*(\d\x7b1,3\x7d.\d\x7b1,3\x7d.\d\x7b1,3\x7d.\d\x7b1,3\x7d)(.*)'),
so they match any character except newline. -/
def anyChar (l : List Char) (k : Char → List Char → Option α) : Option α :=
  match l with
  | [] => none
  | c :: rest => if c ≠ '\n' then k c rest else none

/-- The parenthesised group of IPV4: \d\x7b1,3\x7d.\d\x7b1,3\x7d.\d\x7b1,3\x7d.\d\x7b1,3\x7d
with greedy backtracking; returns (group 1, remainder). -/
def ipv4Core (l : List Char) : Option (List Char × List Char) :=
  digits123 l (fun t1 r1 =>
    anyChar r1 (fun c1 r2 =>
      digits123 r2 (fun t2 r3 =>
        anyChar r3 (fun c2 r4 =>
          digits123 r4 (fun t3 r5 =>
            anyChar r5 (fun c3 r6 =>
              digits123 r6 (fun t4 r7 =>
                some (t1 ++ c1 :: (t2 ++ c2 :: (t3 ++ c3 :: t4)), r7))))))))

/-- IPV4.match(line): leading \s*, then the dotted-ish group, then (.*)
as group 2 (Python `.` stops at a newline, so characters from a newline
on are not part of group 2). -/
def ipv4Match (l : List Char) : Option (List Char × List Char) :=
  match ipv4Core (l.dropWhile isPySpace) with
  | some (t, r) => some (t, r.takeWhile (· ≠ '\n'))
  | none => none

theorem dropWhile_length_le (p : Char → Bool) (l : List Char) :
    (l.dropWhile p).length ≤ l.length := by
  induction l with
  | nil => simp
  | cons a l ih =>
    by_cases h : p a
    · simp only [List.dropWhile, h]
      simp only [List.length_cons]
      omega
    · simp [List.dropWhile, h]

/-- The repeated-dot-group part (?:\.[\w\-]+)* of NAME (greedy; stops at
the first position where '.' is not followed by a word/dash run).  The
fuel (always instantiated with the input length, which suffices since
every iteration consumes at least two characters) keeps the recursion
structural so that concrete evaluation reduces in the kernel. -/
def dotGroupsF : Nat → List Char → List Char × List Char
  | 0, l => ([], l)
  | fuel + 1, l =>
    match l with
    | [] => ([], [])
    | c :: rest =>
      if c = '.' then
        let run := rest.takeWhile isWordDash
        if run = [] then ([], c :: rest)
        else
          let p := dotGroupsF fuel (rest.dropWhile isWordDash)
          (c :: (run ++ p.1), p.2)
      else ([], c :: rest)

def dotGroups (l : List Char) : List Char × List Char := dotGroupsF l.length l

theorem takeWhile_append_dropWhile_length (p : Char → Bool) (l : List Char) :
    (l.takeWhile p).length + (l.dropWhile p).length = l.length := by
  induction l with
  | nil => simp
  | cons a l ih =>
    by_cases h : p a
    · simp only [List.takeWhile, List.dropWhile, h]
      simp only [List.length_cons]
      omega
    · simp [List.takeWhile, List.dropWhile, h]

theorem takeWhile_length_le (p : Char → Bool) (l : List Char) :
    (l.takeWhile p).length ≤ l.length := by
  have := takeWhile_append_dropWhile_length p l
  omega

theorem dotGroupsF_snd_length_le : ∀ f (l : List Char),
    (dotGroupsF f l).2.length ≤ l.length := by
  intro f
  induction f with
  | zero => intro l; simp [dotGroupsF]
  | succ n ih =>
    intro l
    cases l with
    | nil => simp [dotGroupsF]
    | cons c rest =>
      rw [dotGroupsF]
      by_cases hc : c = '.'
      · by_cases hrun : rest.takeWhile isWordDash = []
        · simp [hc, hrun]
        · have h1 := dropWhile_length_le isWordDash rest
          have h3 := ih (rest.dropWhile isWordDash)
          simp [hc, hrun]
          omega
      · simp [hc]

theorem dotGroups_snd_length_le (l : List Char) :
    (dotGroups l).2.length ≤ l.length := dotGroupsF_snd_length_le l.length l

theorem dotGroupsF_eq (b : Nat) : ∀ f g (l : List Char), l.length ≤ f →
    l.length ≤ g → f ≤ b → dotGroupsF f l = dotGroupsF g l := by
  induction b with
  | zero =>
    intro f g l hf hg hfb
    cases l with
    | nil => cases f <;> cases g <;> simp [dotGroupsF]
    | cons c rest =>
      simp only [List.length_cons] at hf
      omega
  | succ b ih =>
    intro f g l hf hg hfb
    cases l with
    | nil => cases f <;> cases g <;> simp [dotGroupsF]
    | cons c rest =>
      cases f with
      | zero => simp at hf
      | succ f2 =>
        cases g with
        | zero => simp at hg
        | succ g2 =>
          rw [dotGroupsF, dotGroupsF]
          by_cases hc : c = '.'
          · by_cases hrun : rest.takeWhile isWordDash = []
            · simp [hc, hrun]
            · have h1 := dropWhile_length_le isWordDash rest
              simp only [List.length_cons] at hf hg
              rw [ih f2 g2 (rest.dropWhile isWordDash) (by omega) (by omega) (by omega)]
          · simp [hc]

/-- Sufficient fuel gives the same answer, so dotGroups is the fixpoint. -/
theorem dotGroupsF_fuel_irrel (f : Nat) (l : List Char) (h : l.length ≤ f) :
    dotGroupsF f l = dotGroups l :=
  dotGroupsF_eq f f l.length l h (le_refl _) (le_refl _)

/-- NAME = ^\s*([\w\-]+(?:\.[\w\-]+)*)(.*) : returns (group 1, group 2). -/
def nameMatch (l : List Char) : Option (List Char × List Char) :=
  let b := l.dropWhile isPySpace
  let run := b.takeWhile isWordDash
  if run = [] then none
  else
    let p := dotGroups (b.dropWhile isWordDash)
    some (run ++ p.1, p.2.takeWhile (· ≠ '\n'))

theorem nameMatch_consumes (l t r : List Char) (h : nameMatch l = some (t, r)) :
    r.length < l.length := by
  unfold nameMatch at h
  by_cases hrun : (l.dropWhile isPySpace).takeWhile isWordDash = []
  · simp [hrun] at h
  · simp only [hrun, if_neg, if_false, Option.some.injEq, Prod.mk.injEq] at h
    have hr : r = (dotGroups ((l.dropWhile isPySpace).dropWhile isWordDash)).2.takeWhile
        (· ≠ '\n') := h.2.symm
    have e1 : r.length ≤
        (dotGroups ((l.dropWhile isPySpace).dropWhile isWordDash)).2.length := by
      rw [hr]; exact takeWhile_length_le _ _
    have e2 := dotGroups_snd_length_le ((l.dropWhile isPySpace).dropWhile isWordDash)
    have e3 := takeWhile_append_dropWhile_length isWordDash (l.dropWhile isPySpace)
    have e4 : 0 < ((l.dropWhile isPySpace).takeWhile isWordDash).length := by
      cases hx : (l.dropWhile isPySpace).takeWhile isWordDash with
      | nil => exact absurd hx hrun
      | cons x xs => simp
    have e5 := dropWhile_length_le isPySpace l
    omega

/-- The name-extraction loop of set_address: while rest is non-empty,
match NAME against it, lower-case group 1, continue on group 2.  Fueled
(each successful NAME match strictly consumes input, so fuel equal to
the input length suffices); structural so the kernel can evaluate it. -/
def nameLoopF : Nat → List Char → Option (List String)
  | _, [] => some []
  | 0, _ :: _ => none
  | fuel + 1, c :: cs =>
    match nameMatch (c :: cs) with
    | none => none
    | some (t, r) =>
      match nameLoopF fuel r with
      | none => none
      | some ns => some (String.mk (pyLowerL t) :: ns)

def nameLoop (l : List Char) : Option (List String) := nameLoopF l.length l

theorem nameLoopF_eq (b : Nat) : ∀ f g (l : List Char), l.length ≤ f →
    l.length ≤ g → f ≤ b → nameLoopF f l = nameLoopF g l := by
  induction b with
  | zero =>
    intro f g l hf hg hfb
    cases l with
    | nil => simp [nameLoopF]
    | cons c cs =>
      simp only [List.length_cons] at hf
      omega
  | succ b ih =>
    intro f g l hf hg hfb
    cases l with
    | nil => simp [nameLoopF]
    | cons c cs =>
      cases f with
      | zero => simp at hf
      | succ f2 =>
        cases g with
        | zero => simp at hg
        | succ g2 =>
          rw [nameLoopF, nameLoopF]
          cases hm : nameMatch (c :: cs) with
          | none => simp [hm]
          | some p =>
            cases p with
            | mk t r =>
              have hc := nameMatch_consumes (c :: cs) t r hm
              simp only [List.length_cons] at hf hg hc
              simp only [hm]
              rw [ih f2 g2 r (by omega) (by omega) (by omega)]

/-- Sufficient fuel gives the same answer, so nameLoop is the fixpoint. -/
theorem nameLoopF_fuel_irrel (f : Nat) (l : List Char) (h : l.length ≤ f) :
    nameLoopF f l = nameLoop l :=
  nameLoopF_eq f f l.length l h (le_refl _) (le_refl _)

/-- Unfolding equation for nameLoop on a non-empty list. -/
theorem nameLoop_cons (c : Char) (cs : List Char) :
    nameLoop (c :: cs) =
      match nameMatch (c :: cs) with
      | none => none
      | some (t, r) =>
        match nameLoop r with
        | none => none
        | some ns => some (String.mk (pyLowerL t) :: ns) := by
  unfold nameLoop
  simp only [List.length_cons]
  rw [nameLoopF]
  cases hm : nameMatch (c :: cs) with
  | none => simp [hm]
  | some p =>
    cases p with
    | mk t r =>
      have hc := nameMatch_consumes (c :: cs) t r hm
      simp only [List.length_cons] at hc
      simp only [hm]
      rw [nameLoopF_fuel_irrel cs.length r (by omega)]
      rfl

/-- Value of Python datetime(year, month, day, hour, minute, second). -/
structure DateTime where
  year : Nat
  month : Nat
  day : Nat
  hour : Nat
  minute : Nat
  second : Nat
  deriving Repr, DecidableEq

def isLeap (y : Nat) : Bool := y % 4 = 0 && (y % 100 ≠ 0 || y % 400 = 0)

def daysInMonth (y m : Nat) : Nat :=
  if m = 2 then (if isLeap y then 29 else 28)
  else if m = 4 || m = 6 || m = 9 || m = 11 then 30
  else 31

/-- The ranges the Python datetime constructor accepts (else ValueError). -/
def validDT (d : DateTime) : Bool :=
  1 ≤ d.year && d.year ≤ 9999 && 1 ≤ d.month && d.month ≤ 12 &&
  1 ≤ d.day && d.day ≤ daysInMonth d.year d.month &&
  d.hour ≤ 23 && d.minute ≤ 59 && d.second ≤ 59

/-- The distinct ParseException messages raised by the source. -/
inductive ParseError where
  | duplicateDate
  | badDate
  | couldNotParseDate
  | couldNotParseAddresses
  | noAddress
  | noNames
  | unexpectedText
  | missingEnd
  deriving Repr, DecidableEq

/-- An entry: IPv4 address, names, optional date with extra text, comments. -/
structure Entry where
  ipv4 : Option String
  names : List String
  date : Option DateTime
  date_extra : Option String
  comments : List String
  deriving Repr, DecidableEq

def emptyEntry : Entry := ⟨none, [], none, none, []⟩

/-- Entry.set_date: duplicate check, DATE regex, int conversion,
datetime construction (range failures become ParseException). -/
def Entry.set_date (e : Entry) (line : String) : Except ParseError Entry :=
  if e.date.isSome then .error .duplicateDate
  else
    match dateMatch line with
    | none => .error .badDate
    | some f =>
      let dt : DateTime :=
        ⟨f.year, f.month, f.day, f.hour.getD 0, f.minute.getD 0, f.second.getD 0⟩
      if validDT dt then
        .ok { e with date := some dt, date_extra := some (f.extra.getD "") }
      else .error .couldNotParseDate

/-- Entry.set_address: IPV4 match sets ipv4 (unconditionally overwriting
any previous value), then the NAME loop appends lower-cased names.  The
Python original mutates fields before a mid-line failure, but a failure
aborts the whole group in from_lines, so the atomic model is equivalent. -/
def Entry.set_address (e : Entry) (line : String) : Except ParseError Entry :=
  match ipv4Match line.data with
  | none => .error .couldNotParseAddresses
  | some (tok, rest) =>
    match nameLoop rest with
    | none => .error .couldNotParseAddresses
    | some ns => .ok { e with ipv4 := some (String.mk tok), names := e.names ++ ns }

/-- One iteration of the from_lines classification loop. -/
def Entry.fromLinesStep (e : Entry) (line : String) : Except ParseError Entry :=
  if possibleDate line && !e.date.isSome then e.set_date line
  else if commentOrBlank line then .ok { e with comments := e.comments ++ [line] }
  else e.set_address line

/-- Entry.from_lines: classify every line, then require an address
(Python truthiness: None and the empty string both fail) and names. -/
def Entry.from_lines (lines : List String) : Except ParseError Entry := do
  let e ← lines.foldlM Entry.fromLinesStep emptyEntry
  if (e.ipv4.getD "") = "" then throw .noAddress
  else if e.names = [] then throw .noNames
  else pure e

def Nat.pad2 (n : Nat) : List Char := [Nat.digitChar (n / 10 % 10), Nat.digitChar (n % 10)]

def Nat.pad4 (n : Nat) : List Char :=
  [Nat.digitChar (n / 1000 % 10), Nat.digitChar (n / 100 % 10),
   Nat.digitChar (n / 10 % 10), Nat.digitChar (n % 10)]

/-- datetime.isoformat(' ') for microsecond zero, tz None. -/
def DateTime.isoFormat (d : DateTime) : String :=
  String.mk (Nat.pad4 d.year ++ '-' :: Nat.pad2 d.month ++ '-' :: Nat.pad2 d.day
    ++ ' ' :: Nat.pad2 d.hour ++ ':' :: Nat.pad2 d.minute ++ ':' :: Nat.pad2 d.second)

/-- Entry.format_date. -/
def Entry.format_date (e : Entry) : List String :=
  match e.date with
  | none => []
  | some d =>
    let base := "## DATE " ++ d.isoFormat
    match e.date_extra with
    | some s => if s ≠ "" then [base ++ " " ++ s] else [base]
    | none => [base]

/-- Stable insertion (descending by length) modelling Python's stable
sort(key=len, reverse=True): an element goes before the first strictly
shorter or equally long later element, keeping original order on ties. -/
def insertLenDesc (n : String) : List String → List String
  | [] => [n]
  | m :: ms => if m.length ≤ n.length then n :: m :: ms else m :: insertLenDesc n ms

def sortLenDesc : List String → List String
  | [] => []
  | x :: xs => insertLenDesc x (sortLenDesc xs)

/-- ' '.join. -/
def joinSpace : List String → String
  | [] => ""
  | [n] => n
  | n :: ns => n ++ " " ++ joinSpace ns

/-- Entry.format_address ('%s    %s'; Python renders a None address as
the string "None", though every parsed entry has one). -/
def Entry.format_address (e : Entry) : List String :=
  [e.ipv4.getD "None" ++ "    " ++ joinSpace (sortLenDesc e.names)]

/-- Entry.format_comments: drop leading blank (whitespace-only) lines. -/
def Entry.format_comments (e : Entry) : List String :=
  e.comments.dropWhile (fun c => pyStrip c == "")

/-- Entry.__str__ joins these lines with the platform line separator;
parse consumes them as a line list, so the list form is kept. -/
def Entry.renderLines (e : Entry) : List String :=
  e.format_comments ++ e.format_date ++ e.format_address

/-- Entry.single_name: reuse the instance when it already has exactly
one name, otherwise a clone whose names are the singleton. -/
def Entry.single_name (e : Entry) (n : String) : Entry :=
  if e.names.length = 1 then e else { e with names := [n] }

/-- The tagged units produced by parse(): (False, lines) pass-through
text or (True, entry). -/
inductive Item where
  | text (lines : List String)
  | entry (e : Entry)
  deriving Repr, DecidableEq

/-- Truthiness of ''.join(lines) (the discard() guard). -/
def joinEmpty (lines : List String) : Bool := lines.all (· == "")

/-- The parse() generator as a recursion over remaining input with the
(in_text, lines) state.  quiet only controls stderr warnings and is
dropped; fragile errors abort (the generator's earlier yields are not
needed by any claim). -/
def parseAux (fragile : Bool) : List String → Bool → List String → Except ParseError (List Item)
  | [], inText, lines =>
    if inText then
      if lines.isEmpty then .ok [] else .ok [.text lines]
    else
      if fragile then
        if !(joinEmpty lines) then .error .unexpectedText else .error .missingEnd
      else .ok []
  | line :: rest, inText, lines =>
    let l := normalizeLine line
    let lines2 := lines ++ [l]
    if inText then
      if beginMatch l then
        match parseAux fragile rest false [] with
        | .error err => .error err
        | .ok items => .ok ((if lines.isEmpty then [] else [.text lines]) ++ items)
      else parseAux fragile rest true lines2
    else
      if endMatch l then
        if fragile && !(joinEmpty lines) then .error .unexpectedText
        else parseAux fragile rest true []
      else if !(commentOrBlank l) then
        match Entry.from_lines lines2 with
        | .ok e =>
          match parseAux fragile rest false [] with
          | .error err => .error err
          | .ok items => .ok (.entry e :: items)
        | .error _ =>
          if fragile && !(joinEmpty lines2) then .error .unexpectedText
          else parseAux fragile rest true []
      else parseAux fragile rest false lines2

/-- parse(contents, quiet, fragile). -/
def parse (contents : List String) (fragile : Bool) : Except ParseError (List Item) :=
  parseAux fragile contents true []

/-- strip_comment: strip(), then drop leading '#' and ' ' characters. -/
def strip_comment (s : String) : String :=
  String.mk ((pyStripL s.data).dropWhile (fun c => c = '#' || c = ' '))

/-- combine_comments with an explicit known set (modelled as a list used
only through membership); returns the extended comment list and the
extended known set, since the caller-supplied set is mutated in Python
and reused across calls. -/
def combine_comments (merged : List String) (other : List String)
    (known : List String) : List String × List String :=
  match other with
  | [] => (merged, known)
  | c :: cs =>
    let s := strip_comment c
    if s ∈ known then combine_comments merged cs known
    else combine_comments (merged ++ [c]) cs (known ++ [s])

/-- combine_comments with known=None: the set is computed from merged. -/
def combineNoKnown (merged other : List String) : List String :=
  (combine_comments merged other (merged.map strip_comment)).1

/-- Failures raised by the merge pipeline: Python AssertionError and the
two Exception messages of merge/merge_force. -/
inductive MergeError where
  | assertionFailed
  | conflicting (addrs : List (Option String)) (name : String)
  | multipleEntries (name : String)
  deriving Repr, DecidableEq

/-- Lexicographic comparison of datetime values (Python datetime order). -/
def dtLe (a b : DateTime) : Bool :=
  decide (a.year < b.year ∨ (a.year = b.year ∧ (a.month < b.month ∨ (a.month = b.month ∧
    (a.day < b.day ∨ (a.day = b.day ∧ (a.hour < b.hour ∨ (a.hour = b.hour ∧
      (a.minute < b.minute ∨ (a.minute = b.minute ∧
        a.second ≤ b.second))))))))))

/-- Sort key: the date of an entry that is known to have one. -/
def dkey (e : Entry) : DateTime := e.date.getD ⟨0, 0, 0, 0, 0, 0⟩

/-- Stable insertion for sort(key=date, reverse=True): an element is
placed before the first element whose date is less-or-equal, keeping
original relative order on date ties (Python sorts are stable). -/
def insertDateDesc (a : Entry) : List Entry → List Entry
  | [] => [a]
  | b :: bs => if dtLe (dkey b) (dkey a) then a :: b :: bs else b :: insertDateDesc a bs

def sortDateDesc : List Entry → List Entry
  | [] => []
  | a :: as => insertDateDesc a (sortDateDesc as)

/-- merge_by_date: keep only the entries dated at the maximum (the head
of the reverse-sorted dated sublist); a bucket with no dated entry
passes through.  Python assert failures become errors. -/
def merge_by_date (entries : List Entry) : Except MergeError (List Entry) :=
  if entries.isEmpty then .ok entries
  else if !(entries.all (fun e => e.names.length = 1)) then .error .assertionFailed
  else
    let with_dates := entries.filter (fun e => e.date.isSome)
    if with_dates.isEmpty then .ok entries
    else
      let sorted := sortDateDesc with_dates
      .ok (sorted.filter (fun e => decide (e.date = (sorted.headD emptyEntry).date)))

/-- Python 2 byte-lexicographic string comparison (ASCII data). -/
def charListLe : List Char → List Char → Bool
  | [], _ => true
  | _ :: _, [] => false
  | a :: as, b :: bs => if a < b then true else if b < a then false else charListLe as bs

/-- Python 2 comparison on the ipv4 field; None sorts below strings. -/
def optStrLe (a b : Option String) : Bool :=
  match a, b with
  | none, _ => true
  | some _, none => false
  | some x, some y => charListLe x.data y.data

/-- Stable insertion for sort(key=ipv4): before the first strictly
larger element, after earlier equal ones. -/
def insertIpv4Asc (a : Entry) : List Entry → List Entry
  | [] => [a]
  | b :: bs => if optStrLe a.ipv4 b.ipv4 then a :: b :: bs else b :: insertIpv4Asc a bs

def sortIpv4Asc : List Entry → List Entry
  | [] => []
  | a :: as => insertIpv4Asc a (sortIpv4Asc as)

/-- The groups() generator: consecutive run sharing the first element's
ipv4 (the list is sorted before grouping). -/
def spanIpv4 (k : Option String) : List Entry → List Entry × List Entry
  | [] => ([], [])
  | e :: rest =>
    if e.ipv4 = k then
      let p := spanIpv4 k rest
      (e :: p.1, p.2)
    else ([], e :: rest)

theorem spanIpv4_snd_length_le (k : Option String) (l : List Entry) :
    (spanIpv4 k l).2.length ≤ l.length := by
  induction l with
  | nil => simp [spanIpv4]
  | cons e rest ih =>
    rw [spanIpv4]
    by_cases h : e.ipv4 = k
    · simp [h]
      omega
    · simp [h]

def pyGroupsF : Nat → List Entry → List (List Entry)
  | _, [] => []
  | 0, _ :: _ => []
  | fuel + 1, e :: rest =>
    let p := spanIpv4 e.ipv4 rest
    (e :: p.1) :: pyGroupsF fuel p.2

def pyGroups (l : List Entry) : List (List Entry) := pyGroupsF l.length l

theorem pyGroupsF_eq (b : Nat) : ∀ f g (l : List Entry), l.length ≤ f →
    l.length ≤ g → f ≤ b → pyGroupsF f l = pyGroupsF g l := by
  induction b with
  | zero =>
    intro f g l hf hg hfb
    cases l with
    | nil => simp [pyGroupsF]
    | cons e rest =>
      simp only [List.length_cons] at hf
      omega
  | succ b ih =>
    intro f g l hf hg hfb
    cases l with
    | nil => simp [pyGroupsF]
    | cons e rest =>
      cases f with
      | zero => simp at hf
      | succ f2 =>
        cases g with
        | zero => simp at hg
        | succ g2 =>
          rw [pyGroupsF, pyGroupsF]
          have hs := spanIpv4_snd_length_le e.ipv4 rest
          simp only [List.length_cons] at hf hg
          rw [ih f2 g2 (spanIpv4 e.ipv4 rest).2 (by omega) (by omega) (by omega)]

theorem pyGroupsF_fuel_irrel (f : Nat) (l : List Entry) (h : l.length ≤ f) :
    pyGroupsF f l = pyGroups l :=
  pyGroupsF_eq f f l.length l h (le_refl _) (le_refl _)

/-- Unfolding equation for pyGroups on a non-empty list. -/
theorem pyGroups_cons (e : Entry) (rest : List Entry) :
    pyGroups (e :: rest) =
      (e :: (spanIpv4 e.ipv4 rest).1) :: pyGroups (spanIpv4 e.ipv4 rest).2 := by
  unfold pyGroups
  simp only [List.length_cons]
  rw [pyGroupsF]
  have hs := spanIpv4_snd_length_le e.ipv4 rest
  rw [pyGroupsF_fuel_irrel rest.length (spanIpv4 e.ipv4 rest).2 hs]
  rfl

/-- The combine() step for one ipv4 group: the first member absorbs the
other members' comments (de-duplicated against a running known set). -/
def collapseGroup (g : List Entry) : Entry :=
  match g with
  | [] => emptyEntry
  | m :: others =>
    let res := others.foldl
      (fun (acc : List String × List String) o => combine_comments acc.1 o.comments acc.2)
      (m.comments, m.comments.map strip_comment)
    { m with comments := res.1 }

/-- merge_same_ipv4: asserts, sort by ipv4, group consecutive equal
addresses, collapse each group onto its first member. -/
def merge_same_ipv4 (entries : List Entry) : Except MergeError (List Entry) :=
  if entries.isEmpty then .ok entries
  else if !(entries.all (fun e => e.names.length = 1)) then .error .assertionFailed
  else if !(entries.all (fun e => decide (e.date = (entries.headD emptyEntry).date))) then
    .error .assertionFailed
  else .ok ((pyGroups (sortIpv4Asc entries)).map collapseGroup)

/-- merge_force: with quiet a hard conflict error naming every address
and the shared name; otherwise the first entry wins and each discarded
entry contributes its comments plus a CONFLICT marker, de-duplicated
(Python renders a None address as "None"). -/
def merge_force (entries : List Entry) (quiet : Bool) : Except MergeError (List Entry) :=
  if entries.isEmpty then .ok entries
  else if !(entries.all (fun e => e.names.length = 1)) then .error .assertionFailed
  else if !(entries.all (fun e => decide (e.date = (entries.headD emptyEntry).date))) then
    .error .assertionFailed
  else if !(decide (entries.map (fun e => e.ipv4)).Nodup) then .error .assertionFailed
  else
    match entries with
    | [] => .ok []
    | merged :: others =>
      if quiet then
        .error (.conflicting ((merged :: others).map (fun e => e.ipv4)) (merged.names.headD ""))
      else
        let res := others.foldl
          (fun (acc : List String × List String) o =>
            combine_comments acc.1 (o.comments ++ ["## CONFLICT: " ++ o.ipv4.getD "None"]) acc.2)
          (merged.comments, merged.comments.map strip_comment)
        .ok [{ merged with comments := res.1 }]

/-- Names dropped during bucketing ('localhost' as substring, 'ipv6-'
as a starting run). -/
def isSubstring (pat : List Char) : List Char → Bool
  | [] => pat.isEmpty
  | c :: rest => pat.isPrefixOf (c :: rest) || isSubstring pat rest

def droppedName (n : String) : Bool :=
  isSubstring "localhost".data n.data || "ipv6-".data.isPrefixOf n.data

/-- The by_name dictionary, modelled as an insertion-ordered association
list (Python 2 dict iteration order is arbitrary; the spec fixes
first-seen order as the deterministic choice). -/
def addToBucket (m : List (String × List Entry)) (n : String) (e : Entry) :
    List (String × List Entry) :=
  match m with
  | [] => [(n, [e])]
  | (k, v) :: rest => if k = n then (k, v ++ [e]) :: rest else (k, v) :: addToBucket rest n e

def bucketStep (m : List (String × List Entry)) (e : Entry) : List (String × List Entry) :=
  e.names.foldl
    (fun m n => if droppedName n then m else addToBucket m n (e.single_name n)) m

def buildByName (entries : List Entry) : List (String × List Entry) :=
  entries.foldl bucketStep []

/-- The per-bucket strategy pipeline of merge(): each stage runs only
while the bucket still has more than one entry, and a bucket still
larger than one afterwards is a hard failure. -/
def reduceBucket (quiet : Bool) (n : String) (l : List Entry) :
    Except MergeError (List Entry) :=
  match (if l.length > 1 then merge_by_date l else .ok l) with
  | .error e => .error e
  | .ok l1 =>
    match (if l1.length > 1 then merge_same_ipv4 l1 else .ok l1) with
    | .error e => .error e
    | .ok l2 =>
      match (if l2.length > 1 then merge_force l2 quiet else .ok l2) with
      | .error e => .error e
      | .ok l3 =>
        if l3.length > 1 then .error (.multipleEntries n) else .ok l3

/-- The by_ipv4 recombination dictionary (insertion-ordered): a winner
with a fresh address starts a key; one with a known address merges its
comments in (fresh known set) and appends its bucket name. -/
def addByIpv4 (m : List (Option String × Entry)) (n : String) (e : Entry) :
    List (Option String × Entry) :=
  match m with
  | [] => [(e.ipv4, e)]
  | (k, v) :: rest =>
    if k = e.ipv4 then
      (k, { v with comments := combineNoKnown v.comments e.comments,
                   names := v.names ++ [n] }) :: rest
    else (k, v) :: addByIpv4 rest n e

/-- The per-name reduction loop of merge(): every bucket is pushed
through the pipeline in key order (a bucket failure aborts, as the
Python exception would). -/
def reduceAll (quiet : Bool) : List (String × List Entry) →
    Except MergeError (List (String × List Entry))
  | [] => .ok []
  | p :: rest =>
    match reduceBucket quiet p.1 p.2 with
    | .error e => .error e
    | .ok r =>
      match reduceAll quiet rest with
      | .error e => .error e
      | .ok rs => .ok ((p.1, r) :: rs)

/-- merge(entries, quiet): bucket by name, reduce each bucket through
the pipeline, recombine winners (by_name[name][0]) by address. -/
def merge (entries : List Entry) (quiet : Bool) : Except MergeError (List Entry) :=
  match reduceAll quiet (buildByName entries) with
  | .error e => .error e
  | .ok reduced =>
    .ok ((reduced.foldl (fun m p => addByIpv4 m p.1 (p.2.headD emptyEntry)) []).map
      (fun p => p.2))

theorem hashes2_shape (l r : List Char) (h : hashes2 l = some r) :
    ∃ t, l = '#' :: '#' :: t := by
  unfold hashes2 at h
  split at h
  · rename_i rest
    exact ⟨rest, rfl⟩
  · cases h

theorem all_dropWhile (p q : Char → Bool) (l : List Char) (h : l.all q = true) :
    (l.dropWhile p).all q = true := by
  induction l with
  | nil => simp
  | cons a as ih =>
    simp only [List.all_cons, Bool.and_eq_true] at h
    by_cases hp : p a
    · simp only [List.dropWhile, hp]
      exact ih h.2
    · simp only [List.dropWhile, hp]
      simp only [List.all_cons, Bool.and_eq_true]
      exact ⟨h.1, h.2⟩

/-- A POSSIBLE_DATE line starts (after whitespace) with '#', so on a
newline-free line it also matches COMMENT_OR_BLANK. -/
theorem possibleDate_commentOrBlank (line : String)
    (hn : line.data.all (· ≠ '\n') = true)
    (h : possibleDate line = true) : commentOrBlank line = true := by
  unfold possibleDate possibleDateL at h
  unfold commentOrBlank commentOrBlankL
  cases hh : hashes2 (line.data.dropWhile isPySpace) with
  | none => rw [hh] at h; cases h
  | some r =>
    obtain ⟨t, ht⟩ := hashes2_shape _ _ hh
    rw [ht]
    have hall : (line.data.dropWhile isPySpace).all (· ≠ '\n') = true :=
      all_dropWhile _ _ _ hn
    rw [ht] at hall
    simp only [List.all_cons, Bool.and_eq_true] at hall
    simp only [List.all_cons, Bool.and_eq_true]
    exact ⟨rfl, hall.2.1, hall.2.2⟩

/-- C2 counterexample: a group whose second line also matches the date
pattern parses successfully — from_lines guards set_date with
"and not entry.date", so the second date line is classified as a
comment, not a duplicate-date failure. -/
theorem c2_counterexample :
    Entry.from_lines ["## DATE 2010-01-01", "## DATE 2011-01-01", "1.2.3.4 x"] =
      .ok ⟨some "1.2.3.4", ["x"], some ⟨2010, 1, 1, 0, 0, 0⟩, some "",
           ["## DATE 2011-01-01"]⟩ := by
  rfl

/-- C2 (amended): when an Entry already carries a date, a further line
matching the date pattern (newline-free, as all split lines are) is
appended verbatim to the comments and the date is kept; only a direct
set_date call on such an entry raises the duplicate-date error. -/
theorem c2_second_date_line_becomes_comment (e : Entry) (line : String) (d : DateTime)
    (hn : line.data.all (· ≠ '\n') = true)
    (hd : e.date = some d)
    (hp : possibleDate line = true) :
    Entry.fromLinesStep e line = .ok { e with comments := e.comments ++ [line] } ∧
    Entry.set_date e line = .error .duplicateDate := by
  constructor
  · unfold Entry.fromLinesStep
    rw [hd]
    simp only [Option.isSome_some, Bool.not_true, Bool.and_false, Bool.false_eq_true,
      if_false]
    rw [possibleDate_commentOrBlank line hn hp]
    simp
  · unfold Entry.set_date
    rw [hd]
    simp

/-- Witness for the amended C2 theorem at a concrete entry and line. -/
theorem c2_second_date_line_becomes_comment_witness :
    Entry.fromLinesStep ⟨some "1.2.3.4", ["x"], some ⟨2010, 1, 1, 0, 0, 0⟩, some "", []⟩
        "## DATE 2011-01-01" =
      .ok ⟨some "1.2.3.4", ["x"], some ⟨2010, 1, 1, 0, 0, 0⟩, some "",
           ["## DATE 2011-01-01"]⟩ ∧
    Entry.set_date ⟨some "1.2.3.4", ["x"], some ⟨2010, 1, 1, 0, 0, 0⟩, some "", []⟩
        "## DATE 2011-01-01" = .error .duplicateDate :=
  c2_second_date_line_becomes_comment
    ⟨some "1.2.3.4", ["x"], some ⟨2010, 1, 1, 0, 0, 0⟩, some "", []⟩
    "## DATE 2011-01-01" ⟨2010, 1, 1, 0, 0, 0⟩ (by decide) rfl (by decide)

/-- C5 counterexample: a group with two address lines ends with the
SECOND line's address (set_address assigns self.ipv4 unconditionally),
not the first as claimed. -/
theorem c5_counterexample :
    Entry.from_lines ["1.2.3.4 x", "5.6.7.8 y"] =
      .ok ⟨some "5.6.7.8", ["x", "y"], none, none, []⟩ := by
  rfl

/-- C5 (amended): a second address line in a group is permitted and its
name tokens are appended, but it RESETS the address: set_address
overwrites ipv4 with the new line's token regardless of any previous
value (last address line wins). -/
theorem c5_second_address_line_resets (e : Entry) (line : String)
    (tok rest : List Char) (ns : List String)
    (hn : line.data.all (· ≠ '\n') = true)
    (hnc : commentOrBlank line = false)
    (h1 : ipv4Match line.data = some (tok, rest))
    (h2 : nameLoop rest = some ns) :
    Entry.fromLinesStep e line =
      .ok { e with ipv4 := some (String.mk tok), names := e.names ++ ns } := by
  have hpd : possibleDate line = false := by
    cases hq : possibleDate line with
    | false => rfl
    | true => rw [possibleDate_commentOrBlank line hn hq] at hnc; cases hnc
  unfold Entry.fromLinesStep
  rw [hpd, hnc]
  simp only [Bool.false_and, Bool.false_eq_true, if_false]
  unfold Entry.set_address
  simp only [h1, h2]

/-- Witness for the amended C5 theorem: the entry already holds address
1.2.3.4 and a second address line replaces it with 5.6.7.8. -/
theorem c5_second_address_line_resets_witness :
    Entry.fromLinesStep ⟨some "1.2.3.4", ["x"], none, none, []⟩ "5.6.7.8 y" =
      .ok ⟨some "5.6.7.8", ["x", "y"], none, none, []⟩ :=
  c5_second_address_line_resets ⟨some "1.2.3.4", ["x"], none, none, []⟩ "5.6.7.8 y"
    "5.6.7.8".data " y".data ["y"] (by decide) (by decide) (by decide) (by decide)

theorem exBindOk (a : A) (f : A → Except E B) : (Except.ok a >>= f) = f a := rfl

theorem exBindErr (e : E) (f : A → Except E B) :
    ((Except.error e : Except E A) >>= f) = Except.error e := rfl

theorem fromLinesStep_date_valid (e e' : Entry) (line : String)
    (h : Entry.fromLinesStep e line = .ok e')
    (inv : ∀ d, e.date = some d → validDT d = true) :
    ∀ d, e'.date = some d → validDT d = true := by
  unfold Entry.fromLinesStep at h
  split at h
  · unfold Entry.set_date at h
    split at h
    · cases h
    · split at h
      · cases h
      · dsimp only at h
        split at h
        · rename_i hv
          cases h
          intro d hd
          simp only [Option.some.injEq] at hd
          cases hd
          exact hv
        · cases h
  · split at h
    · cases h
      intro d hd
      exact inv d hd
    · unfold Entry.set_address at h
      split at h
      · cases h
      · split at h
        · cases h
        · cases h
          intro d hd
          exact inv d hd

theorem foldl_date_valid : ∀ (lines : List String) (e e' : Entry),
    (∀ d, e.date = some d → validDT d = true) →
    List.foldlM Entry.fromLinesStep e lines = .ok e' →
    (∀ d, e'.date = some d → validDT d = true) := by
  intro lines
  induction lines with
  | nil =>
    intro e e' inv h
    simp only [List.foldlM_nil] at h
    cases h
    exact inv
  | cons x xs ih =>
    intro e e' inv h
    simp only [List.foldlM_cons] at h
    cases hx : Entry.fromLinesStep e x with
    | error err =>
      rw [hx, exBindErr] at h
      cases h
    | ok mid =>
      rw [hx, exBindOk] at h
      exact ih mid e' (fromLinesStep_date_valid e mid x hx inv) h

/-- If from_lines succeeds, the returned entry is the fold result. -/
theorem from_lines_ok (lines : List String) (e' : Entry)
    (h : Entry.from_lines lines = .ok e') :
    List.foldlM Entry.fromLinesStep emptyEntry lines = .ok e' ∧
    (e'.ipv4.getD "") ≠ "" ∧ e'.names ≠ [] := by
  unfold Entry.from_lines at h
  cases hf : List.foldlM Entry.fromLinesStep emptyEntry lines with
  | error err =>
    rw [hf] at h
    rw [show (Except.error err >>= fun e =>
      if (e.ipv4.getD "") = "" then (throw ParseError.noAddress : Except ParseError Entry)
      else if e.names = [] then throw ParseError.noNames
      else pure e) = Except.error err from rfl] at h
    cases h
  | ok mid =>
    rw [hf] at h
    rw [show (Except.ok mid >>= fun e =>
      if (e.ipv4.getD "") = "" then (throw ParseError.noAddress : Except ParseError Entry)
      else if e.names = [] then throw ParseError.noNames
      else pure e) = (if (mid.ipv4.getD "") = "" then throw ParseError.noAddress
      else if mid.names = [] then throw ParseError.noNames
      else pure mid) from rfl] at h
    by_cases h1 : (mid.ipv4.getD "") = ""
    · rw [if_pos h1] at h
      cases h
    · rw [if_neg h1] at h
      by_cases h2 : mid.names = []
      · rw [if_pos h2] at h
        cases h
      · rw [if_neg h2] at h
        have hme : mid = e' := by
          have h3 : (Except.ok mid : Except ParseError Entry) = Except.ok e' := h
          cases h3
          rfl
        subst hme
        exact ⟨rfl, h1, h2⟩

/-- C9: a date-looking line whose captured fields fail datetime range
validation (month 13, day 32, hour 25, year 0000 ...) is rejected by
set_date with the could-not-parse-date diagnostic, and consequently
every date carried by a successfully parsed Entry is a valid calendar
timestamp. -/
theorem c9_invalid_date_rejected (e : Entry) (line : String) (f : DateFields)
    (hd : e.date = none)
    (hm : dateMatch line = some f)
    (hv : validDT ⟨f.year, f.month, f.day, f.hour.getD 0, f.minute.getD 0,
            f.second.getD 0⟩ = false) :
    Entry.set_date e line = .error .couldNotParseDate ∧
    (∀ lines e', Entry.from_lines lines = .ok e' →
      ∀ d, e'.date = some d → validDT d = true) := by
  constructor
  · unfold Entry.set_date
    rw [hd]
    simp only [Option.isSome_none, Bool.false_eq_true, if_false]
    rw [hm]
    dsimp only
    rw [if_neg (by rw [hv]; exact fun hc => Bool.false_ne_true hc)]
  · intro lines e' h d hde
    have hfold := (from_lines_ok lines e' h).1
    exact foldl_date_valid lines emptyEntry e'
      (fun d0 hd0 => by cases hd0) hfold d hde

/-- Witness for C9 at month 13. -/
theorem c9_invalid_date_rejected_witness :
    Entry.set_date emptyEntry "## DATE 2010-13-01" = .error .couldNotParseDate :=
  (c9_invalid_date_rejected emptyEntry "## DATE 2010-13-01"
    ⟨2010, 13, 1, none, none, none, none⟩ rfl (by decide) (by decide)).1

theorem combine_comments_spec (other : List String) : ∀ (merged known : List String),
    ∃ app, combine_comments merged other known =
        (merged ++ app, known ++ app.map strip_comment) ∧
      (app.map strip_comment).Nodup ∧
      (∀ s ∈ app.map strip_comment, s ∉ known) ∧
      (∀ c ∈ other, strip_comment c ∈ known ++ app.map strip_comment) := by
  induction other with
  | nil =>
    intro merged known
    exact ⟨[], by simp [combine_comments]⟩
  | cons c cs ih =>
    intro merged known
    by_cases hc : strip_comment c ∈ known
    · obtain ⟨app, happ, hnd, hnk, hall⟩ := ih merged known
      refine ⟨app, ?_, hnd, hnk, ?_⟩
      · rw [combine_comments, if_pos hc]
        exact happ
      · intro c2 hc2
        simp only [List.mem_cons] at hc2
        rcases hc2 with hc2 | hc2
        · subst hc2
          exact List.mem_append_left _ hc
        · exact hall c2 hc2
    · obtain ⟨app, happ, hnd, hnk, hall⟩ := ih (merged ++ [c]) (known ++ [strip_comment c])
      refine ⟨c :: app, ?_, ?_, ?_, ?_⟩
      · rw [combine_comments, if_neg hc, happ]
        simp
      · simp only [List.map_cons, List.nodup_cons]
        constructor
        · intro hmem
          have := hnk _ hmem
          simp at this
        · exact hnd
      · intro s hs
        simp only [List.map_cons, List.mem_cons] at hs
        rcases hs with hs | hs
        · subst hs
          exact hc
        · intro hks
          exact hnk s hs (List.mem_append_left _ hks)
      · intro c2 hc2
        simp only [List.mem_cons] at hc2
        rcases hc2 with hc2 | hc2
        · subst hc2
          simp
        · have := hall c2 hc2
          simp only [List.mem_append, List.mem_singleton, List.map_cons,
            List.mem_cons] at this ⊢
          tauto

theorem conflict_fold (m0 : List String) (others : List Entry) :
    ∀ (acc : List String),
    (acc.map strip_comment).Nodup →
    (∀ s ∈ acc.map strip_comment, s ∉ m0.map strip_comment) →
    ∃ app,
      others.foldl (fun (a : List String × List String) o => combine_comments a.1
          (o.comments ++ ["## CONFLICT: " ++ o.ipv4.getD "None"]) a.2)
        (m0 ++ acc, m0.map strip_comment ++ acc.map strip_comment)
      = (m0 ++ (acc ++ app),
         m0.map strip_comment ++ (acc ++ app).map strip_comment) ∧
      ((acc ++ app).map strip_comment).Nodup ∧
      (∀ s ∈ (acc ++ app).map strip_comment, s ∉ m0.map strip_comment) ∧
      (∀ o ∈ others, strip_comment ("## CONFLICT: " ++ o.ipv4.getD "None") ∈
        m0.map strip_comment ++ (acc ++ app).map strip_comment) := by
  induction others with
  | nil =>
    intro acc hnd hdisj
    refine ⟨[], by simp, by simpa using hnd, by simpa using hdisj, by simp⟩
  | cons o os ih =>
    intro acc hnd hdisj
    obtain ⟨app1, heq1, hnd1, hnk1, hall1⟩ :=
      combine_comments_spec (o.comments ++ ["## CONFLICT: " ++ o.ipv4.getD "None"])
        (m0 ++ acc) (m0.map strip_comment ++ acc.map strip_comment)
    have hnd2 : ((acc ++ app1).map strip_comment).Nodup := by
      simp only [List.map_append]
      rw [List.nodup_append]
      refine ⟨hnd, hnd1, ?_⟩
      intro s hs hs2
      exact hnk1 s hs2 (List.mem_append_right _ hs)
    have hdisj2 : ∀ s ∈ (acc ++ app1).map strip_comment, s ∉ m0.map strip_comment := by
      intro s hs
      simp only [List.map_append, List.mem_append] at hs
      rcases hs with hs | hs
      · exact hdisj s hs
      · intro hm
        exact hnk1 s hs (List.mem_append_left _ hm)
    obtain ⟨app2, heq2, hnd3, hdisj3, hmark3⟩ := ih (acc ++ app1) hnd2 hdisj2
    refine ⟨app1 ++ app2, ?_, ?_, ?_, ?_⟩
    · simp only [List.foldl_cons]
      rw [heq1]
      have e1 : (m0 ++ acc) ++ app1 = m0 ++ (acc ++ app1) := by simp
      have e2 : (m0.map strip_comment ++ acc.map strip_comment) ++ app1.map strip_comment
          = m0.map strip_comment ++ (acc ++ app1).map strip_comment := by simp
      rw [e1, e2, heq2]
      simp
    · simpa [List.append_assoc] using hnd3
    · intro s hs
      apply hdisj3 s
      simpa [List.append_assoc] using hs
    · intro o2 ho2
      simp only [List.mem_cons] at ho2
      rcases ho2 with ho2 | ho2
      · subst ho2
        have hm := hall1 ("## CONFLICT: " ++ o2.ipv4.getD "None")
          (List.mem_append_right _ (List.mem_singleton.mpr rfl))
        simp only [List.mem_append] at hm ⊢
        simp only [List.map_append, List.mem_append] at hm ⊢
        tauto
      · have := hmark3 o2 ho2
        simpa [List.append_assoc] using this

/-- C1: a bucket reaching forced conflict resolution (single shared
name, equal dates, more than one distinct address): quiet/strict mode
raises the conflict error carrying the shared name and the list of
every conflicting address, and returns no result; lenient mode returns
exactly the first-listed entry, its comments extended by one CONFLICT
marker per discarded address, each marker de-duplicated (by normalized
text) against the comments already present. -/
theorem c1_merge_force_conflict (e0 : Entry) (tail : List Entry) (name : String)
    (hlen : 1 < (e0 :: tail).length)
    (hnames : ∀ e ∈ e0 :: tail, e.names = [name])
    (hdates : ∀ e ∈ e0 :: tail, e.date = e0.date)
    (haddr : ((e0 :: tail).map (fun e => e.ipv4)).Nodup) :
    merge_force (e0 :: tail) true =
      .error (.conflicting ((e0 :: tail).map (fun e => e.ipv4)) name) ∧
    ∃ app : List String,
      merge_force (e0 :: tail) false =
        .ok [{ e0 with comments := e0.comments ++ app }] ∧
      (app.map strip_comment).Nodup ∧
      (∀ s ∈ app.map strip_comment, s ∉ e0.comments.map strip_comment) ∧
      (∀ o ∈ tail, strip_comment ("## CONFLICT: " ++ o.ipv4.getD "None") ∈
        (e0.comments ++ app).map strip_comment) := by
  have hg2 : ((e0 :: tail).all (fun e => e.names.length = 1)) = true := by
    rw [List.all_eq_true]
    intro e he
    rw [hnames e he]
    simp
  have hg3 : ((e0 :: tail).all
      (fun e => decide (e.date = ((e0 :: tail).headD emptyEntry).date))) = true := by
    rw [List.all_eq_true]
    intro e he
    simp only [List.headD_cons]
    exact decide_eq_true (hdates e he)
  have hg4 : decide ((e0 :: tail).map (fun e => e.ipv4)).Nodup = true :=
    decide_eq_true haddr
  have hname0 : e0.names = [name] := hnames e0 (List.mem_cons_self _ _)
  constructor
  · unfold merge_force
    simp only [List.isEmpty_cons, hg2, hg3, hg4, Bool.not_true, Bool.false_eq_true,
      if_false, if_true, ite_true, ite_false]
    rw [hname0]
    rfl
  · have hcf := conflict_fold e0.comments tail [] (by simp) (by simp)
    simp only [List.append_nil, List.map_nil, List.nil_append] at hcf
    obtain ⟨app, heq, hnd, hdisj, hmark⟩ := hcf
    refine ⟨app, ?_, hnd, hdisj, ?_⟩
    · unfold merge_force
      simp only [List.isEmpty_cons, hg2, hg3, hg4, Bool.not_true, Bool.false_eq_true,
        if_false, if_true, ite_true, ite_false]
      rw [heq]
    · intro o ho
      have := hmark o ho
      simpa using this

/-- Witness for C1 at the spec's example: name x, addresses 1.2 and
1.3, both dated 2010-01-01. -/
theorem c1_merge_force_conflict_witness :
    merge_force [⟨some "1.2", ["x"], some ⟨2010, 1, 1, 0, 0, 0⟩, none, []⟩,
                 ⟨some "1.3", ["x"], some ⟨2010, 1, 1, 0, 0, 0⟩, none, []⟩] true =
      .error (.conflicting
        ([⟨some "1.2", ["x"], some ⟨2010, 1, 1, 0, 0, 0⟩, none, []⟩,
          (⟨some "1.3", ["x"], some ⟨2010, 1, 1, 0, 0, 0⟩, none, []⟩ : Entry)].map
            (fun e => e.ipv4)) "x") ∧
    ∃ app : List String,
      merge_force [⟨some "1.2", ["x"], some ⟨2010, 1, 1, 0, 0, 0⟩, none, []⟩,
                   ⟨some "1.3", ["x"], some ⟨2010, 1, 1, 0, 0, 0⟩, none, []⟩] false =
        .ok [{ (⟨some "1.2", ["x"], some ⟨2010, 1, 1, 0, 0, 0⟩, none, []⟩ : Entry) with
               comments := [] ++ app }] ∧
      (app.map strip_comment).Nodup ∧
      (∀ s ∈ app.map strip_comment, s ∉ ([] : List String).map strip_comment) ∧
      (∀ o ∈ [(⟨some "1.3", ["x"], some ⟨2010, 1, 1, 0, 0, 0⟩, none, []⟩ : Entry)],
        strip_comment ("## CONFLICT: " ++ o.ipv4.getD "None") ∈
          (([] : List String) ++ app).map strip_comment) :=
  c1_merge_force_conflict
    ⟨some "1.2", ["x"], some ⟨2010, 1, 1, 0, 0, 0⟩, none, []⟩
    [⟨some "1.3", ["x"], some ⟨2010, 1, 1, 0, 0, 0⟩, none, []⟩] "x"
    (by decide) (by decide) (by decide) (by decide)

theorem dtLe_iff (a b : DateTime) : dtLe a b = true ↔
    (a.year < b.year ∨ (a.year = b.year ∧ (a.month < b.month ∨ (a.month = b.month ∧
      (a.day < b.day ∨ (a.day = b.day ∧ (a.hour < b.hour ∨ (a.hour = b.hour ∧
        (a.minute < b.minute ∨ (a.minute = b.minute ∧
          a.second ≤ b.second)))))))))) := by
  unfold dtLe
  exact decide_eq_true_iff

theorem dtLe_refl (a : DateTime) : dtLe a a = true :=
  (dtLe_iff a a).mpr (by omega)

theorem dtLe_false (a b : DateTime) (h : dtLe a b = false) : dtLe b a = true := by
  have hnot : ¬ (dtLe a b = true) := by
    rw [h]
    exact Bool.false_ne_true
  have p1 := (not_congr (dtLe_iff a b)).mp hnot
  exact (dtLe_iff b a).mpr (by omega)

theorem dtLe_trans (a b c : DateTime) (h1 : dtLe a b = true) (h2 : dtLe b c = true) :
    dtLe a c = true := by
  have p1 := (dtLe_iff a b).mp h1
  have p2 := (dtLe_iff b c).mp h2
  exact (dtLe_iff a c).mpr (by omega)

theorem dtLe_antisymm (a b : DateTime) (h1 : dtLe a b = true) (h2 : dtLe b a = true) :
    a = b := by
  have p1 := (dtLe_iff a b).mp h1
  have p2 := (dtLe_iff b a).mp h2
  cases a with
  | mk y1 mo1 d1 hr1 mi1 s1 =>
    cases b with
    | mk y2 mo2 d2 hr2 mi2 s2 =>
      simp only [DateTime.mk.injEq]
      simp only at p1 p2
      omega

theorem insertDateDesc_perm (a : Entry) (l : List Entry) :
    (insertDateDesc a l).Perm (a :: l) := by
  induction l with
  | nil => simp [insertDateDesc]
  | cons b bs ih =>
    rw [insertDateDesc]
    by_cases h : dtLe (dkey b) (dkey a)
    · simp [h]
    · simp only [h, Bool.false_eq_true, if_false]
      exact ((ih.cons b).trans (List.Perm.swap a b bs)).symm.symm

theorem sortDateDesc_perm (l : List Entry) : (sortDateDesc l).Perm l := by
  induction l with
  | nil => simp [sortDateDesc]
  | cons a as ih =>
    rw [sortDateDesc]
    exact (insertDateDesc_perm a (sortDateDesc as)).trans (ih.cons a)

theorem insertDateDesc_head_dom (a : Entry) (l : List Entry)
    (hdom : ∀ x ∈ l, dtLe (dkey x) (dkey (l.headD emptyEntry)) = true) :
    ∀ x ∈ a :: l,
      dtLe (dkey x) (dkey ((insertDateDesc a l).headD emptyEntry)) = true := by
  cases l with
  | nil =>
    intro x hx
    simp only [List.mem_singleton] at hx
    subst hx
    simp [insertDateDesc, dtLe_refl]
  | cons b bs =>
    by_cases hab : dtLe (dkey b) (dkey a)
    · intro x hx
      rw [insertDateDesc, if_pos hab]
      simp only [List.headD_cons]
      simp only [List.mem_cons] at hx
      rcases hx with hx | hx | hx
      · subst hx; exact dtLe_refl _
      · subst hx; exact hab
      · exact dtLe_trans _ _ _ (hdom x (List.mem_cons_of_mem b hx)) hab
    · intro x hx
      rw [insertDateDesc, if_neg hab]
      simp only [List.headD_cons]
      simp only [List.mem_cons] at hx
      rcases hx with hx | hx | hx
      · subst hx
        exact dtLe_false _ _ (by revert hab; cases hq : dtLe (dkey b) (dkey x) <;> simp)
      · subst hx
        exact dtLe_refl _
      · exact hdom x (List.mem_cons_of_mem b hx)

theorem sortDateDesc_head_dom (l : List Entry) :
    ∀ x ∈ l, dtLe (dkey x) (dkey ((sortDateDesc l).headD emptyEntry)) = true := by
  induction l with
  | nil => intro x hx; cases hx
  | cons a as ih =>
    rw [sortDateDesc]
    intro x hx
    have hperm := sortDateDesc_perm as
    have hdom : ∀ y ∈ sortDateDesc as,
        dtLe (dkey y) (dkey ((sortDateDesc as).headD emptyEntry)) = true := by
      intro y hy
      exact ih y (hperm.mem_iff.mp hy)
    have hall : ∀ y ∈ a :: sortDateDesc as,
        dtLe (dkey y) (dkey ((insertDateDesc a (sortDateDesc as)).headD emptyEntry))
          = true := insertDateDesc_head_dom a (sortDateDesc as) hdom
    simp only [List.mem_cons] at hx
    rcases hx with hx | hx
    · subst hx
      exact hall x (List.mem_cons_self _ _)
    · exact hall x (List.mem_cons_of_mem _ ((hperm.mem_iff).mpr hx))

/-- C6: for a non-empty bucket of single-name entries, merge_by_date
returns the bucket unchanged when no entry is dated, and otherwise
returns exactly the entries dated at the maximum date present (all
undated and earlier-dated entries dropped, all ties kept). -/
theorem c6_merge_by_date (bucket : List Entry)
    (hne : bucket ≠ [])
    (hnames : ∀ e ∈ bucket, e.names.length = 1) :
    ((∀ e ∈ bucket, e.date = none) → merge_by_date bucket = .ok bucket) ∧
    (∀ m : DateTime, (∃ e ∈ bucket, e.date = some m) →
      (∀ e ∈ bucket, ∀ d, e.date = some d → dtLe d m = true) →
      ∃ res, merge_by_date bucket = .ok res ∧
        res.Perm (bucket.filter (fun e => decide (e.date = some m)))) := by
  have hg1 : bucket.isEmpty = false := by
    cases bucket with
    | nil => exact absurd rfl hne
    | cons a as => rfl
  have hg2 : (bucket.all (fun e => e.names.length = 1)) = true := by
    rw [List.all_eq_true]
    intro e he
    exact decide_eq_true (hnames e he)
  constructor
  · intro hnone
    have hwd : bucket.filter (fun e => e.date.isSome) = [] := by
      rw [List.filter_eq_nil_iff]
      intro e he
      rw [hnone e he]
      simp
    unfold merge_by_date
    rw [hg1, hg2]
    simp only [Bool.false_eq_true, if_false, Bool.not_true, hwd]
    rfl
  · intro m hm hub
    obtain ⟨em, hemb, hemd⟩ := hm
    have hwdm : em ∈ bucket.filter (fun e => e.date.isSome) := by
      rw [List.mem_filter]
      exact ⟨hemb, by rw [hemd]; rfl⟩
    have hwdne : bucket.filter (fun e => e.date.isSome) ≠ [] :=
      List.ne_nil_of_mem hwdm
    cases hs : sortDateDesc (bucket.filter (fun e => e.date.isSome)) with
    | nil =>
      have := (sortDateDesc_perm (bucket.filter (fun e => e.date.isSome))).length_eq
      rw [hs] at this
      cases hb : bucket.filter (fun e => e.date.isSome) with
      | nil => exact absurd hb hwdne
      | cons x xs => rw [hb] at this; simp at this
    | cons h0 t =>
      have hperm : (h0 :: t).Perm (bucket.filter (fun e => e.date.isSome)) := by
        rw [← hs]; exact sortDateDesc_perm _
      have hh0wd : h0 ∈ bucket.filter (fun e => e.date.isSome) :=
        hperm.mem_iff.mp (List.mem_cons_self _ _)
      have hh0b : h0 ∈ bucket := List.mem_of_mem_filter hh0wd
      have hh0some : h0.date.isSome = true := (List.mem_filter.mp hh0wd).2
      obtain ⟨dh, hdh⟩ := Option.isSome_iff_exists.mp hh0some
      have hdom : ∀ x ∈ bucket.filter (fun e => e.date.isSome),
          dtLe (dkey x) (dkey h0) = true := by
        intro x hx
        have := sortDateDesc_head_dom (bucket.filter (fun e => e.date.isSome)) x hx
        rw [hs] at this
        simpa using this
      have hle1 : dtLe m (dkey h0) = true := by
        have := hdom em hwdm
        have hkm : dkey em = m := by unfold dkey; rw [hemd]; rfl
        rw [hkm] at this
        exact this
      have hle2 : dtLe (dkey h0) m = true := by
        have := hub h0 hh0b dh hdh
        have hk : dkey h0 = dh := by unfold dkey; rw [hdh]; rfl
        rw [hk]
        exact this
      have hdm : h0.date = some m := by
        have := dtLe_antisymm _ _ hle2 hle1
        rw [hdh]
        have hk : dkey h0 = dh := by unfold dkey; rw [hdh]; rfl
        rw [hk] at this
        rw [this]
      refine ⟨(h0 :: t).filter (fun e => decide (e.date = some m)), ?_, ?_⟩
      · unfold merge_by_date
        rw [hg1, hg2]
        simp only [Bool.false_eq_true, if_false, Bool.not_true]
        have hwdE : (bucket.filter (fun e => e.date.isSome)).isEmpty = false := by
          cases hb : bucket.filter (fun e => e.date.isSome) with
          | nil => exact absurd hb hwdne
          | cons x xs => rfl
        rw [hwdE]
        simp only [Bool.false_eq_true, if_false]
        rw [hs]
        simp only [List.headD_cons, hdm]
      · have hp1 : ((h0 :: t).filter (fun e => decide (e.date = some m))).Perm
            ((bucket.filter (fun e => e.date.isSome)).filter
              (fun e => decide (e.date = some m))) :=
          hperm.filter _
        have hp2 : (bucket.filter (fun e => e.date.isSome)).filter
            (fun e => decide (e.date = some m)) =
            bucket.filter (fun e => decide (e.date = some m)) := by
          rw [List.filter_filter]
          apply List.filter_congr
          intro e he
          cases hde : e.date with
          | none => simp [hde]
          | some d => simp [hde]
        rw [hp2] at hp1
        exact hp1

/-- Witness for C6: entries for name x dated 2009-01-01 and 2010-01-01;
only the 2010 entry survives. -/
theorem c6_merge_by_date_witness :
    ∃ res, merge_by_date
        [⟨some "1.1", ["x"], some ⟨2009, 1, 1, 0, 0, 0⟩, none, []⟩,
         ⟨some "1.2", ["x"], some ⟨2010, 1, 1, 0, 0, 0⟩, none, []⟩] = .ok res ∧
      res.Perm ([⟨some "1.1", ["x"], some ⟨2009, 1, 1, 0, 0, 0⟩, none, []⟩,
         (⟨some "1.2", ["x"], some ⟨2010, 1, 1, 0, 0, 0⟩, none, []⟩ : Entry)].filter
           (fun e => decide (e.date = some ⟨2010, 1, 1, 0, 0, 0⟩))) :=
  (c6_merge_by_date
    [⟨some "1.1", ["x"], some ⟨2009, 1, 1, 0, 0, 0⟩, none, []⟩,
     ⟨some "1.2", ["x"], some ⟨2010, 1, 1, 0, 0, 0⟩, none, []⟩]
    (by decide) (by decide)).2 ⟨2010, 1, 1, 0, 0, 0⟩
    ⟨⟨some "1.2", ["x"], some ⟨2010, 1, 1, 0, 0, 0⟩, none, []⟩, by decide, rfl⟩
    (by decide)

theorem parseAux_no_begin (rest : List String) :
    ∀ acc : List String,
    (∀ r ∈ rest, beginMatch (normalizeLine r) = false) →
    parseAux false rest true acc =
      .ok (if (acc ++ rest.map normalizeLine).isEmpty then []
           else [.text (acc ++ rest.map normalizeLine)]) := by
  induction rest with
  | nil =>
    intro acc hnb
    simp only [List.map_nil, List.append_nil]
    rw [parseAux]
    simp only [if_true, ite_true]
    cases acc <;> rfl
  | cons r rs ih =>
    intro acc hnb
    rw [parseAux]
    simp only [if_true, ite_true]
    rw [hnb r (List.mem_cons_self _ _)]
    simp only [Bool.false_eq_true, if_false]
    rw [ih (acc ++ [normalizeLine r]) (fun x hx => hnb x (List.mem_cons_of_mem _ hx))]
    simp

/-- C8: in lenient mode, when the accumulated block lines plus the
current (non-end, non-comment) line fail to parse, the extractor yields
no entry for them, discards them, and falls back to OUTSIDE; and while
no further begin marker appears, everything after is one pass-through
text unit (or nothing, if there are no further lines). -/
theorem c8_parse_failure_falls_outside (line : String) (rest : List String)
    (lines : List String) (err : ParseError)
    (hend : endMatch (normalizeLine line) = false)
    (hcb : commentOrBlank (normalizeLine line) = false)
    (hfail : Entry.from_lines (lines ++ [normalizeLine line]) = .error err) :
    parseAux false (line :: rest) false lines = parseAux false rest true [] ∧
    ((∀ r ∈ rest, beginMatch (normalizeLine r) = false) →
      parseAux false rest true [] =
        .ok (if rest.isEmpty then [] else [.text (rest.map normalizeLine)])) := by
  constructor
  · rw [parseAux]
    simp only [Bool.false_eq_true, if_false]
    rw [hend]
    simp only [Bool.false_eq_true, if_false]
    rw [hcb]
    simp only [Bool.not_false, if_true, ite_true]
    rw [hfail]
    simp
  · intro hnb
    rw [parseAux_no_begin rest [] hnb]
    simp only [List.nil_append]
    cases rest <;> simp

/-- Witness for C8: the group ["1.2.3.4"] has no names and fails;
state falls back to OUTSIDE and the rest is pass-through text. -/
theorem c8_parse_failure_falls_outside_witness :
    parseAux false ["1.2.3.4", "tail"] false [] = parseAux false ["tail"] true [] ∧
    parseAux false ["tail"] true [] = .ok [.text ["tail"]] := by
  have h := c8_parse_failure_falls_outside "1.2.3.4" ["tail"] [] .noNames
    (by decide) (by decide) rfl
  refine ⟨h.1, ?_⟩
  have h2 := h.2 (by decide)
  simpa using h2

theorem fromLinesStep_comments (e e' : Entry) (line : String)
    (h : Entry.fromLinesStep e line = .ok e') :
    ∀ c ∈ e'.comments, c ∈ e.comments ∨ c = line := by
  unfold Entry.fromLinesStep at h
  split at h
  · unfold Entry.set_date at h
    split at h
    · cases h
    · split at h
      · cases h
      · dsimp only at h
        split at h
        · cases h
          intro c hc
          exact Or.inl hc
        · cases h
  · split at h
    · cases h
      intro c hc
      simp only [List.mem_append, List.mem_singleton] at hc
      rcases hc with hc | hc
      · exact Or.inl hc
      · exact Or.inr hc
    · unfold Entry.set_address at h
      split at h
      · cases h
      · split at h
        · cases h
        · cases h
          intro c hc
          exact Or.inl hc

theorem foldl_comments : ∀ (ls : List String) (e e' : Entry),
    List.foldlM Entry.fromLinesStep e ls = .ok e' →
    ∀ c ∈ e'.comments, c ∈ e.comments ∨ c ∈ ls := by
  intro ls
  induction ls with
  | nil =>
    intro e e' h
    simp only [List.foldlM_nil] at h
    cases h
    intro c hc
    exact Or.inl hc
  | cons x xs ih =>
    intro e e' h
    simp only [List.foldlM_cons] at h
    cases hx : Entry.fromLinesStep e x with
    | error err => rw [hx, exBindErr] at h; cases h
    | ok mid =>
      rw [hx, exBindOk] at h
      intro c hc
      rcases ih mid e' h c hc with hm | hm
      · rcases fromLinesStep_comments e mid x hx c hm with hm2 | hm2
        · exact Or.inl hm2
        · exact Or.inr (by rw [hm2]; exact List.mem_cons_self _ _)
      · exact Or.inr (List.mem_cons_of_mem _ hm)

theorem from_lines_comments (ls : List String) (e' : Entry)
    (h : Entry.from_lines ls = .ok e') : ∀ c ∈ e'.comments, c ∈ ls := by
  intro c hc
  have hfold := (from_lines_ok ls e' h).1
  rcases foldl_comments ls emptyEntry e' hfold c hc with hm | hm
  · cases hm
  · exact hm

/-- The strings carried by one parse unit: the raw lines of a
pass-through unit, the comments of an entry unit. -/
def itemStrings : Item → List String
  | .text ls => ls
  | .entry e => e.comments

theorem parseAux_sources (fragile : Bool) :
    ∀ (contents : List String) (inText : Bool) (acc : List String) (items : List Item),
    parseAux fragile contents inText acc = .ok items →
    ∀ item ∈ items, ∀ s ∈ itemStrings item,
      s ∈ acc ∨ ∃ l, l ∈ contents ∧ s = normalizeLine l := by
  intro contents
  induction contents with
  | nil =>
    intro inText acc items h item hitem s hs
    rw [parseAux] at h
    cases inText with
    | true =>
      simp only [if_true, ite_true] at h
      by_cases hacc : acc.isEmpty
      · rw [if_pos hacc] at h
        cases h
        cases hitem
      · rw [if_neg hacc] at h
        cases h
        simp only [List.mem_singleton] at hitem
        subst hitem
        exact Or.inl hs
    | false =>
      cases fragile with
      | true =>
        simp only [Bool.false_eq_true, if_false, if_true, ite_true] at h
        split at h <;> cases h
      | false =>
        simp only [Bool.false_eq_true, if_false] at h
        cases h
        cases hitem
  | cons line rest ih =>
    intro inText acc items h item hitem s hs
    rw [parseAux] at h
    cases inText with
    | true =>
      simp only [if_true, ite_true] at h
      by_cases hbm : beginMatch (normalizeLine line)
      · rw [if_pos hbm] at h
        cases hrec : parseAux fragile rest false [] with
        | error err => rw [hrec] at h; cases h
        | ok items2 =>
          rw [hrec] at h
          cases h
          simp only [List.mem_append] at hitem
          rcases hitem with hitem | hitem
          · by_cases hacc : acc.isEmpty
            · rw [if_pos hacc] at hitem; cases hitem
            · rw [if_neg hacc] at hitem
              simp only [List.mem_singleton] at hitem
              subst hitem
              exact Or.inl hs
          · rcases ih false [] items2 hrec item hitem s hs with hm | ⟨l, hl, he⟩
            · cases hm
            · exact Or.inr ⟨l, List.mem_cons_of_mem _ hl, he⟩
      · rw [if_neg hbm] at h
        rcases ih true (acc ++ [normalizeLine line]) items h item hitem s hs with
          hm | ⟨l, hl, he⟩
        · simp only [List.mem_append, List.mem_singleton] at hm
          rcases hm with hm | hm
          · exact Or.inl hm
          · exact Or.inr ⟨line, List.mem_cons_self _ _, hm⟩
        · exact Or.inr ⟨l, List.mem_cons_of_mem _ hl, he⟩
    | false =>
      simp only [Bool.false_eq_true, if_false] at h
      by_cases hem : endMatch (normalizeLine line)
      · rw [if_pos hem] at h
        by_cases hfr : (fragile && !(joinEmpty acc)) = true
        · rw [if_pos hfr] at h; cases h
        · rw [if_neg hfr] at h
          rcases ih true [] items h item hitem s hs with hm | ⟨l, hl, he⟩
          · cases hm
          · exact Or.inr ⟨l, List.mem_cons_of_mem _ hl, he⟩
      · rw [if_neg hem] at h
        by_cases hcb : commentOrBlank (normalizeLine line)
        · rw [if_neg (by rw [hcb]; simp)] at h
          rcases ih false (acc ++ [normalizeLine line]) items h item hitem s hs with
            hm | ⟨l, hl, he⟩
          · simp only [List.mem_append, List.mem_singleton] at hm
            rcases hm with hm | hm
            · exact Or.inl hm
            · exact Or.inr ⟨line, List.mem_cons_self _ _, hm⟩
          · exact Or.inr ⟨l, List.mem_cons_of_mem _ hl, he⟩
        · have hcb2 : commentOrBlank (normalizeLine line) = false := by
            revert hcb
            cases commentOrBlank (normalizeLine line) <;> simp
          rw [if_pos (by rw [hcb2]; rfl)] at h
          cases hfl : Entry.from_lines (acc ++ [normalizeLine line]) with
          | ok e =>
            rw [hfl] at h
            cases hrec : parseAux fragile rest false [] with
            | error err => rw [hrec] at h; cases h
            | ok items2 =>
              rw [hrec] at h
              cases h
              simp only [List.mem_cons] at hitem
              rcases hitem with hitem | hitem
              · subst hitem
                have hcs := from_lines_comments _ _ hfl s hs
                simp only [List.mem_append, List.mem_singleton] at hcs
                rcases hcs with hcs | hcs
                · exact Or.inl hcs
                · exact Or.inr ⟨line, List.mem_cons_self _ _, hcs⟩
              · rcases ih false [] items2 hrec item hitem s hs with hm | ⟨l, hl, he⟩
                · cases hm
                · exact Or.inr ⟨l, List.mem_cons_of_mem _ hl, he⟩
          | error err =>
            rw [hfl] at h
            by_cases hfr : (fragile && !(joinEmpty (acc ++ [normalizeLine line]))) = true
            · rw [if_pos hfr] at h; cases h
            · rw [if_neg hfr] at h
              rcases ih true [] items h item hitem s hs with hm | ⟨l, hl, he⟩
              · cases hm
              · exact Or.inr ⟨l, List.mem_cons_of_mem _ hl, he⟩

/-- C10: every line of a pass-through unit and every comment of an
entry unit produced by parse is some input line with markup removed and
whitespace stripped (no raw line with markup or surrounding whitespace
is emitted verbatim). -/
theorem c10_emitted_lines_are_normalized (contents : List String) (fragile : Bool)
    (items : List Item) (h : parse contents fragile = .ok items) :
    ∀ item ∈ items, ∀ s ∈ itemStrings item,
      ∃ l, l ∈ contents ∧ s = normalizeLine l := by
  intro item hitem s hs
  rcases parseAux_sources fragile contents true [] items h item hitem s hs with
    hm | he
  · cases hm
  · exact he

/-- Witness for C10 on a concrete stream with markup and indentation. -/
theorem c10_emitted_lines_are_normalized_witness :
    ∃ l, l ∈ ["  a <b>x ", "### BEGIN GHETTONET", "# c", "1.2.3.4 h", "### END GHETTONET"] ∧
      "a x" = normalizeLine l := by
  have hp : parse ["  a <b>x ", "### BEGIN GHETTONET", "# c", "1.2.3.4 h",
      "### END GHETTONET"] false =
      .ok [.text ["a x"],
           .entry ⟨some "1.2.3.4", ["h"], none, none, ["# c"]⟩] := rfl
  exact c10_emitted_lines_are_normalized _ false _ hp (.text ["a x"])
    (List.mem_cons_self _ _) "a x" (List.mem_singleton.mpr rfl)

/-- Modelled from the claim's words (not the source): a "dotted 4-part
numeric token" — exactly four nonempty unbounded digit runs separated
by literal '.' characters. -/
def splitOnDot : List Char → List (List Char)
  | [] => [[]]
  | c :: rest =>
    let r := splitOnDot rest
    if c = '.' then [] :: r
    else
      match r with
      | [] => [[c]]
      | p :: ps => (c :: p) :: ps

/-- Modelled from the claim's words (not the source): the claimed
acceptance shape for an address token. -/
def specDottedQuad (l : List Char) : Bool :=
  (splitOnDot l).length = 4 &&
    (splitOnDot l).all (fun p => !p.isEmpty && p.all isDigitC)

/-- C4 counterexample: "1a2b3c4 x" is accepted as an address line with
address token "1a2b3c4", which is not a dotted 4-part numeric token
(the IPV4 pattern's dots are unescaped, so they match any character,
and each digit run is capped at 3 digits); conversely "1.2.3.4 ." has
a dotted-quad leading token yet is rejected (its remainder fails the
name loop), so acceptance is not determined by the leading token. -/
theorem c4_counterexample :
    Entry.set_address emptyEntry "1a2b3c4 x" =
      .ok ⟨some "1a2b3c4", ["x"], none, none, []⟩ ∧
    specDottedQuad "1a2b3c4".data = false ∧
    Entry.set_address emptyEntry "1.2.3.4 ." = .error .couldNotParseAddresses ∧
    specDottedQuad "1.2.3.4".data = true :=
  ⟨rfl, rfl, rfl, rfl⟩

theorem takeD_sound : ∀ (n : Nat) (l t r : List Char), takeD n l = some (t, r) →
    l = t ++ r ∧ t.length = n ∧ t.all isDigitC = true := by
  intro n
  induction n with
  | zero =>
    intro l t r h
    rw [takeD] at h
    cases h
    exact ⟨rfl, rfl, rfl⟩
  | succ n ih =>
    intro l t r h
    cases l with
    | nil => rw [takeD] at h; cases h
    | cons c cs =>
      rw [takeD] at h
      split at h
      · rename_i hd
        cases hr : takeD n cs with
        | none => rw [hr] at h; cases h
        | some p =>
          cases p with
          | mk t2 r2 =>
            rw [hr] at h
            obtain ⟨he, hl, ha⟩ := ih cs t2 r2 hr
            cases h
            refine ⟨by rw [he]; rfl, by simp [hl], ?_⟩
            simp only [List.all_cons, Bool.and_eq_true]
            exact ⟨hd, ha⟩
      · cases h

theorem takeD_exact : ∀ (t r : List Char), t.all isDigitC = true →
    takeD t.length (t ++ r) = some (t, r) := by
  intro t
  induction t with
  | nil => intro r _; rfl
  | cons c cs ih =>
    intro r ha
    simp only [List.all_cons, Bool.and_eq_true] at ha
    simp only [List.length_cons, List.cons_append]
    rw [takeD]
    rw [if_pos ha.1]
    rw [ih r ha.2]

theorem digits123_sound {α} (l : List Char) (k : List Char → List Char → Option α)
    (x : α) (h : digits123 l k = some x) :
    ∃ t r, l = t ++ r ∧ 1 ≤ t.length ∧ t.length ≤ 3 ∧ t.all isDigitC = true ∧
      k t r = some x := by
  unfold digits123 at h
  split at h
  · rename_i t3 r3 h3
    split at h
    · rename_i hx
      cases h
      obtain ⟨he, hl, ha⟩ := takeD_sound 3 l t3 r3 h3
      exact ⟨t3, r3, he, by omega, by omega, ha, hx⟩
    · split at h
      · rename_i t2 r2 h2
        split at h
        · rename_i hx
          cases h
          obtain ⟨he, hl, ha⟩ := takeD_sound 2 l t2 r2 h2
          exact ⟨t2, r2, he, by omega, by omega, ha, hx⟩
        · split at h
          · rename_i t1 r1 h1
            obtain ⟨he, hl, ha⟩ := takeD_sound 1 l t1 r1 h1
            exact ⟨t1, r1, he, by omega, by omega, ha, h⟩
          · cases h
      · split at h
        · rename_i t1 r1 h1
          obtain ⟨he, hl, ha⟩ := takeD_sound 1 l t1 r1 h1
          exact ⟨t1, r1, he, by omega, by omega, ha, h⟩
        · cases h
  · split at h
    · rename_i t2 r2 h2
      split at h
      · rename_i hx
        cases h
        obtain ⟨he, hl, ha⟩ := takeD_sound 2 l t2 r2 h2
        exact ⟨t2, r2, he, by omega, by omega, ha, hx⟩
      · split at h
        · rename_i t1 r1 h1
          obtain ⟨he, hl, ha⟩ := takeD_sound 1 l t1 r1 h1
          exact ⟨t1, r1, he, by omega, by omega, ha, h⟩
        · cases h
    · split at h
      · rename_i t1 r1 h1
        obtain ⟨he, hl, ha⟩ := takeD_sound 1 l t1 r1 h1
        exact ⟨t1, r1, he, by omega, by omega, ha, h⟩
      · cases h

theorem digits123_complete {A} (l : List Char) (k : List Char → List Char → Option A)
    (t r : List Char) (hl : l = t ++ r) (h1 : 1 ≤ t.length) (h3 : t.length ≤ 3)
    (hd : t.all isDigitC = true) (hk : (k t r).isSome = true) :
    (digits123 l k).isSome = true := by
  obtain ⟨x, hx⟩ := Option.isSome_iff_exists.mp hk
  subst hl
  unfold digits123
  have hone : t.length = 1 ∨ t.length = 2 ∨ t.length = 3 := by omega
  have he := takeD_exact t r hd
  rcases hone with hn | hn | hn
  · rw [hn] at he
    cases h3' : takeD 3 (t ++ r) with
    | some p =>
      cases p with
      | mk t3 r3 =>
        cases hx3 : k t3 r3 with
        | some y => simp [hx3]
        | none =>
          cases h2' : takeD 2 (t ++ r) with
          | some p2 =>
            cases p2 with
            | mk t2 r2 =>
              cases hx2 : k t2 r2 with
              | some y => simp [hx3, hx2]
              | none => simp [hx3, hx2, he, hx]
          | none => simp [hx3, he, hx]
    | none =>
      cases h2' : takeD 2 (t ++ r) with
      | some p2 =>
        cases p2 with
        | mk t2 r2 =>
          cases hx2 : k t2 r2 with
          | some y => simp [hx2]
          | none => simp [hx2, he, hx]
      | none => simp [he, hx]
  · rw [hn] at he
    cases h3' : takeD 3 (t ++ r) with
    | some p =>
      cases p with
      | mk t3 r3 =>
        cases hx3 : k t3 r3 with
        | some y => simp [hx3]
        | none => simp [hx3, he, hx]
    | none => simp [he, hx]
  · rw [hn] at he
    rw [he]
    simp [hx]

theorem anyChar_sound {A} (l : List Char) (k : Char → List Char → Option A)
    (x : A) (h : anyChar l k = some x) :
    ∃ c r, l = c :: r ∧ c ≠ '\n' ∧ k c r = some x := by
  cases l with
  | nil => simp [anyChar] at h
  | cons c rest =>
    simp only [anyChar] at h
    split at h
    · exact ⟨c, rest, rfl, by assumption, h⟩
    · cases h

theorem anyChar_complete {A} (c : Char) (r : List Char) (k : Char → List Char → Option A)
    (hc : c ≠ '\n') (hk : (k c r).isSome = true) :
    (anyChar (c :: r) k).isSome = true := by
  obtain ⟨x, hx⟩ := Option.isSome_iff_exists.mp hk
  simp [anyChar, hc, hx]

theorem ipv4Core_sound (l tok r7 : List Char) (h : ipv4Core l = some (tok, r7)) :
    ∃ t1 c1 t2 c2 t3 c3 t4,
      l = t1 ++ c1 :: (t2 ++ c2 :: (t3 ++ c3 :: (t4 ++ r7))) ∧
      tok = t1 ++ c1 :: (t2 ++ c2 :: (t3 ++ c3 :: t4)) ∧
      (1 ≤ t1.length ∧ t1.length ≤ 3 ∧ t1.all isDigitC = true) ∧
      (1 ≤ t2.length ∧ t2.length ≤ 3 ∧ t2.all isDigitC = true) ∧
      (1 ≤ t3.length ∧ t3.length ≤ 3 ∧ t3.all isDigitC = true) ∧
      (1 ≤ t4.length ∧ t4.length ≤ 3 ∧ t4.all isDigitC = true) ∧
      c1 ≠ '\n' ∧ c2 ≠ '\n' ∧ c3 ≠ '\n' := by
  unfold ipv4Core at h
  obtain ⟨t1, r1, he1, ha1, hb1, hd1, hk1⟩ := digits123_sound _ _ _ h
  obtain ⟨c1, r2, he2, hn1, hk2⟩ := anyChar_sound _ _ _ hk1
  obtain ⟨t2, r3, he3, ha2, hb2, hd2, hk3⟩ := digits123_sound _ _ _ hk2
  obtain ⟨c2, r4, he4, hn2, hk4⟩ := anyChar_sound _ _ _ hk3
  obtain ⟨t3, r5, he5, ha3, hb3, hd3, hk5⟩ := digits123_sound _ _ _ hk4
  obtain ⟨c3, r6, he6, hn3, hk6⟩ := anyChar_sound _ _ _ hk5
  obtain ⟨t4, r7x, he7, ha4, hb4, hd4, hk7⟩ := digits123_sound _ _ _ hk6
  simp only [Option.some.injEq, Prod.mk.injEq] at hk7
  obtain ⟨htok, hr⟩ := hk7
  subst he1
  subst he2
  subst he3
  subst he4
  subst he5
  subst he6
  subst he7
  subst hr
  refine ⟨t1, c1, t2, c2, t3, c3, t4, rfl, htok.symm, ⟨ha1, hb1, hd1⟩,
    ⟨ha2, hb2, hd2⟩, ⟨ha3, hb3, hd3⟩, ⟨ha4, hb4, hd4⟩, hn1, hn2, hn3⟩

theorem ipv4Core_complete (t1 t2 t3 t4 r : List Char) (c1 c2 c3 : Char)
    (h1 : 1 ≤ t1.length ∧ t1.length ≤ 3 ∧ t1.all isDigitC = true)
    (h2 : 1 ≤ t2.length ∧ t2.length ≤ 3 ∧ t2.all isDigitC = true)
    (h3 : 1 ≤ t3.length ∧ t3.length ≤ 3 ∧ t3.all isDigitC = true)
    (h4 : 1 ≤ t4.length ∧ t4.length ≤ 3 ∧ t4.all isDigitC = true)
    (hn1 : c1 ≠ '\n') (hn2 : c2 ≠ '\n') (hn3 : c3 ≠ '\n') :
    (ipv4Core (t1 ++ c1 :: (t2 ++ c2 :: (t3 ++ c3 :: (t4 ++ r))))).isSome = true := by
  unfold ipv4Core
  apply digits123_complete _ _ t1 (c1 :: (t2 ++ c2 :: (t3 ++ c3 :: (t4 ++ r))))
    rfl h1.1 h1.2.1 h1.2.2
  apply anyChar_complete _ _ _ hn1
  apply digits123_complete _ _ t2 (c2 :: (t3 ++ c3 :: (t4 ++ r))) rfl h2.1 h2.2.1 h2.2.2
  apply anyChar_complete _ _ _ hn2
  apply digits123_complete _ _ t3 (c3 :: (t4 ++ r)) rfl h3.1 h3.2.1 h3.2.2
  apply anyChar_complete _ _ _ hn3
  apply digits123_complete _ _ t4 r rfl h4.1 h4.2.1 h4.2.2
  simp

/-- C4 (amended): a line is accepted as an address line exactly when the
IPV4 pattern matches its head AND the remainder parses as name tokens;
the IPV4 pattern's group — which becomes the address — is NOT a dotted
4-part numeric token but four runs of one-to-three digits separated by
three arbitrary non-newline characters (the pattern's dots are
unescaped and each run is capped at three digits). -/
theorem c4_address_acceptance (line : String) :
    ((∃ e', Entry.set_address emptyEntry line = .ok e') ↔
      (∃ tok rest, ipv4Match line.data = some (tok, rest) ∧
        (nameLoop rest).isSome = true)) ∧
    ((ipv4Match line.data).isSome = true ↔
      ∃ t1 c1 t2 c2 t3 c3 t4 r,
        line.data.dropWhile isPySpace =
          t1 ++ c1 :: (t2 ++ c2 :: (t3 ++ c3 :: (t4 ++ r))) ∧
        (1 ≤ t1.length ∧ t1.length ≤ 3 ∧ t1.all isDigitC = true) ∧
        (1 ≤ t2.length ∧ t2.length ≤ 3 ∧ t2.all isDigitC = true) ∧
        (1 ≤ t3.length ∧ t3.length ≤ 3 ∧ t3.all isDigitC = true) ∧
        (1 ≤ t4.length ∧ t4.length ≤ 3 ∧ t4.all isDigitC = true) ∧
        c1 ≠ '\n' ∧ c2 ≠ '\n' ∧ c3 ≠ '\n') ∧
    (∀ tok rest e', ipv4Match line.data = some (tok, rest) →
      Entry.set_address emptyEntry line = .ok e' → e'.ipv4 = some (String.mk tok)) := by
  refine ⟨?_, ?_, ?_⟩
  · constructor
    · intro ⟨e', he⟩
      unfold Entry.set_address at he
      cases hm : ipv4Match line.data with
      | none => rw [hm] at he; cases he
      | some p =>
        cases p with
        | mk tok rest =>
          simp only [hm] at he
          cases hn : nameLoop rest with
          | none => rw [hn] at he; cases he
          | some ns => exact ⟨tok, rest, rfl, by rw [hn]; rfl⟩
    · intro ⟨tok, rest, hm, hn⟩
      obtain ⟨ns, hns⟩ := Option.isSome_iff_exists.mp hn
      unfold Entry.set_address
      simp only [hm, hns]
      exact ⟨_, rfl⟩
  · constructor
    · intro h
      obtain ⟨p, hp⟩ := Option.isSome_iff_exists.mp h
      cases p with
      | mk tok rest =>
        unfold ipv4Match at hp
        cases hc : ipv4Core (line.data.dropWhile isPySpace) with
        | none => rw [hc] at hp; cases hp
        | some q =>
          cases q with
          | mk t r0 =>
            obtain ⟨t1, c1, t2, c2, t3, c3, t4, hsh, _, hp1, hp2, hp3, hp4,
              hq1, hq2, hq3⟩ := ipv4Core_sound _ _ _ hc
            exact ⟨t1, c1, t2, c2, t3, c3, t4, r0, hsh, hp1, hp2, hp3, hp4,
              hq1, hq2, hq3⟩
    · intro ⟨t1, c1, t2, c2, t3, c3, t4, r, hsh, hp1, hp2, hp3, hp4, hq1, hq2, hq3⟩
      have hcore : (ipv4Core (line.data.dropWhile isPySpace)).isSome = true := by
        rw [hsh]
        exact ipv4Core_complete t1 t2 t3 t4 r c1 c2 c3 hp1 hp2 hp3 hp4 hq1 hq2 hq3
      obtain ⟨q, hq⟩ := Option.isSome_iff_exists.mp hcore
      cases q with
      | mk t r0 =>
        unfold ipv4Match
        rw [hq]
        rfl
  · intro tok rest e' hm he
    unfold Entry.set_address at he
    simp only [hm] at he
    cases hn : nameLoop rest with
    | none => rw [hn] at he; cases he
    | some ns =>
      rw [hn] at he
      cases he
      rfl

/-- Witness for the amended C4: the relaxed shape holds for a line the
parser accepts, via the theorem's equivalences. -/
theorem c4_address_acceptance_witness :
    (∃ tok rest, ipv4Match "1a2b3c4 x".data = some (tok, rest) ∧
      (nameLoop rest).isSome = true) ∧
    (∃ t1 c1 t2 c2 t3 c3 t4 r,
      "1a2b3c4 x".data.dropWhile isPySpace =
        t1 ++ c1 :: (t2 ++ c2 :: (t3 ++ c3 :: (t4 ++ r))) ∧
      (1 ≤ t1.length ∧ t1.length ≤ 3 ∧ t1.all isDigitC = true) ∧
      (1 ≤ t2.length ∧ t2.length ≤ 3 ∧ t2.all isDigitC = true) ∧
      (1 ≤ t3.length ∧ t3.length ≤ 3 ∧ t3.all isDigitC = true) ∧
      (1 ≤ t4.length ∧ t4.length ≤ 3 ∧ t4.all isDigitC = true) ∧
      c1 ≠ '\n' ∧ c2 ≠ '\n' ∧ c3 ≠ '\n') :=
  ⟨(c4_address_acceptance "1a2b3c4 x").1.mp
      ⟨⟨some "1a2b3c4", ["x"], none, none, []⟩, rfl⟩,
    (c4_address_acceptance "1a2b3c4 x").2.1.mp rfl⟩

theorem single_name_names (e : Entry) (n : String) (h : n ∈ e.names) :
    (e.single_name n).names = [n] := by
  unfold Entry.single_name
  split
  · rename_i hl
    cases hn : e.names with
    | nil => rw [hn] at hl; cases hl
    | cons x xs =>
      rw [hn] at hl
      simp only [List.length_cons] at hl
      have hxs : xs = [] := List.length_eq_zero.mp (by omega)
      subst hxs
      rw [hn] at h
      simp only [List.mem_singleton] at h
      simp only [hn, h]
  · rfl

theorem single_name_ipv4 (e : Entry) (n : String) : (e.single_name n).ipv4 = e.ipv4 := by
  unfold Entry.single_name
  split <;> rfl

theorem single_name_comments (e : Entry) (n : String) :
    (e.single_name n).comments = e.comments := by
  unfold Entry.single_name
  split <;> rfl

theorem combine_comments_known (other : List String) : ∀ (merged known : List String),
    (∀ c ∈ other, strip_comment c ∈ known) →
    combine_comments merged other known = (merged, known) := by
  induction other with
  | nil => intro merged known _; rfl
  | cons c cs ih =>
    intro merged known h
    rw [combine_comments, if_pos (h c (List.mem_cons_self _ _))]
    exact ih merged known (fun c2 hc2 => h c2 (List.mem_cons_of_mem _ hc2))

theorem combineNoKnown_self (c : List String) : combineNoKnown c c = c := by
  unfold combineNoKnown
  rw [combine_comments_known c c (c.map strip_comment)
    (fun x hx => List.mem_map_of_mem _ hx)]

/-- Well-formedness of the by_name association list. -/
def BucketsOk (m : List (String × List Entry)) : Prop :=
  (m.map Prod.fst).Nodup ∧
  ∀ p ∈ m, p.2 ≠ [] ∧ (∀ e ∈ p.2, e.names = [p.1]) ∧ droppedName p.1 = false

theorem addToBucket_keys (m : List (String × List Entry)) (n : String) (e : Entry) :
    (addToBucket m n e).map Prod.fst =
      if n ∈ m.map Prod.fst then m.map Prod.fst else m.map Prod.fst ++ [n] := by
  induction m with
  | nil => simp [addToBucket]
  | cons p rest ih =>
    cases p with
    | mk k v =>
      rw [addToBucket]
      by_cases hk : k = n
      · subst hk
        simp
      · simp only [hk, ite_false, if_neg, if_false]
        simp only [List.map_cons, ih]
        by_cases hmem : n ∈ rest.map Prod.fst
        · rw [if_pos hmem, if_pos (by simp [hmem])]
        · rw [if_neg hmem, if_neg (by
            simp only [List.mem_cons]
            rintro (hc | hc)
            · exact hk hc.symm
            · exact hmem hc)]
          simp

theorem addToBucket_ok (m : List (String × List Entry)) (n : String) (e : Entry)
    (hm : BucketsOk m) (he : e.names = [n]) (hd : droppedName n = false) :
    BucketsOk (addToBucket m n e) := by
  induction m with
  | nil =>
    refine ⟨by simp [addToBucket], ?_⟩
    intro p hp
    simp only [addToBucket, List.mem_singleton] at hp
    subst hp
    refine ⟨by simp, ?_, hd⟩
    intro e2 he2
    simp only [List.mem_singleton] at he2
    subst he2
    exact he
  | cons q rest ih =>
    cases q with
    | mk k v =>
      obtain ⟨hnd, hall⟩ := hm
      rw [addToBucket]
      by_cases hk : k = n
      · subst hk
        simp only [ite_true, if_pos]
        refine ⟨by simpa using hnd, ?_⟩
        intro p hp
        simp only [List.mem_cons] at hp
        rcases hp with hp | hp
        · subst hp
          obtain ⟨_, hnames, hdk⟩ := hall (k, v) (List.mem_cons_self _ _)
          refine ⟨by simp, ?_, hdk⟩
          intro e2 he2
          simp only [List.mem_append, List.mem_singleton] at he2
          rcases he2 with he2 | he2
          · exact hnames e2 he2
          · subst he2; exact he
        · exact hall p (List.mem_cons_of_mem _ hp)
      · simp only [hk, ite_false, if_neg, if_false]
        have hrest : BucketsOk rest :=
          ⟨(List.nodup_cons.mp (by simpa using hnd)).2,
           fun p hp => hall p (List.mem_cons_of_mem _ hp)⟩
        obtain ⟨hnd2, hall2⟩ := ih hrest
        refine ⟨?_, ?_⟩
        · simp only [List.map_cons]
          rw [List.nodup_cons]
          refine ⟨?_, hnd2⟩
          rw [addToBucket_keys]
          have hknotin : k ∉ rest.map Prod.fst := (List.nodup_cons.mp (by simpa using hnd)).1
          by_cases hmem : n ∈ rest.map Prod.fst
          · rw [if_pos hmem]; exact hknotin
          · rw [if_neg hmem]
            simp only [List.mem_append, List.mem_singleton]
            rintro (hc | hc)
            · exact hknotin hc
            · exact hk hc
        · intro p hp
          simp only [List.mem_cons] at hp
          rcases hp with hp | hp
          · subst hp
            exact hall (k, v) (List.mem_cons_self _ _)
          · exact hall2 p hp

theorem foldNames_ok (ns : List String) : ∀ (m : List (String × List Entry)) (e : Entry),
    BucketsOk m → (∀ n ∈ ns, n ∈ e.names) →
    BucketsOk (ns.foldl
      (fun m n => if droppedName n then m else addToBucket m n (e.single_name n)) m) := by
  induction ns with
  | nil => intro m e hm _; exact hm
  | cons n ns ih =>
    intro m e hm hmem
    simp only [List.foldl_cons]
    by_cases hd : droppedName n
    · rw [if_pos hd]
      exact ih m e hm (fun x hx => hmem x (List.mem_cons_of_mem _ hx))
    · have hd2 : droppedName n = false := by
        revert hd
        cases droppedName n <;> simp
      rw [if_neg (by rw [hd2]; exact Bool.false_ne_true)]
      exact ih _ e
        (addToBucket_ok m n _ hm
          (single_name_names e n (hmem n (List.mem_cons_self _ _))) hd2)
        (fun x hx => hmem x (List.mem_cons_of_mem _ hx))

theorem buildByName_ok (entries : List Entry) : BucketsOk (buildByName entries) := by
  unfold buildByName
  have hgen : ∀ (es : List Entry) (m : List (String × List Entry)), BucketsOk m →
      BucketsOk (es.foldl bucketStep m) := by
    intro es
    induction es with
    | nil => intro m hm; exact hm
    | cons e es ih =>
      intro m hm
      simp only [List.foldl_cons]
      exact ih _ (foldNames_ok e.names m e hm (fun n hn => hn))
  exact hgen entries [] ⟨by simp, by simp⟩

theorem insertIpv4Asc_perm (a : Entry) (l : List Entry) :
    (insertIpv4Asc a l).Perm (a :: l) := by
  induction l with
  | nil => simp [insertIpv4Asc]
  | cons b bs ih =>
    rw [insertIpv4Asc]
    by_cases h : optStrLe a.ipv4 b.ipv4
    · simp [h]
    · simp only [h, Bool.false_eq_true, if_false]
      exact ((ih.cons b).trans (List.Perm.swap a b bs)).symm.symm

theorem sortIpv4Asc_perm (l : List Entry) : (sortIpv4Asc l).Perm l := by
  induction l with
  | nil => simp [sortIpv4Asc]
  | cons a as ih =>
    rw [sortIpv4Asc]
    exact (insertIpv4Asc_perm a (sortIpv4Asc as)).trans (ih.cons a)

theorem spanIpv4_mem (k : Option String) (l : List Entry) :
    (∀ x ∈ (spanIpv4 k l).1, x ∈ l) ∧ (∀ x ∈ (spanIpv4 k l).2, x ∈ l) := by
  induction l with
  | nil => simp [spanIpv4]
  | cons e rest ih =>
    rw [spanIpv4]
    by_cases h : e.ipv4 = k
    · simp only [h, ite_true, if_pos]
      constructor
      · intro x hx
        simp only [List.mem_cons] at hx
        rcases hx with hx | hx
        · simp [hx]
        · exact List.mem_cons_of_mem _ (ih.1 x hx)
      · intro x hx
        exact List.mem_cons_of_mem _ (ih.2 x hx)
    · simp [h]

theorem pyGroups_mem : ∀ (b : Nat) (l : List Entry), l.length ≤ b →
    ∀ g ∈ pyGroups l, g ≠ [] ∧ ∀ e ∈ g, e ∈ l := by
  intro b
  induction b with
  | zero =>
    intro l hl g hg
    have : l = [] := by cases l with | nil => rfl | cons a as => simp at hl
    subst this
    simp [pyGroups, pyGroupsF] at hg
  | succ n ih =>
    intro l hl g hg
    cases l with
    | nil => simp [pyGroups, pyGroupsF] at hg
    | cons e rest =>
      rw [pyGroups_cons] at hg
      simp only [List.mem_cons] at hg
      rcases hg with hg | hg
      · subst hg
        refine ⟨by simp, ?_⟩
        intro x hx
        simp only [List.mem_cons] at hx
        rcases hx with hx | hx
        · simp [hx]
        · exact List.mem_cons_of_mem _ ((spanIpv4_mem e.ipv4 rest).1 x hx)
      · have hlen := spanIpv4_snd_length_le e.ipv4 rest
        simp only [List.length_cons] at hl
        obtain ⟨hne, hmem⟩ := ih (spanIpv4 e.ipv4 rest).2 (by omega) g hg
        refine ⟨hne, ?_⟩
        intro x hx
        exact List.mem_cons_of_mem _ ((spanIpv4_mem e.ipv4 rest).2 x (hmem x hx))

/-- Field agreement modulo comments. -/
def sameCore (a b : Entry) : Prop :=
  a.ipv4 = b.ipv4 ∧ a.names = b.names ∧ a.date = b.date ∧ a.date_extra = b.date_extra

theorem sameCore_refl (a : Entry) : sameCore a a := ⟨rfl, rfl, rfl, rfl⟩

theorem merge_by_date_sub (l l2 : List Entry) (h : merge_by_date l = .ok l2) :
    (∀ e ∈ l2, e ∈ l) ∧ (l ≠ [] → l2 ≠ []) := by
  unfold merge_by_date at h
  split at h
  · cases h
    exact ⟨fun e he => he, fun h2 => h2⟩
  · split at h
    · cases h
    · dsimp only at h
      split at h
      · cases h
        exact ⟨fun e he => he, fun h2 => h2⟩
      · cases h
        rename_i hwdne
        constructor
        · intro e he
          have h1 : e ∈ sortDateDesc (l.filter (fun e => e.date.isSome)) :=
            List.mem_of_mem_filter he
          have h2 : e ∈ l.filter (fun e => e.date.isSome) :=
            (sortDateDesc_perm _).mem_iff.mp h1
          exact List.mem_of_mem_filter h2
        · intro _ hc
          have hwd2 : l.filter (fun e => e.date.isSome) ≠ [] := by
            intro hq
            rw [hq] at hwdne
            simp at hwdne
          cases hsd : sortDateDesc (l.filter (fun e => e.date.isSome)) with
          | nil =>
            have hpl := (sortDateDesc_perm (l.filter (fun e => e.date.isSome))).length_eq
            rw [hsd] at hpl
            cases hq : l.filter (fun e => e.date.isSome) with
            | nil => exact hwd2 hq
            | cons x xs => rw [hq] at hpl; simp at hpl
          | cons h0 t =>
            rw [hsd] at hc
            have hh0 : h0 ∈ List.filter
                (fun e => decide (e.date = ((h0 :: t).headD emptyEntry).date)) (h0 :: t) := by
              rw [List.mem_filter]
              refine ⟨List.mem_cons_self _ _, by simp⟩
            rw [hc] at hh0
            cases hh0

theorem collapseGroup_core (m : Entry) (others : List Entry) :
    sameCore (collapseGroup (m :: others)) m := by
  unfold collapseGroup sameCore
  exact ⟨rfl, rfl, rfl, rfl⟩

theorem merge_same_ipv4_core (l l2 : List Entry) (h : merge_same_ipv4 l = .ok l2) :
    (∀ e2 ∈ l2, ∃ e ∈ l, sameCore e2 e) ∧ (l ≠ [] → l2 ≠ []) := by
  unfold merge_same_ipv4 at h
  split at h
  · cases h
    exact ⟨fun e2 he => ⟨e2, he, sameCore_refl e2⟩, fun h2 => h2⟩
  · split at h
    · cases h
    · split at h
      · cases h
      · cases h
        constructor
        · intro e2 he2
          simp only [List.mem_map] at he2
          obtain ⟨g, hg, hcol⟩ := he2
          obtain ⟨hgne, hgmem⟩ := pyGroups_mem (sortIpv4Asc l).length (sortIpv4Asc l)
            (le_refl _) g hg
          cases g with
          | nil => exact absurd rfl hgne
          | cons m others =>
            refine ⟨m, ?_, ?_⟩
            · exact (sortIpv4Asc_perm l).mem_iff.mp (hgmem m (List.mem_cons_self _ _))
            · rw [← hcol]
              exact collapseGroup_core m others
        · intro hlne hc
          cases hsl : sortIpv4Asc l with
          | nil =>
            have hpl := (sortIpv4Asc_perm l).length_eq
            rw [hsl] at hpl
            cases hq : l with
            | nil => exact hlne hq
            | cons x xs => rw [hq] at hpl; simp at hpl
          | cons x xs =>
            rw [hsl, pyGroups_cons] at hc
            simp at hc

theorem merge_force_core (l l2 : List Entry) (quiet : Bool)
    (h : merge_force l quiet = .ok l2) :
    (∀ e2 ∈ l2, ∃ e ∈ l, sameCore e2 e) ∧ (l ≠ [] → l2 ≠ []) := by
  cases l with
  | nil =>
    have hl2 : l2 = [] := by
      have h2 : (Except.ok [] : Except MergeError (List Entry)) = .ok l2 := h
      cases h2
      rfl
    subst hl2
    exact ⟨fun e2 he => absurd he (List.not_mem_nil e2), fun h2 => absurd rfl h2⟩
  | cons merged others =>
    unfold merge_force at h
    split at h
    · cases h
      exact ⟨fun e2 he => ⟨e2, he, sameCore_refl e2⟩, fun h2 => h2⟩
    · split at h
      · cases h
      · split at h
        · cases h
        · split at h
          · cases h
          · split at h
            · simp_all
            · rename_i m os heq
              injection heq with hm ho
              subst hm
              subst ho
              split at h
              · cases h
              · dsimp only at h
                cases h
                constructor
                · intro e2 he2
                  simp only [List.mem_singleton] at he2
                  subst he2
                  refine ⟨merged, List.mem_cons_self _ _, ?_⟩
                  unfold sameCore
                  exact ⟨rfl, rfl, rfl, rfl⟩
                · intro _ hc
                  cases hc

theorem reduceBucket_winner (quiet : Bool) (n : String) (l l3 : List Entry)
    (h : reduceBucket quiet n l = .ok l3) (hne : l ≠ [])
    (hnames : ∀ e ∈ l, e.names = [n]) :
    ∃ w, l3 = [w] ∧ w.names = [n] := by
  unfold reduceBucket at h
  have step1 : ∃ l1, (if l.length > 1 then merge_by_date l else Except.ok l) = .ok l1 ∧
      (∀ e ∈ l1, e ∈ l) ∧ l1 ≠ [] := by
    by_cases hl : l.length > 1
    · cases hmd : merge_by_date l with
      | error err =>
        rw [if_pos hl, hmd] at h
        cases h
      | ok l1 =>
        obtain ⟨hsub, hnem⟩ := merge_by_date_sub l l1 hmd
        exact ⟨l1, by rw [if_pos hl], hsub, hnem hne⟩
    · rw [if_neg hl]
      exact ⟨l, rfl, fun e he => he, hne⟩
  obtain ⟨l1, h1, hsub1, hne1⟩ := step1
  simp only [h1] at h
  have step2 : ∃ l2, (if l1.length > 1 then merge_same_ipv4 l1 else Except.ok l1) = .ok l2 ∧
      (∀ e ∈ l2, ∃ e0 ∈ l1, sameCore e e0) ∧ l2 ≠ [] := by
    by_cases hl : l1.length > 1
    · cases hmd : merge_same_ipv4 l1 with
      | error err =>
        rw [if_pos hl, hmd] at h
        cases h
      | ok l2 =>
        obtain ⟨hsub, hnem⟩ := merge_same_ipv4_core l1 l2 hmd
        exact ⟨l2, by rw [if_pos hl], hsub, hnem hne1⟩
    · rw [if_neg hl]
      exact ⟨l1, rfl, fun e he => ⟨e, he, sameCore_refl e⟩, hne1⟩
  obtain ⟨l2, h2, hsub2, hne2⟩ := step2
  simp only [h2] at h
  have step3 : ∃ lf, (if l2.length > 1 then merge_force l2 quiet else Except.ok l2) = .ok lf ∧
      (∀ e ∈ lf, ∃ e0 ∈ l2, sameCore e e0) ∧ lf ≠ [] := by
    by_cases hl : l2.length > 1
    · cases hmd : merge_force l2 quiet with
      | error err =>
        rw [if_pos hl, hmd] at h
        cases h
      | ok lf =>
        obtain ⟨hsub, hnem⟩ := merge_force_core l2 lf quiet hmd
        exact ⟨lf, by rw [if_pos hl], hsub, hnem hne2⟩
    · rw [if_neg hl]
      exact ⟨l2, rfl, fun e he => ⟨e, he, sameCore_refl e⟩, hne2⟩
  obtain ⟨lf, h3, hsub3, hne3⟩ := step3
  simp only [h3] at h
  by_cases hlen : lf.length > 1
  · rw [if_pos hlen] at h
    cases h
  · rw [if_neg hlen] at h
    have hl3 : lf = l3 := by
      have h4 : (Except.ok lf : Except MergeError (List Entry)) = Except.ok l3 := h
      cases h4
      rfl
    subst hl3
    cases hlf : lf with
    | nil => exact absurd hlf hne3
    | cons w ws =>
      have hws : ws = [] := by
        rw [hlf] at hlen
        simp only [List.length_cons, gt_iff_lt, not_lt] at hlen
        cases ws with
        | nil => rfl
        | cons y ys => simp at hlen
      subst hws
      refine ⟨w, rfl, ?_⟩
      obtain ⟨e2, he2, hc2⟩ := hsub3 w (by rw [hlf]; exact List.mem_cons_self _ _)
      obtain ⟨e1, he1, hc1⟩ := hsub2 e2 he2
      have hnames1 : e1.names = [n] := hnames e1 (hsub1 e1 he1)
      rw [hc2.2.1, hc1.2.1, hnames1]

theorem reduceAll_spec (quiet : Bool) : ∀ (m red : List (String × List Entry)),
    reduceAll quiet m = .ok red → BucketsOk m →
    red.map Prod.fst = m.map Prod.fst ∧
    (∀ p ∈ red, ∃ w, p.2 = [w] ∧ w.names = [p.1]) := by
  intro m
  induction m with
  | nil =>
    intro red h _
    have h2 : (Except.ok [] : Except MergeError (List (String × List Entry))) = .ok red := h
    cases h2
    exact ⟨rfl, fun p hp => absurd hp (List.not_mem_nil p)⟩
  | cons q rest ih =>
    intro red h hok
    obtain ⟨hnd, hall⟩ := hok
    obtain ⟨hqne, hqnames, _⟩ := hall q (List.mem_cons_self _ _)
    rw [reduceAll] at h
    cases hrb : reduceBucket quiet q.1 q.2 with
    | error err =>
      simp only [hrb] at h
      cases h
    | ok r =>
      simp only [hrb] at h
      cases hra : reduceAll quiet rest with
      | error err =>
        simp only [hra] at h
        cases h
      | ok rs =>
        simp only [hra] at h
        cases h
        obtain ⟨w, hr, hwn⟩ := reduceBucket_winner quiet q.1 q.2 r hrb hqne hqnames
        have hrest : BucketsOk rest := by
          refine ⟨?_, fun p hp => hall p (List.mem_cons_of_mem _ hp)⟩
          simp only [List.map_cons] at hnd
          exact (List.nodup_cons.mp hnd).2
        obtain ⟨hkeys, hwins⟩ := ih rs hra hrest
        constructor
        · simp [hkeys]
        · intro p hp
          rcases List.mem_cons.mp hp with hp | hp
          · subst hp
            exact ⟨w, hr, hwn⟩
          · exact hwins p hp

/-- Well-formedness of the by_ipv4 association list. -/
def IpOk (m : List (Option String × Entry)) : Prop :=
  (m.map Prod.fst).Nodup ∧ ∀ q ∈ m, q.2.ipv4 = q.1 ∧ q.2.names ≠ []

theorem addByIpv4_keys (n : String) (e : Entry) : ∀ (m : List (Option String × Entry)),
    (addByIpv4 m n e).map Prod.fst =
      if e.ipv4 ∈ m.map Prod.fst then m.map Prod.fst else m.map Prod.fst ++ [e.ipv4] := by
  intro m
  induction m with
  | nil => simp [addByIpv4]
  | cons q rest ih =>
    cases q with
    | mk k v =>
      rw [addByIpv4]
      by_cases hk : k = e.ipv4
      · subst hk
        simp
      · rw [if_neg hk]
        simp only [List.map_cons, ih]
        by_cases hmem : e.ipv4 ∈ rest.map Prod.fst
        · rw [if_pos hmem, if_pos (by simp [hmem])]
        · rw [if_neg hmem, if_neg (by
            simp only [List.mem_cons]
            rintro (hc | hc)
            · exact hk hc.symm
            · exact hmem hc)]
          simp

theorem addByIpv4_ok (n : String) (e : Entry) (he : e.names ≠ []) :
    ∀ (m : List (Option String × Entry)), IpOk m → IpOk (addByIpv4 m n e) := by
  intro m
  induction m with
  | nil =>
    intro _
    refine ⟨by simp [addByIpv4], ?_⟩
    intro q hq
    simp only [addByIpv4, List.mem_singleton] at hq
    subst hq
    exact ⟨rfl, he⟩
  | cons p rest ih =>
    intro hm
    obtain ⟨hnd, hall⟩ := hm
    cases p with
    | mk k v =>
      rw [addByIpv4]
      by_cases hk : k = e.ipv4
      · subst hk
        rw [if_pos rfl]
        refine ⟨by simpa using hnd, ?_⟩
        intro q hq
        rcases List.mem_cons.mp hq with hq | hq
        · subst hq
          obtain ⟨hi, _⟩ := hall (e.ipv4, v) (List.mem_cons_self _ _)
          exact ⟨hi, by simp⟩
        · exact hall q (List.mem_cons_of_mem _ hq)
      · rw [if_neg hk]
        have hrest : IpOk rest := by
          refine ⟨?_, fun q hq => hall q (List.mem_cons_of_mem _ hq)⟩
          simp only [List.map_cons] at hnd
          exact (List.nodup_cons.mp hnd).2
        obtain ⟨hnd2, hall2⟩ := ih hrest
        refine ⟨?_, ?_⟩
        · simp only [List.map_cons, List.nodup_cons]
          refine ⟨?_, hnd2⟩
          rw [addByIpv4_keys]
          have hknotin : k ∉ rest.map Prod.fst := by
            simp only [List.map_cons] at hnd
            exact (List.nodup_cons.mp hnd).1
          by_cases hmem : e.ipv4 ∈ rest.map Prod.fst
          · rw [if_pos hmem]; exact hknotin
          · rw [if_neg hmem]
            simp only [List.mem_append, List.mem_singleton]
            rintro (hc | hc)
            · exact hknotin hc
            · exact hk hc
        · intro q hq
          rcases List.mem_cons.mp hq with hq | hq
          · subst hq
            exact hall (k, v) (List.mem_cons_self _ _)
          · exact hall2 q hq

theorem addByIpv4_flatten (n : String) (e : Entry) (he : e.names = [n]) :
    ∀ (m : List (Option String × Entry)),
    ((addByIpv4 m n e).map (fun q => q.2.names)).flatten.Perm
      ((m.map (fun q => q.2.names)).flatten ++ [n]) := by
  intro m
  induction m with
  | nil => simp [addByIpv4, he]
  | cons p rest ih =>
    cases p with
    | mk k v =>
      rw [addByIpv4]
      by_cases hk : k = e.ipv4
      · rw [if_pos hk]
        simp only [List.map_cons, List.flatten_cons, List.append_assoc]
        exact List.Perm.append_left _ List.perm_append_comm
      · rw [if_neg hk]
        simp only [List.map_cons, List.flatten_cons, List.append_assoc]
        exact List.Perm.append_left _ ih

theorem stageC_spec : ∀ (ps : List (String × List Entry))
    (m : List (Option String × Entry)),
    (∀ p ∈ ps, ∃ w, p.2 = [w] ∧ w.names = [p.1]) → IpOk m →
    IpOk (ps.foldl (fun m p => addByIpv4 m p.1 (p.2.headD emptyEntry)) m) ∧
    ((ps.foldl (fun m p => addByIpv4 m p.1 (p.2.headD emptyEntry)) m).map
        (fun q => q.2.names)).flatten.Perm
      ((m.map (fun q => q.2.names)).flatten ++ ps.map Prod.fst) := by
  intro ps
  induction ps with
  | nil =>
    intro m _ hm
    exact ⟨hm, by simp⟩
  | cons p ps ih =>
    intro m hw hm
    obtain ⟨w, hp2, hwn⟩ := hw p (List.mem_cons_self _ _)
    simp only [List.foldl_cons]
    have hhd : p.2.headD emptyEntry = w := by rw [hp2]; rfl
    rw [hhd]
    have hm2 : IpOk (addByIpv4 m p.1 w) :=
      addByIpv4_ok p.1 w (by rw [hwn]; simp) m hm
    obtain ⟨hok, hperm⟩ := ih (addByIpv4 m p.1 w)
      (fun q hq => hw q (List.mem_cons_of_mem _ hq)) hm2
    refine ⟨hok, ?_⟩
    refine hperm.trans ?_
    have h1 := addByIpv4_flatten p.1 w hwn m
    refine (h1.append_right (ps.map Prod.fst)).trans ?_
    simp [List.append_assoc]

theorem map_snd_ipv4 (F : List (Option String × Entry))
    (h : ∀ q ∈ F, q.2.ipv4 = q.1) :
    (F.map (fun p => p.2)).map (fun e => e.ipv4) = F.map Prod.fst := by
  induction F with
  | nil => rfl
  | cons q rest ih =>
    simp only [List.map_cons]
    rw [h q (List.mem_cons_self _ _)]
    rw [ih (fun p hp => h p (List.mem_cons_of_mem _ hp))]

theorem map_snd_names (F : List (Option String × Entry)) :
    (F.map (fun p => p.2)).map (fun e => e.names) = F.map (fun q => q.2.names) := by
  induction F with
  | nil => rfl
  | cons q rest ih => simp only [List.map_cons, ih]

/-- The shape merge guarantees of its output: pairwise distinct
addresses, nonempty name lists, globally distinct names, and no
dropped (localhost/ipv6-) names. -/
def WellMerged (out : List Entry) : Prop :=
  (out.map (fun e => e.ipv4)).Nodup ∧
  (∀ e ∈ out, e.names ≠ []) ∧
  ((out.map (fun e => e.names)).flatten).Nodup ∧
  (∀ e ∈ out, ∀ n ∈ e.names, droppedName n = false)

theorem merge_wellformed (entries out : List Entry) (quiet : Bool)
    (h : merge entries quiet = .ok out) : WellMerged out := by
  unfold merge at h
  cases hra : reduceAll quiet (buildByName entries) with
  | error err =>
    simp only [hra] at h
    cases h
  | ok red =>
    simp only [hra] at h
    cases h
    obtain ⟨hbnd, hball⟩ := buildByName_ok entries
    obtain ⟨hkeys, hwins⟩ := reduceAll_spec quiet (buildByName entries) red hra ⟨hbnd, hball⟩
    obtain ⟨⟨hknd, hvals⟩, hperm⟩ := stageC_spec red [] hwins ⟨by simp, by simp⟩
    have hperm2 : (((red.foldl (fun m p => addByIpv4 m p.1 (p.2.headD emptyEntry)) []).map
        (fun q => q.2.names)).flatten).Perm (red.map Prod.fst) := hperm
    refine ⟨?_, ?_, ?_, ?_⟩
    · rw [map_snd_ipv4 _ (fun q hq => (hvals q hq).1)]
      exact hknd
    · intro e he
      obtain ⟨q, hq, hqe⟩ := List.mem_map.mp he
      rw [← hqe]
      exact (hvals q hq).2
    · rw [map_snd_names]
      exact hperm2.nodup_iff.mpr (by rw [hkeys]; exact hbnd)
    · intro e he n hn
      have hmem : n ∈ ((red.foldl (fun m p => addByIpv4 m p.1 (p.2.headD emptyEntry)) []).map
          (fun q => q.2.names)).flatten := by
        rw [← map_snd_names]
        exact List.mem_flatten.mpr ⟨e.names, List.mem_map_of_mem _ he, hn⟩
      have hmem2 := hperm2.mem_iff.mp hmem
      rw [hkeys] at hmem2
      obtain ⟨p, hp, hpn⟩ := List.mem_map.mp hmem2
      rw [← hpn]
      exact (hball p hp).2.2

theorem addToBucket_fresh (m : List (String × List Entry)) (n : String) (e : Entry)
    (h : n ∉ m.map Prod.fst) : addToBucket m n e = m ++ [(n, [e])] := by
  induction m with
  | nil => rfl
  | cons p rest ih =>
    cases p with
    | mk k v =>
      rw [addToBucket]
      rw [if_neg (by
        intro hc
        exact h (by simp [hc]))]
      rw [ih (fun hc => h (by simp [hc]))]
      rfl

theorem bucketFold_fresh (e : Entry) : ∀ (ns : List String) (m : List (String × List Entry)),
    ns.Nodup → (∀ n ∈ ns, droppedName n = false) → (∀ n ∈ ns, n ∉ m.map Prod.fst) →
    ns.foldl (fun m n => if droppedName n then m else addToBucket m n (e.single_name n)) m =
      m ++ ns.map (fun n => (n, [e.single_name n])) := by
  intro ns
  induction ns with
  | nil => intro m _ _ _; simp
  | cons n ns ih =>
    intro m hnd hdrop hfresh
    simp only [List.foldl_cons]
    rw [if_neg (by rw [hdrop n (List.mem_cons_self _ _)]; exact Bool.false_ne_true)]
    rw [addToBucket_fresh m n _ (hfresh n (List.mem_cons_self _ _))]
    rw [ih (m ++ [(n, [e.single_name n])]) (List.nodup_cons.mp hnd).2
      (fun x hx => hdrop x (List.mem_cons_of_mem _ hx))
      (fun x hx => by
        simp only [List.map_append, List.mem_append, List.map_cons, List.map_nil,
          List.mem_singleton]
        rintro (hc | hc)
        · exact hfresh x (List.mem_cons_of_mem _ hx) hc
        · exact (List.nodup_cons.mp hnd).1 (hc ▸ hx))]
    simp

theorem mapMade_keys (e : Entry) (ns : List String) :
    (ns.map (fun n => (n, [e.single_name n]))).map Prod.fst = ns := by
  induction ns with
  | nil => rfl
  | cons n ns ih => simp only [List.map_cons, ih]

theorem foldl_bucketStep_fresh : ∀ (es : List Entry) (m : List (String × List Entry)),
    (m.map Prod.fst ++ (es.map (fun e => e.names)).flatten).Nodup →
    (∀ e ∈ es, ∀ n ∈ e.names, droppedName n = false) →
    es.foldl bucketStep m =
      m ++ es.flatMap (fun e => e.names.map (fun n => (n, [e.single_name n]))) := by
  intro es
  induction es with
  | nil => intro m _ _; simp
  | cons e es ih =>
    intro m hnd hdrop
    simp only [List.map_cons, List.flatten_cons] at hnd
    have hsplit := (List.nodup_append.mp hnd)
    obtain ⟨hK, hEF, hdisj⟩ := hsplit
    simp only [List.foldl_cons]
    have hstep : bucketStep m e = m ++ e.names.map (fun n => (n, [e.single_name n])) := by
      unfold bucketStep
      exact bucketFold_fresh e e.names m
        (List.Nodup.of_append_left hEF)
        (fun n hn => hdrop e (List.mem_cons_self _ _) n hn)
        (fun n hn hc => hdisj hc (List.mem_append_left _ hn))
    rw [hstep]
    rw [ih (m ++ e.names.map (fun n => (n, [e.single_name n])))
      (by
        rw [List.map_append, mapMade_keys, List.append_assoc]
        exact hnd)
      (fun x hx => hdrop x (List.mem_cons_of_mem _ hx))]
    simp [List.flatMap_cons]

theorem buildByName_fresh (out : List Entry)
    (hflat : ((out.map (fun e => e.names)).flatten).Nodup)
    (hdrop : ∀ e ∈ out, ∀ n ∈ e.names, droppedName n = false) :
    buildByName out =
      out.flatMap (fun e => e.names.map (fun n => (n, [e.single_name n]))) := by
  unfold buildByName
  rw [foldl_bucketStep_fresh out [] (by simpa using hflat) hdrop]
  rfl

theorem reduceAll_singletons (quiet : Bool) : ∀ (ps : List (String × List Entry)),
    (∀ p ∈ ps, ∃ w, p.2 = [w]) → reduceAll quiet ps = .ok ps := by
  intro ps
  induction ps with
  | nil => intro _; rfl
  | cons q rest ih =>
    intro hw
    obtain ⟨w, hq⟩ := hw q (List.mem_cons_self _ _)
    rw [reduceAll]
    have hrb : reduceBucket quiet q.1 q.2 = .ok q.2 := by
      rw [hq]
      rfl
    simp only [hrb, ih (fun p hp => hw p (List.mem_cons_of_mem _ hp))]

theorem addByIpv4_fresh (m : List (Option String × Entry)) (n : String) (e : Entry)
    (h : e.ipv4 ∉ m.map Prod.fst) : addByIpv4 m n e = m ++ [(e.ipv4, e)] := by
  induction m with
  | nil => rfl
  | cons p rest ih =>
    cases p with
    | mk k v =>
      rw [addByIpv4]
      rw [if_neg (by
        intro hc
        exact h (by simp [hc]))]
      rw [ih (fun hc => h (by simp [hc]))]
      rfl

theorem addByIpv4_update : ∀ (m0 : List (Option String × Entry)) (k : Option String)
    (v e : Entry) (n : String), k = e.ipv4 → k ∉ m0.map Prod.fst →
    addByIpv4 (m0 ++ [(k, v)]) n e =
      m0 ++ [(k, { v with
        comments := combineNoKnown v.comments e.comments,
        names := v.names ++ [n] })] := by
  intro m0
  induction m0 with
  | nil =>
    intro k v e n hk _
    simp only [List.nil_append]
    rw [addByIpv4]
    rw [if_pos hk]
  | cons p rest ih =>
    intro k v e n hk hfresh
    cases p with
    | mk k2 v2 =>
      simp only [List.cons_append]
      rw [addByIpv4]
      rw [if_neg (by
        intro hc
        exact hfresh (by simp [← hc, hk]))]
      rw [ih k v e n hk (fun hc => hfresh (by simp [hc]))]

theorem single_name_head (e : Entry) (n1 : String) (rest : List String)
    (hn : e.names = n1 :: rest) : e.single_name n1 = { e with names := [n1] } := by
  unfold Entry.single_name
  split
  · rename_i hl
    rw [hn] at hl
    simp only [List.length_cons] at hl
    have hrest : rest = [] := List.length_eq_zero.mp (by omega)
    subst hrest
    cases e with
    | mk i na d dx c =>
      simp only at hn
      rw [hn]
  · rfl

theorem stageC_names (e : Entry) : ∀ (ns acc : List String)
    (m0 : List (Option String × Entry)), e.ipv4 ∉ m0.map Prod.fst →
    (ns.map (fun n => (n, [e.single_name n]))).foldl
      (fun m p => addByIpv4 m p.1 (p.2.headD emptyEntry))
      (m0 ++ [(e.ipv4, { e with names := acc })]) =
    m0 ++ [(e.ipv4, { e with names := acc ++ ns })] := by
  intro ns
  induction ns with
  | nil =>
    intro acc m0 _
    simp
  | cons n ns ih =>
    intro acc m0 hf
    simp only [List.map_cons, List.foldl_cons, List.headD_cons]
    rw [addByIpv4_update m0 e.ipv4 { e with names := acc } (e.single_name n) n
      (single_name_ipv4 e n).symm hf]
    dsimp only
    rw [single_name_comments, combineNoKnown_self]
    rw [show acc ++ n :: ns = (acc ++ [n]) ++ ns by simp]
    exact ih (acc ++ [n]) m0 hf

theorem stageC_entry (e : Entry) (m0 : List (Option String × Entry))
    (hfresh : e.ipv4 ∉ m0.map Prod.fst) (hne : e.names ≠ []) :
    (e.names.map (fun n => (n, [e.single_name n]))).foldl
      (fun m p => addByIpv4 m p.1 (p.2.headD emptyEntry)) m0 = m0 ++ [(e.ipv4, e)] := by
  cases hn : e.names with
  | nil => exact absurd hn hne
  | cons n1 rest =>
    simp only [List.map_cons, List.foldl_cons, List.headD_cons]
    rw [addByIpv4_fresh m0 n1 (e.single_name n1) (by rw [single_name_ipv4]; exact hfresh)]
    rw [single_name_ipv4, single_name_head e n1 rest hn]
    rw [stageC_names e rest [n1] m0 hfresh]
    simp only [List.singleton_append]
    rw [← hn]

theorem stageC_entries : ∀ (es : List Entry) (m0 : List (Option String × Entry)),
    (∀ e ∈ es, e.names ≠ []) →
    (∀ e ∈ es, e.ipv4 ∉ m0.map Prod.fst) →
    (es.map (fun e => e.ipv4)).Nodup →
    (es.flatMap (fun e => e.names.map (fun n => (n, [e.single_name n])))).foldl
      (fun m p => addByIpv4 m p.1 (p.2.headD emptyEntry)) m0 =
    m0 ++ es.map (fun e => (e.ipv4, e)) := by
  intro es
  induction es with
  | nil =>
    intro m0 _ _ _
    simp
  | cons e es ih =>
    intro m0 hne hfresh hnd
    simp only [List.flatMap_cons, List.foldl_append]
    rw [stageC_entry e m0 (hfresh e (List.mem_cons_self _ _)) (hne e (List.mem_cons_self _ _))]
    rw [ih (m0 ++ [(e.ipv4, e)])
      (fun x hx => hne x (List.mem_cons_of_mem _ hx))
      (fun x hx => by
        simp only [List.map_append, List.mem_append, List.map_cons, List.map_nil,
          List.mem_singleton]
        rintro (hc | hc)
        · exact hfresh x (List.mem_cons_of_mem _ hx) hc
        · simp only [List.map_cons, List.nodup_cons] at hnd
          exact hnd.1 (hc ▸ List.mem_map_of_mem (fun e => e.ipv4) hx))
      (by
        simp only [List.map_cons, List.nodup_cons] at hnd
        exact hnd.2)]
    simp

theorem map_pair_snd (es : List Entry) :
    List.map ((fun (p : Option String × Entry) => p.2) ∘ fun e => (e.ipv4, e)) es = es := by
  induction es with
  | nil => rfl
  | cons e es ih => simp only [List.map_cons, ih, Function.comp_apply]

theorem merge_of_wellformed (out : List Entry) (quiet : Bool)
    (h : WellMerged out) : merge out quiet = .ok out := by
  obtain ⟨hip, hne, hflat, hdrop⟩ := h
  have hb := buildByName_fresh out hflat hdrop
  have hsing : ∀ p ∈ out.flatMap (fun e => e.names.map (fun n => (n, [e.single_name n]))),
      ∃ w, p.2 = [w] := by
    intro p hp
    obtain ⟨e, he, hp2⟩ := List.mem_flatMap.mp hp
    obtain ⟨n, hn, hpe⟩ := List.mem_map.mp hp2
    exact ⟨e.single_name n, by rw [← hpe]⟩
  have hra : reduceAll quiet (buildByName out) = .ok (buildByName out) := by
    rw [hb]
    exact reduceAll_singletons quiet _ hsing
  unfold merge
  simp only [hra]
  rw [hb]
  rw [stageC_entries out [] hne (by simp) hip]
  simp only [List.nil_append, List.map_map]
  rw [map_pair_snd]

/-- C7: merge is idempotent — whenever merge succeeds on a collection of
entries, applying merge again to the returned result set yields exactly
the same result set (the same entries, with the same addresses, name
sets, dates and comments, in the same order). -/
theorem c7_merge_idempotent (entries out : List Entry) (quiet : Bool)
    (h : merge entries quiet = .ok out) : merge out quiet = .ok out :=
  merge_of_wellformed out quiet (merge_wellformed entries out quiet h)

theorem c7_merge_idempotent_witness :
    merge [Entry.mk (some "1.2.3.4") ["x", "y"] none none []] true =
      .ok [Entry.mk (some "1.2.3.4") ["x", "y"] none none []] :=
  c7_merge_idempotent
    [Entry.mk (some "1.2.3.4") ["x"] none none [],
     Entry.mk (some "1.2.3.4") ["y"] none none []] _ true rfl

/-- C3 counterexample: an Entry produced by a successful parse whose
rendered text re-parses to an Entry with DIFFERENT comments (not merely
leading-blank trimming): remove_html is not idempotent, so the stored
comment "#<ac>" (from input "#<a<b>c>") collapses to "#" on re-parse. -/
theorem c3_counterexample :
    parse ["### BEGIN GHETTONET", "#<a<b>c>", "1.2.3.4 x", "### END GHETTONET"] false =
      .ok [.entry ⟨some "1.2.3.4", ["x"], none, none, ["#<ac>"]⟩] ∧
    parse ("### BEGIN GHETTONET" ::
        ((⟨some "1.2.3.4", ["x"], none, none, ["#<ac>"]⟩ : Entry).renderLines ++
          ["### END GHETTONET"])) false =
      .ok [.entry ⟨some "1.2.3.4", ["x"], none, none, ["#"]⟩] ∧
    (["#"] : List String) ≠
      (["#<ac>"] : List String).dropWhile (fun c => pyStrip c == "") :=
  ⟨rfl, rfl, by decide⟩

theorem not_space_of (c : Char) (h : isPySpace c = true) :
    c = ' ' ∨ c = '\t' ∨ c = '\n' ∨ c = '\r' ∨ c = '\x0b' ∨ c = '\x0c' := by
  unfold isPySpace at h
  simp only [Bool.or_eq_true, decide_eq_true_eq] at h
  tauto

theorem digitChar_digit (k : Nat) (h : k < 10) : isDigitC (Nat.digitChar k) = true := by
  interval_cases k <;> rfl

theorem digitVal_digitChar (k : Nat) (h : k < 10) : digitVal (Nat.digitChar k) = k := by
  interval_cases k <;> rfl

theorem digit_not_space (c : Char) (h : isDigitC c = true) : isPySpace c = false := by
  by_contra hc
  have hs : isPySpace c = true := by
    revert hc
    cases isPySpace c <;> simp
  rcases not_space_of c hs with h1 | h1 | h1 | h1 | h1 | h1 <;>
    subst h1 <;> exact absurd h (by decide)

theorem digit_ne_hash (c : Char) (h : isDigitC c = true) : c ≠ '#' := by
  intro hc
  subst hc
  exact absurd h (by decide)

theorem digit_ne_lt (c : Char) (h : isDigitC c = true) : c ≠ '<' := by
  intro hc
  subst hc
  exact absurd h (by decide)

theorem digit_ne_nl (c : Char) (h : isDigitC c = true) : c ≠ '\n' := by
  intro hc
  subst hc
  exact absurd h (by decide)

theorem wordDash_not_space (c : Char) (h : isWordDash c = true) : isPySpace c = false := by
  by_contra hc
  have hs : isPySpace c = true := by
    revert hc
    cases isPySpace c <;> simp
  rcases not_space_of c hs with h1 | h1 | h1 | h1 | h1 | h1 <;>
    subst h1 <;> exact absurd h (by decide)

theorem wordDash_ne_nl (c : Char) (h : isWordDash c = true) : c ≠ '\n' := by
  intro hc
  subst hc
  exact absurd h (by decide)

theorem wordDash_ne_lt (c : Char) (h : isWordDash c = true) : c ≠ '<' := by
  intro hc
  subst hc
  exact absurd h (by decide)

theorem wordDash_ne_dot (c : Char) (h : isWordDash c = true) : c ≠ '.' := by
  intro hc
  subst hc
  exact absurd h (by decide)

theorem takeWhile_append_exact (q : Char → Bool) : ∀ (p rest : List Char),
    p.all q = true → (∀ c cs, rest = c :: cs → q c = false) →
    (p ++ rest).takeWhile q = p ∧ (p ++ rest).dropWhile q = rest := by
  intro p
  induction p with
  | nil =>
    intro rest _ hr
    cases rest with
    | nil => exact ⟨rfl, rfl⟩
    | cons c cs =>
      refine ⟨?_, ?_⟩
      · simp only [List.nil_append, List.takeWhile_cons, hr c cs rfl,
          Bool.false_eq_true, if_false]
      · simp only [List.nil_append, List.dropWhile_cons, hr c cs rfl,
          Bool.false_eq_true, if_false]
  | cons a p ih =>
    intro rest hall hr
    rw [List.all_cons, Bool.and_eq_true] at hall
    simp only [List.cons_append, List.takeWhile_cons, List.dropWhile_cons, hall.1, if_true]
    obtain ⟨h1, h2⟩ := ih rest hall.2 hr
    exact ⟨by rw [h1], h2⟩

theorem takeWhile_of_all (q : Char → Bool) (l : List Char) (h : l.all q = true) :
    l.takeWhile q = l := by
  have := takeWhile_append_exact q l [] h (fun c cs hc => by cases hc)
  simpa using this.1

theorem removeHtmlAux_no_lt : ∀ (f : Nat) (l : List Char), l.length ≤ f →
    l.all (fun c => c ≠ '<') = true → removeHtmlAux f l = l := by
  intro f
  induction f with
  | zero =>
    intro l hf _
    cases l with
    | nil => rfl
    | cons c rest => simp at hf
  | succ f ih =>
    intro l hf hall
    cases l with
    | nil => rfl
    | cons c rest =>
      rw [removeHtmlAux]
      rw [List.all_cons, Bool.and_eq_true, decide_eq_true_eq] at hall
      rw [if_neg hall.1]
      rw [ih rest (by simp only [List.length_cons] at hf; omega) hall.2]

theorem removeHtml_no_lt (l : List Char) (h : l.all (fun c => c ≠ '<') = true) :
    removeHtmlL l = l :=
  removeHtmlAux_no_lt l.length l (le_refl _) h

theorem pyStripL_stable (l : List Char)
    (h1 : ∀ c, l.head? = some c → isPySpace c = false)
    (h2 : ∀ c, l.getLast? = some c → isPySpace c = false) :
    pyStripL l = l := by
  unfold pyStripL
  cases hl : l with
  | nil => rfl
  | cons a rest =>
    have ha : isPySpace a = false := h1 a (by rw [hl]; rfl)
    simp only [List.dropWhile_cons, ha, Bool.false_eq_true, if_false]
    cases hrv : (a :: rest).reverse with
    | nil =>
      have hlen := congrArg List.length hrv
      simp at hlen
    | cons b bs =>
      have hb : (a :: rest).getLast? = some b := by
        rw [← List.head?_reverse, hrv]
        rfl
      have hbs : isPySpace b = false := h2 b (by rw [hl]; exact hb)
      simp only [List.dropWhile_cons, hbs, Bool.false_eq_true, if_false]
      rw [← hrv, List.reverse_reverse]

theorem pad2_cons (n : Nat) (rest : List Char) :
    Nat.pad2 n ++ rest = Nat.digitChar (n / 10 % 10) :: Nat.digitChar (n % 10) :: rest := rfl

theorem digits12_pad2_ok (n : Nat) (hn : n < 100) (rest : List Char)
    (k : Nat → List Char → Option α) (x : α) (hk : k n rest = some x) :
    digits12 (Nat.pad2 n ++ rest) k = some x := by
  rw [pad2_cons]
  unfold digits12
  simp only [digitChar_digit (n / 10 % 10) (Nat.mod_lt _ (by omega)),
    digitChar_digit (n % 10) (Nat.mod_lt _ (by omega)), if_true,
    digitVal_digitChar (n / 10 % 10) (Nat.mod_lt _ (by omega)),
    digitVal_digitChar (n % 10) (Nat.mod_lt _ (by omega))]
  have hval : n / 10 % 10 * 10 + n % 10 = n := by omega
  rw [hval, hk]

theorem dropWhile_pad2 (n : Nat) (rest : List Char) :
    (Nat.pad2 n ++ rest).dropWhile isPySpace = Nat.pad2 n ++ rest := by
  rw [pad2_cons, List.dropWhile_cons,
    digit_not_space _ (digitChar_digit _ (Nat.mod_lt _ (by omega)))]
  simp

theorem dateTail_render (y m d h mi s : Nat) (hh : h < 100) (hmi2 : mi < 100)
    (hs : s < 100) (tail : List Char) (ext : Option String)
    (hext : (tail = [] ∧ ext = none) ∨
      (∃ (x : String) (c : Char) (cs : List Char), ext = some x ∧ tail = ' ' :: x.data ∧
        x.data = c :: cs ∧ isPySpace c = false ∧ x.data.all (· ≠ '\n') = true)) :
    dateTail (' ' :: (Nat.pad2 h ++ ':' :: (Nat.pad2 mi ++ ':' :: (Nat.pad2 s ++ tail))))
        y m d = some ⟨y, m, d, some h, some mi, some s, ext⟩ := by
  unfold dateTail
  simp only [dropWhile_pad2, show isPySpace ' ' = true from rfl, eq_self_iff_true, if_true]
  rw [digits12_pad2_ok h hh _ _ (⟨y, m, d, some h, some mi, some s, ext⟩ : DateFields) ?hK1]
  case hK1 =>
    refine digits12_pad2_ok mi hmi2 _ _ _ ?_
    simp only []
    rw [digits12_pad2_ok s hs _ _ (⟨y, m, d, some h, some mi, some s, ext⟩ : DateFields) ?hK3]
    case hK3 =>
      rcases hext with ⟨ht, he⟩ | ⟨x, c, cs, he, ht, hx, hc, hnl⟩
      · subst ht
        subst he
        rfl
      · subst ht
        subst he
        show (if ((x.data.dropWhile isPySpace).all (· ≠ '\n')) then
            some (⟨y, m, d, some h, some mi, some s,
              some (String.mk (x.data.dropWhile isPySpace))⟩ : DateFields)
          else none) = some ⟨y, m, d, some h, some mi, some s, some x⟩
        have hdb : x.data.dropWhile isPySpace = x.data := by
          rw [hx, List.dropWhile_cons, hc]
          simp
        rw [hdb, hnl, if_pos rfl]

theorem dateMatch_start (X : List Char) :
    dateMatchL ('#' :: '#' :: ' ' :: 'D' :: 'A' :: 'T' :: 'E' :: ' ' :: X) =
      (match X.dropWhile isPySpace with
       | y1 :: y2 :: y3 :: y4 :: '-' :: r3 =>
         if isDigitC y1 && isDigitC y2 && isDigitC y3 && isDigitC y4 then
           digits12 r3 (fun m r4 =>
             match r4 with
             | '-' :: r5 => digits12 r5 (fun d r6 => dateTail r6
                 (((digitVal y1 * 10 + digitVal y2) * 10 + digitVal y3) * 10 + digitVal y4)
                 m d)
             | _ => none)
         else none
       | _ => none) := rfl

theorem dateMatch_render (dt : DateTime) (hv : validDT dt = true) (tail : List Char)
    (ext : Option String)
    (hext : (tail = [] ∧ ext = none) ∨
      (∃ (x : String) (c : Char) (cs : List Char), ext = some x ∧ tail = ' ' :: x.data ∧
        x.data = c :: cs ∧ isPySpace c = false ∧ x.data.all (· ≠ '\n') = true)) :
    dateMatchL ('#' :: '#' :: ' ' :: 'D' :: 'A' :: 'T' :: 'E' :: ' ' ::
        (dt.isoFormat.data ++ tail)) =
      some ⟨dt.year, dt.month, dt.day, some dt.hour, some dt.minute, some dt.second, ext⟩ := by
  simp only [validDT, Bool.and_eq_true, decide_eq_true_eq] at hv
  have hy : dt.year < 10000 := by omega
  have hm100 : dt.month < 100 := by omega
  have hdim : daysInMonth dt.year dt.month ≤ 31 := by
    unfold daysInMonth
    split_ifs <;> omega
  have hd100 : dt.day < 100 := by omega
  have hh100 : dt.hour < 100 := by omega
  have hmi100 : dt.minute < 100 := by omega
  have hs100 : dt.second < 100 := by omega
  rw [dateMatch_start]
  have hdrop : (dt.isoFormat.data ++ tail).dropWhile isPySpace =
      Nat.digitChar (dt.year / 1000 % 10) :: Nat.digitChar (dt.year / 100 % 10) ::
      Nat.digitChar (dt.year / 10 % 10) :: Nat.digitChar (dt.year % 10) :: '-' ::
      (Nat.pad2 dt.month ++ '-' :: (Nat.pad2 dt.day ++ ' ' :: (Nat.pad2 dt.hour ++ ':' ::
        (Nat.pad2 dt.minute ++ ':' :: (Nat.pad2 dt.second ++ tail))))) := by
    rw [show dt.isoFormat.data ++ tail =
        Nat.digitChar (dt.year / 1000 % 10) :: Nat.digitChar (dt.year / 100 % 10) ::
        Nat.digitChar (dt.year / 10 % 10) :: Nat.digitChar (dt.year % 10) :: '-' ::
        (Nat.pad2 dt.month ++ '-' :: (Nat.pad2 dt.day ++ ' ' :: (Nat.pad2 dt.hour ++ ':' ::
          (Nat.pad2 dt.minute ++ ':' :: (Nat.pad2 dt.second ++ tail))))) from rfl]
    rw [List.dropWhile_cons, digit_not_space _ (digitChar_digit _ (Nat.mod_lt _ (by omega)))]
    simp
  simp only [hdrop]
  simp only [digitChar_digit (dt.year / 1000 % 10) (Nat.mod_lt _ (by omega)),
    digitChar_digit (dt.year / 100 % 10) (Nat.mod_lt _ (by omega)),
    digitChar_digit (dt.year / 10 % 10) (Nat.mod_lt _ (by omega)),
    digitChar_digit (dt.year % 10) (Nat.mod_lt _ (by omega)),
    digitVal_digitChar (dt.year / 1000 % 10) (Nat.mod_lt _ (by omega)),
    digitVal_digitChar (dt.year / 100 % 10) (Nat.mod_lt _ (by omega)),
    digitVal_digitChar (dt.year / 10 % 10) (Nat.mod_lt _ (by omega)),
    digitVal_digitChar (dt.year % 10) (Nat.mod_lt _ (by omega)),
    Bool.and_self, if_true]
  have hyy : ((dt.year / 1000 % 10 * 10 + dt.year / 100 % 10) * 10 + dt.year / 10 % 10) * 10
      + dt.year % 10 = dt.year := by omega
  rw [hyy]
  rw [digits12_pad2_ok dt.month hm100 _ _
    (⟨dt.year, dt.month, dt.day, some dt.hour, some dt.minute, some dt.second, ext⟩ :
      DateFields) ?hKm]
  case hKm =>
    refine digits12_pad2_ok dt.day hd100 _ _ _ ?_
    exact dateTail_render dt.year dt.month dt.day dt.hour dt.minute dt.second
      hh100 hmi100 hs100 tail ext hext

theorem takeD_fail : ∀ (n : Nat) (t : List Char) (c : Char) (r : List Char),
    t.all isDigitC = true → t.length < n → isDigitC c = false →
    takeD n (t ++ c :: r) = none := by
  intro n
  induction n with
  | zero =>
    intro t c r _ hl _
    exact absurd hl (by omega)
  | succ n ih =>
    intro t c r hall hl hc
    cases t with
    | nil =>
      rw [List.nil_append, takeD, hc]
      simp
    | cons a t2 =>
      rw [List.cons_append, takeD]
      rw [List.all_cons, Bool.and_eq_true] at hall
      rw [if_pos hall.1]
      simp only [ih t2 c r hall.2 (by simp only [List.length_cons] at hl; omega) hc]

theorem digits123_exact {α} (t : List Char) (c : Char) (r : List Char)
    (ht : t.all isDigitC = true) (ha : 1 ≤ t.length) (hb : t.length ≤ 3)
    (hc : isDigitC c = false)
    (k : List Char → List Char → Option α) (x : α) (hk : k t (c :: r) = some x) :
    digits123 (t ++ c :: r) k = some x := by
  unfold digits123
  have hlen : t.length = 1 ∨ t.length = 2 ∨ t.length = 3 := by omega
  rcases hlen with h | h | h
  · simp only [takeD_fail 3 t c r ht (by omega) hc, takeD_fail 2 t c r ht (by omega) hc]
    rw [show (1 : Nat) = t.length from h.symm, takeD_exact t (c :: r) ht]
    exact hk
  · simp only [takeD_fail 3 t c r ht (by omega) hc]
    rw [show (2 : Nat) = t.length from h.symm, takeD_exact t (c :: r) ht]
    simp only [hk]
  · rw [show (3 : Nat) = t.length from h.symm, takeD_exact t (c :: r) ht]
    simp only [hk]

theorem ipv4Core_render (q1 q2 q3 q4 rest0 : List Char)
    (h1 : q1.all isDigitC = true) (h1a : 1 ≤ q1.length) (h1b : q1.length ≤ 3)
    (h2 : q2.all isDigitC = true) (h2a : 1 ≤ q2.length) (h2b : q2.length ≤ 3)
    (h3 : q3.all isDigitC = true) (h3a : 1 ≤ q3.length) (h3b : q3.length ≤ 3)
    (h4 : q4.all isDigitC = true) (h4a : 1 ≤ q4.length) (h4b : q4.length ≤ 3) :
    ipv4Core (q1 ++ '.' :: (q2 ++ '.' :: (q3 ++ '.' :: (q4 ++ ' ' :: rest0)))) =
      some (q1 ++ '.' :: (q2 ++ '.' :: (q3 ++ '.' :: q4)), ' ' :: rest0) := by
  unfold ipv4Core
  refine digits123_exact q1 '.' _ h1 h1a h1b (by decide) _ _ ?_
  refine digits123_exact q2 '.' _ h2 h2a h2b (by decide) _ _ ?_
  refine digits123_exact q3 '.' _ h3 h3a h3b (by decide) _ _ ?_
  show digits123 (q4 ++ ' ' :: rest0)
      (fun t4 r7 => some (q1 ++ '.' :: (q2 ++ '.' :: (q3 ++ '.' :: t4)), r7)) =
    some (q1 ++ '.' :: (q2 ++ '.' :: (q3 ++ '.' :: q4)), ' ' :: rest0)
  refine digits123_exact q4 ' ' _ h4 h4a h4b (by decide) _ _ ?_
  rfl

theorem ipv4Match_render (q1 q2 q3 q4 rest0 : List Char)
    (h1 : q1.all isDigitC = true) (h1a : 1 ≤ q1.length) (h1b : q1.length ≤ 3)
    (h2 : q2.all isDigitC = true) (h2a : 1 ≤ q2.length) (h2b : q2.length ≤ 3)
    (h3 : q3.all isDigitC = true) (h3a : 1 ≤ q3.length) (h3b : q3.length ≤ 3)
    (h4 : q4.all isDigitC = true) (h4a : 1 ≤ q4.length) (h4b : q4.length ≤ 3)
    (hnl : rest0.all (· ≠ '\n') = true) :
    ipv4Match (q1 ++ '.' :: (q2 ++ '.' :: (q3 ++ '.' :: (q4 ++ ' ' :: rest0)))) =
      some (q1 ++ '.' :: (q2 ++ '.' :: (q3 ++ '.' :: q4)), ' ' :: rest0) := by
  unfold ipv4Match
  have hdw : (q1 ++ '.' :: (q2 ++ '.' :: (q3 ++ '.' :: (q4 ++ ' ' :: rest0)))).dropWhile
      isPySpace = q1 ++ '.' :: (q2 ++ '.' :: (q3 ++ '.' :: (q4 ++ ' ' :: rest0))) := by
    cases hq : q1 with
    | nil =>
      rw [hq] at h1a
      simp at h1a
    | cons a t =>
      rw [hq] at h1
      rw [List.all_cons, Bool.and_eq_true] at h1
      rw [List.cons_append, List.dropWhile_cons, digit_not_space a h1.1]
      simp
  rw [hdw]
  rw [ipv4Core_render q1 q2 q3 q4 rest0 h1 h1a h1b h2 h2a h2b h3 h3a h3b h4 h4a h4b]
  simp only []
  rw [takeWhile_of_all _ _ (by
    simp only [List.all_eq_true, decide_eq_true_eq] at hnl ⊢
    intro x hx
    rcases List.mem_cons.mp hx with hx | hx
    · subst hx
      decide
    · exact hnl x hx)]

theorem dotGroups_cons (c : Char) (cs : List Char) :
    dotGroups (c :: cs) =
      if c = '.' then
        (if cs.takeWhile isWordDash = [] then ([], c :: cs)
         else (c :: (cs.takeWhile isWordDash ++ (dotGroups (cs.dropWhile isWordDash)).1),
               (dotGroups (cs.dropWhile isWordDash)).2))
      else ([], c :: cs) := by
  conv_lhs => rw [show dotGroups (c :: cs) = dotGroupsF (cs.length + 1) (c :: cs) from rfl]
  rw [dotGroupsF]
  rw [dotGroupsF_fuel_irrel cs.length _ (dropWhile_length_le _ _)]

/-- The (?:\.[\w\-]+)* suffix of a rendered name: parts each preceded by
a literal dot. -/
def preDots (parts : List (List Char)) : List Char :=
  parts.flatMap (fun p => '.' :: p)

theorem dotGroups_preDots : ∀ (parts : List (List Char)) (rest : List Char),
    (∀ p ∈ parts, p ≠ [] ∧ p.all isWordDash = true) →
    (rest = [] ∨ ∃ cs, rest = ' ' :: cs) →
    dotGroups (preDots parts ++ rest) = (preDots parts, rest) := by
  intro parts
  induction parts with
  | nil =>
    intro rest _ hrest
    rcases hrest with h | ⟨cs, h⟩
    · subst h
      rfl
    · subst h
      simp only [preDots, List.flatMap_nil, List.nil_append]
      rw [dotGroups_cons]
      simp
  | cons p ps ih =>
    intro rest hparts hrest
    obtain ⟨hpne, hpw⟩ := hparts p (List.mem_cons_self _ _)
    have hjoin : preDots (p :: ps) ++ rest = '.' :: (p ++ (preDots ps ++ rest)) := by
      simp [preDots, List.flatMap_cons, List.append_assoc]
    rw [hjoin, dotGroups_cons, if_pos rfl]
    have hsep : ∀ c cs, preDots ps ++ rest = c :: cs → isWordDash c = false := by
      intro c cs hc
      cases hps : ps with
      | nil =>
        rw [hps] at hc
        simp only [preDots, List.flatMap_nil, List.nil_append] at hc
        rcases hrest with h | ⟨cs2, h⟩
        · rw [h] at hc
          cases hc
        · rw [h] at hc
          cases hc
          decide
      | cons q qs =>
        rw [hps] at hc
        simp only [preDots, List.flatMap_cons, List.cons_append, List.append_assoc] at hc
        cases hc
        decide
    obtain ⟨htk, hdr⟩ := takeWhile_append_exact isWordDash p (preDots ps ++ rest) hpw hsep
    rw [htk, hdr]
    rw [if_neg hpne]
    rw [ih rest (fun q hq => hparts q (List.mem_cons_of_mem _ hq)) hrest]
    simp [preDots, List.flatMap_cons]

/-- The exact shape of NAME's group 1: a word/dash run then zero or
more dot-prefixed word/dash runs. -/
def TokenShape (n : String) : Prop :=
  ∃ run parts, n.data = run ++ preDots parts ∧ run ≠ [] ∧ run.all isWordDash = true ∧
    ∀ p ∈ parts, p ≠ [] ∧ p.all isWordDash = true

theorem all_weaken (p q : Char → Bool) (l : List Char) (h : l.all p = true)
    (hpq : ∀ c, p c = true → q c = true) : l.all q = true := by
  rw [List.all_eq_true] at h ⊢
  exact fun c hc => hpq c (h c hc)

theorem preDots_all_ne_nl (parts : List (List Char))
    (h : ∀ p ∈ parts, p ≠ [] ∧ p.all isWordDash = true) :
    (preDots parts).all (· ≠ '\n') = true := by
  induction parts with
  | nil => rfl
  | cons p ps ih =>
    simp only [preDots, List.flatMap_cons, List.all_append, List.all_cons,
      Bool.and_eq_true]
    refine ⟨⟨by decide, ?_⟩, ?_⟩
    · exact all_weaken isWordDash _ p (h p (List.mem_cons_self _ _)).2
        (fun c hc => by simp [wordDash_ne_nl c hc])
    · exact ih (fun q hq => h q (List.mem_cons_of_mem _ hq))

theorem token_no_nl (n : String) (h : TokenShape n) : n.data.all (· ≠ '\n') = true := by
  obtain ⟨run, parts, hdec, _, hrw, hparts⟩ := h
  rw [hdec, List.all_append, Bool.and_eq_true]
  refine ⟨?_, preDots_all_ne_nl parts hparts⟩
  exact all_weaken isWordDash _ run hrw (fun c hc => by simp [wordDash_ne_nl c hc])

theorem sep_not_wordDash (parts : List (List Char)) (rest : List Char)
    (hrest : rest = [] ∨ ∃ cs, rest = ' ' :: cs) :
    ∀ c cs, preDots parts ++ rest = c :: cs → isWordDash c = false := by
  intro c cs hc
  cases hps : parts with
  | nil =>
    rw [hps] at hc
    simp only [preDots, List.flatMap_nil, List.nil_append] at hc
    rcases hrest with h | ⟨cs2, h⟩
    · rw [h] at hc
      cases hc
    · rw [h] at hc
      cases hc
      decide
  | cons q qs =>
    rw [hps] at hc
    simp only [preDots, List.flatMap_cons, List.cons_append, List.append_assoc] at hc
    cases hc
    decide

theorem nameMatch_token (sp run : List Char) (parts : List (List Char)) (rest : List Char)
    (hsp : sp.all isPySpace = true)
    (hrne : run ≠ []) (hrw : run.all isWordDash = true)
    (hparts : ∀ p ∈ parts, p ≠ [] ∧ p.all isWordDash = true)
    (hrest : rest = [] ∨ ∃ cs, rest = ' ' :: cs)
    (hnlr : rest.all (· ≠ '\n') = true) :
    nameMatch (sp ++ ((run ++ preDots parts) ++ rest)) = some (run ++ preDots parts, rest) := by
  unfold nameMatch
  have hb : (sp ++ ((run ++ preDots parts) ++ rest)).dropWhile isPySpace =
      (run ++ preDots parts) ++ rest := by
    refine (takeWhile_append_exact isPySpace sp _ hsp ?_).2
    intro c cs hc
    cases hr : run with
    | nil => exact absurd hr hrne
    | cons a t =>
      rw [hr] at hc
      simp only [List.cons_append] at hc
      injection hc with hac _
      subst hac
      rw [hr, List.all_cons, Bool.and_eq_true] at hrw
      exact wordDash_not_space a hrw.1
  simp only [hb]
  have hassoc : (run ++ preDots parts) ++ rest = run ++ (preDots parts ++ rest) :=
    List.append_assoc _ _ _
  rw [hassoc]
  obtain ⟨htk, hdr⟩ := takeWhile_append_exact isWordDash run (preDots parts ++ rest) hrw
    (sep_not_wordDash parts rest hrest)
  rw [htk, hdr]
  rw [if_neg hrne]
  rw [dotGroups_preDots parts rest hparts hrest]
  rw [takeWhile_of_all _ _ hnlr]

theorem joinSpace_no_nl : ∀ (ns : List String), (∀ n ∈ ns, TokenShape n) →
    (joinSpace ns).data.all (· ≠ '\n') = true := by
  intro ns
  induction ns with
  | nil => intro _; rfl
  | cons n ns ih =>
    intro h
    cases ns with
    | nil => exact token_no_nl n (h n (List.mem_cons_self _ _))
    | cons n2 ns2 =>
      have hjd : (joinSpace (n :: n2 :: ns2)).data =
          n.data ++ ' ' :: (joinSpace (n2 :: ns2)).data := by
        show ((n ++ " ") ++ joinSpace (n2 :: ns2)).data = _
        simp [String.data_append, List.append_assoc]
      rw [hjd, List.all_append, Bool.and_eq_true]
      refine ⟨token_no_nl n (h n (List.mem_cons_self _ _)), ?_⟩
      rw [List.all_cons, Bool.and_eq_true]
      exact ⟨by decide, ih (fun m hm => h m (List.mem_cons_of_mem _ hm))⟩

theorem nameLoop_tokens : ∀ (ns : List String) (sp : List Char), ns ≠ [] → sp ≠ [] →
    sp.all isPySpace = true →
    (∀ n ∈ ns, TokenShape n ∧ pyLowerL n.data = n.data) →
    nameLoop (sp ++ (joinSpace ns).data) = some ns := by
  intro ns
  induction ns with
  | nil =>
    intro sp h _ _ _
    exact absurd rfl h
  | cons n ns ih =>
    intro sp _ hspne hsp hall
    obtain ⟨⟨run, parts, hdec, hrne, hrw, hparts⟩, hlow⟩ := hall n (List.mem_cons_self _ _)
    cases hsp2 : sp with
    | nil => exact absurd hsp2 hspne
    | cons s sp2 =>
      rw [hsp2] at hsp
      rw [List.all_cons, Bool.and_eq_true] at hsp
      cases ns with
      | nil =>
        have hm := nameMatch_token (s :: sp2) run parts [] (by
            rw [List.all_cons, Bool.and_eq_true]
            exact hsp) hrne hrw hparts (Or.inl rfl) rfl
        have hin : (s :: sp2) ++ (joinSpace [n]).data =
            (s :: sp2) ++ ((run ++ preDots parts) ++ []) := by
          simp [joinSpace, hdec]
        rw [hin]
        simp only [List.cons_append]
        rw [nameLoop_cons]
        simp only [List.cons_append] at hm
        simp only [hm]
        rw [show nameLoop ([] : List Char) = some [] from rfl]
        show some [String.mk (pyLowerL (run ++ preDots parts))] = some [n]
        rw [← hdec, hlow]
      | cons n2 ns2 =>
        have hjd : (joinSpace (n :: n2 :: ns2)).data =
            n.data ++ ' ' :: (joinSpace (n2 :: ns2)).data := by
          show ((n ++ " ") ++ joinSpace (n2 :: ns2)).data = _
          simp [String.data_append, List.append_assoc]
        have hnl2 : ((' ' :: (joinSpace (n2 :: ns2)).data).all (· ≠ '\n')) = true := by
          rw [List.all_cons, Bool.and_eq_true]
          refine ⟨by decide, ?_⟩
          exact joinSpace_no_nl (n2 :: ns2)
            (fun m hm => (hall m (List.mem_cons_of_mem _ hm)).1)
        have hm := nameMatch_token (s :: sp2) run parts
          (' ' :: (joinSpace (n2 :: ns2)).data)
          (by rw [List.all_cons, Bool.and_eq_true]; exact hsp) hrne hrw hparts
          (Or.inr ⟨_, rfl⟩) hnl2
        have hin : (s :: sp2) ++ (joinSpace (n :: n2 :: ns2)).data =
            (s :: sp2) ++ ((run ++ preDots parts) ++
              (' ' :: (joinSpace (n2 :: ns2)).data)) := by
          rw [hjd, hdec]
        rw [hin]
        simp only [List.cons_append]
        rw [nameLoop_cons]
        simp only [List.cons_append] at hm
        simp only [hm]
        have hih := ih [' '] (by simp) (by simp) (by decide)
          (fun m hm2 => hall m (List.mem_cons_of_mem _ hm2))
        simp only [List.singleton_append] at hih
        simp only [hih]
        show some (String.mk (pyLowerL (run ++ preDots parts)) :: n2 :: ns2) =
          some (n :: n2 :: ns2)
        rw [← hdec, hlow]

theorem hashes2_ne (c : Char) (cs : List Char) (h : c ≠ '#') : hashes2 (c :: cs) = none := by
  unfold hashes2
  split
  · rename_i rest heq
    injection heq with h1 _
    exact absurd h1 h
  · rfl

theorem insertLenDesc_perm (n : String) (l : List String) :
    (insertLenDesc n l).Perm (n :: l) := by
  induction l with
  | nil => simp [insertLenDesc]
  | cons m ms ih =>
    rw [insertLenDesc]
    by_cases h : m.length ≤ n.length
    · rw [if_pos h]
    · rw [if_neg h]
      exact (ih.cons m).trans (List.Perm.swap n m ms)

theorem sortLenDesc_perm (l : List String) : (sortLenDesc l).Perm l := by
  induction l with
  | nil => simp [sortLenDesc]
  | cons x xs ih =>
    rw [sortLenDesc]
    exact (insertLenDesc_perm x (sortLenDesc xs)).trans (ih.cons x)

theorem pad2_mem (c : Char) (n : Nat) (h : c ∈ Nat.pad2 n) :
    ∃ k, k < 10 ∧ c = Nat.digitChar k := by
  simp only [Nat.pad2, List.mem_cons, List.not_mem_nil, or_false] at h
  rcases h with h | h
  · exact ⟨n / 10 % 10, Nat.mod_lt _ (by omega), h⟩
  · exact ⟨n % 10, Nat.mod_lt _ (by omega), h⟩

theorem iso_mem (c : Char) (dt : DateTime) (h : c ∈ dt.isoFormat.data) :
    (∃ k, k < 10 ∧ c = Nat.digitChar k) ∨ c = '-' ∨ c = ':' ∨ c = ' ' := by
  rw [show dt.isoFormat.data =
      Nat.digitChar (dt.year / 1000 % 10) :: Nat.digitChar (dt.year / 100 % 10) ::
      Nat.digitChar (dt.year / 10 % 10) :: Nat.digitChar (dt.year % 10) :: '-' ::
      (Nat.pad2 dt.month ++ '-' :: (Nat.pad2 dt.day ++ ' ' :: (Nat.pad2 dt.hour ++ ':' ::
        (Nat.pad2 dt.minute ++ ':' :: Nat.pad2 dt.second)))) from rfl] at h
  simp only [List.mem_cons, List.mem_append] at h
  rcases h with h | h | h | h | h | h
  · exact Or.inl ⟨dt.year / 1000 % 10, Nat.mod_lt _ (by omega), h⟩
  · exact Or.inl ⟨dt.year / 100 % 10, Nat.mod_lt _ (by omega), h⟩
  · exact Or.inl ⟨dt.year / 10 % 10, Nat.mod_lt _ (by omega), h⟩
  · exact Or.inl ⟨dt.year % 10, Nat.mod_lt _ (by omega), h⟩
  · exact Or.inr (Or.inl h)
  · rcases h with h | h
    · exact Or.inl (pad2_mem c _ h)
    · rcases h with h | h
      · exact Or.inr (Or.inl h)
      · rcases h with h | h
        · exact Or.inl (pad2_mem c _ h)
        · rcases h with h | h
          · exact Or.inr (Or.inr (Or.inr h))
          · rcases h with h | h
            · exact Or.inl (pad2_mem c _ h)
            · rcases h with h | h
              · exact Or.inr (Or.inr (Or.inl h))
              · rcases h with h | h
                · exact Or.inl (pad2_mem c _ h)
                · rcases h with h | h
                  · exact Or.inr (Or.inr (Or.inl h))
                  · exact Or.inl (pad2_mem c _ h)

theorem fromLinesStep_comment (e : Entry) (c : String)
    (h1 : possibleDate c = false) (h2 : commentOrBlank c = true) :
    Entry.fromLinesStep e c = .ok { e with comments := e.comments ++ [c] } := by
  unfold Entry.fromLinesStep
  rw [h1]
  simp only [Bool.false_and, Bool.false_eq_true, if_false]
  rw [h2]
  simp

theorem foldlM_comments : ∀ (cl : List String) (e : Entry),
    (∀ c ∈ cl, possibleDate c = false ∧ commentOrBlank c = true) →
    cl.foldlM Entry.fromLinesStep e = .ok { e with comments := e.comments ++ cl } := by
  intro cl
  induction cl with
  | nil =>
    intro e _
    show Except.ok e = _
    rw [show e.comments ++ [] = e.comments from List.append_nil _]
  | cons c cl ih =>
    intro e h
    obtain ⟨h1, h2⟩ := h c (List.mem_cons_self _ _)
    rw [List.foldlM_cons, fromLinesStep_comment e c h1 h2, exBindOk]
    rw [ih _ (fun d hd => h d (List.mem_cons_of_mem _ hd))]
    simp [List.append_assoc]

theorem fromLinesStep_date (e : Entry) (dt : DateTime) (hv : validDT dt = true)
    (hd : e.date = none) (tail : List Char) (ext : Option String)
    (hext : (tail = [] ∧ ext = none) ∨
      (∃ (x : String) (c : Char) (cs : List Char), ext = some x ∧ tail = ' ' :: x.data ∧
        x.data = c :: cs ∧ isPySpace c = false ∧ x.data.all (· ≠ '\n') = true))
    (line : String)
    (hline : line.data = '#' :: '#' :: ' ' :: 'D' :: 'A' :: 'T' :: 'E' :: ' ' ::
      (dt.isoFormat.data ++ tail)) :
    Entry.fromLinesStep e line =
      .ok { e with date := some dt, date_extra := some (ext.getD "") } := by
  unfold Entry.fromLinesStep
  have hpd : possibleDate line = true := by
    unfold possibleDate
    rw [hline]
    rfl
  rw [hpd, hd]
  simp only [Option.isSome_none, Bool.not_false, Bool.true_and, if_true]
  unfold Entry.set_date
  rw [hd]
  simp only [Option.isSome_none, Bool.false_eq_true, if_false]
  unfold dateMatch
  rw [hline]
  simp only [dateMatch_render dt hv tail ext hext, Option.getD_some]
  rw [show (⟨dt.year, dt.month, dt.day, dt.hour, dt.minute, dt.second⟩ : DateTime) = dt
    from rfl]
  rw [hv]
  simp

theorem fromLinesStep_address (e : Entry) (ip : String) (q1 q2 q3 q4 : List Char)
    (hipd : ip.data = q1 ++ '.' :: (q2 ++ '.' :: (q3 ++ '.' :: q4)))
    (h1 : q1.all isDigitC = true) (h1a : 1 ≤ q1.length) (h1b : q1.length ≤ 3)
    (h2 : q2.all isDigitC = true) (h2a : 1 ≤ q2.length) (h2b : q2.length ≤ 3)
    (h3 : q3.all isDigitC = true) (h3a : 1 ≤ q3.length) (h3b : q3.length ≤ 3)
    (h4 : q4.all isDigitC = true) (h4a : 1 ≤ q4.length) (h4b : q4.length ≤ 3)
    (ns : List String) (hns : ns ≠ [])
    (htok : ∀ n ∈ ns, TokenShape n ∧ pyLowerL n.data = n.data)
    (line : String)
    (hline : line.data = ip.data ++ (' ' :: ' ' :: ' ' :: ' ' :: (joinSpace ns).data)) :
    Entry.fromLinesStep e line = .ok { e with ipv4 := some ip, names := e.names ++ ns } := by
  obtain ⟨a, t, hq1⟩ : ∃ a t, q1 = a :: t := by
    cases hq : q1 with
    | nil =>
      rw [hq] at h1a
      simp at h1a
    | cons a t => exact ⟨a, t, rfl⟩
  have ha : isDigitC a = true := by
    rw [hq1, List.all_cons, Bool.and_eq_true] at h1
    exact h1.1
  have hhead : ∃ r, line.data = a :: r := by
    rw [hline, hipd, hq1]
    exact ⟨_, rfl⟩
  obtain ⟨r, hr⟩ := hhead
  have hdw : line.data.dropWhile isPySpace = line.data := by
    rw [hr, List.dropWhile_cons, digit_not_space a ha]
    simp
  have hpd : possibleDate line = false := by
    unfold possibleDate possibleDateL
    rw [hdw, hr, hashes2_ne a r (digit_ne_hash a ha)]
  have hcb : commentOrBlank line = false := by
    unfold commentOrBlank commentOrBlankL
    rw [hdw, hr]
    simp [digit_ne_hash a ha]
  unfold Entry.fromLinesStep
  rw [hpd, hcb]
  simp only [Bool.false_and, Bool.false_eq_true, if_false]
  unfold Entry.set_address
  have hform : line.data =
      q1 ++ '.' :: (q2 ++ '.' :: (q3 ++ '.' :: (q4 ++ ' ' ::
        (' ' :: ' ' :: ' ' :: (joinSpace ns).data)))) := by
    rw [hline, hipd]
    simp [List.append_assoc]
  rw [hform]
  have hnl0 : (' ' :: ' ' :: ' ' :: (joinSpace ns).data).all (· ≠ '\n') = true := by
    simp only [List.all_cons, Bool.and_eq_true]
    refine ⟨by decide, by decide, by decide, ?_⟩
    exact joinSpace_no_nl ns (fun n hn => (htok n hn).1)
  rw [ipv4Match_render q1 q2 q3 q4 _ h1 h1a h1b h2 h2a h2b h3 h3a h3b h4 h4a h4b hnl0]
  have hnlp := nameLoop_tokens ns [' ', ' ', ' ', ' '] hns (by simp) (by decide) htok
  simp only [List.cons_append, List.nil_append] at hnlp
  simp only [hnlp]
  rw [show String.mk (q1 ++ '.' :: (q2 ++ '.' :: (q3 ++ '.' :: q4))) = ip by
    rw [← hipd]]

theorem from_lines_render (cl : List String)
    (hcl : ∀ c ∈ cl, possibleDate c = false ∧ commentOrBlank c = true)
    (mid : List String) (dOpt : Option DateTime) (xOpt : Option String)
    (hmid : mid.foldlM Entry.fromLinesStep (⟨none, [], none, none, cl⟩ : Entry) =
      .ok ⟨none, [], dOpt, xOpt, cl⟩)
    (addr ip : String) (ns : List String) (hns : ns ≠ []) (hipne : ip ≠ "")
    (haddr : ∀ e0 : Entry,
      Entry.fromLinesStep e0 addr = .ok { e0 with ipv4 := some ip, names := e0.names ++ ns }) :
    Entry.from_lines (cl ++ (mid ++ [addr])) = .ok ⟨some ip, ns, dOpt, xOpt, cl⟩ := by
  unfold Entry.from_lines
  rw [List.foldlM_append, foldlM_comments cl emptyEntry hcl, exBindOk]
  rw [show ({ emptyEntry with comments := emptyEntry.comments ++ cl } : Entry) =
    ⟨none, [], none, none, cl⟩ from rfl]
  rw [List.foldlM_append, hmid, exBindOk]
  rw [List.foldlM_cons, haddr ⟨none, [], dOpt, xOpt, cl⟩, exBindOk]
  show (Except.ok (⟨some ip, ns, dOpt, xOpt, cl⟩ : Entry) >>=
      fun e => if (e.ipv4.getD "") = "" then throw ParseError.noAddress
        else if e.names = [] then throw ParseError.noNames else pure e) =
    Except.ok (⟨some ip, ns, dOpt, xOpt, cl⟩ : Entry)
  rw [exBindOk]
  simp only [Option.getD_some]
  rw [if_neg hipne, if_neg hns]
  rfl

theorem parseAux_block_comments : ∀ (cl rest acc : List String),
    (∀ c ∈ cl, normalizeLine c = c ∧ commentOrBlank c = true ∧ endMatch c = false) →
    parseAux false (cl ++ rest) false acc = parseAux false rest false (acc ++ cl) := by
  intro cl
  induction cl with
  | nil =>
    intro rest acc _
    rw [List.nil_append, List.append_nil]
  | cons c cl ih =>
    intro rest acc h
    obtain ⟨hn, hcb, hem⟩ := h c (List.mem_cons_self _ _)
    rw [List.cons_append, parseAux]
    simp only [hn, hem, hcb, Bool.not_true, Bool.false_eq_true, if_false]
    rw [ih rest (acc ++ [c]) (fun d hd => h d (List.mem_cons_of_mem _ hd))]
    rw [List.append_assoc]
    rfl

theorem getLast_some_of_ne_nil (l : List Char) (h : l ≠ []) : ∃ b, l.getLast? = some b := by
  cases hl : l.getLast? with
  | none => exact absurd (List.getLast?_eq_none_iff.mp hl) h
  | some b => exact ⟨b, rfl⟩

theorem getLast_append_right (l1 l2 : List Char) (b : Char) (h : l2.getLast? = some b) :
    (l1 ++ l2).getLast? = some b := by
  rw [List.getLast?_append, h]
  rfl

theorem all_getLast (p : Char → Bool) (l : List Char) (hall : l.all p = true) (b : Char)
    (h : l.getLast? = some b) : p b = true := by
  rw [List.all_eq_true] at hall
  exact hall b (List.mem_of_mem_getLast? h)

theorem preDots_getLast : ∀ (parts : List (List Char)), parts ≠ [] →
    (∀ p ∈ parts, p ≠ [] ∧ p.all isWordDash = true) →
    ∀ b, (preDots parts).getLast? = some b → isWordDash b = true := by
  intro parts
  induction parts with
  | nil => intro h _ _ _; exact absurd rfl h
  | cons p ps ih =>
    intro _ hall b hb
    obtain ⟨hpne, hpw⟩ := hall p (List.mem_cons_self _ _)
    cases hps : ps with
    | nil =>
      rw [hps] at hb
      rw [show preDots [p] = ['.'] ++ p from by simp [preDots]] at hb
      obtain ⟨b2, hb2⟩ := getLast_some_of_ne_nil p hpne
      rw [getLast_append_right ['.'] p b2 hb2] at hb
      have hbb : b2 = b := by injection hb
      rw [← hbb]
      exact all_getLast isWordDash p hpw b2 hb2
    | cons q qs =>
      rw [hps] at hb
      rw [show preDots (p :: q :: qs) = ('.' :: p) ++ preDots (q :: qs) from by
        simp [preDots]] at hb
      have hqne : preDots (q :: qs) ≠ [] := by simp [preDots]
      obtain ⟨b2, hb2⟩ := getLast_some_of_ne_nil _ hqne
      rw [getLast_append_right _ _ b2 hb2] at hb
      have hbb : b2 = b := by injection hb
      rw [← hbb]
      exact ih (by rw [hps]; simp) (fun r hr => hall r (List.mem_cons_of_mem _ hr)) b2
        (by rw [hps]; exact hb2)

theorem token_getLast (n : String) (h : TokenShape n) :
    ∀ b, n.data.getLast? = some b → isWordDash b = true := by
  obtain ⟨run, parts, hdec, hrne, hrw, hparts⟩ := h
  intro b hb
  rw [hdec] at hb
  cases hps : parts with
  | nil =>
    rw [hps] at hb
    rw [show preDots ([] : List (List Char)) = [] from rfl, List.append_nil] at hb
    exact all_getLast isWordDash run hrw b hb
  | cons q qs =>
    rw [hps] at hb
    have hqne : preDots (q :: qs) ≠ [] := by simp [preDots]
    obtain ⟨b2, hb2⟩ := getLast_some_of_ne_nil _ hqne
    rw [getLast_append_right _ _ b2 hb2] at hb
    have hbb : b2 = b := by injection hb
    rw [← hbb]
    exact preDots_getLast (q :: qs) (by simp)
      (fun r hr => hparts r (hps ▸ hr)) b2 hb2

theorem token_ne_nil (n : String) (h : TokenShape n) : n.data ≠ [] := by
  obtain ⟨run, parts, hdec, hrne, _, _⟩ := h
  rw [hdec]
  cases hr : run with
  | nil => exact absurd hr hrne
  | cons a t => simp

theorem joinSpace_ne_nil : ∀ (ns : List String), ns ≠ [] → (∀ n ∈ ns, TokenShape n) →
    (joinSpace ns).data ≠ [] := by
  intro ns
  induction ns with
  | nil => intro h _; exact absurd rfl h
  | cons n ns ih =>
    intro _ hall
    cases ns with
    | nil => exact token_ne_nil n (hall n (List.mem_cons_self _ _))
    | cons n2 ns2 =>
      have hjd : (joinSpace (n :: n2 :: ns2)).data =
          n.data ++ ' ' :: (joinSpace (n2 :: ns2)).data := by
        show ((n ++ " ") ++ joinSpace (n2 :: ns2)).data = _
        simp [String.data_append, List.append_assoc]
      rw [hjd]
      simp

theorem joinSpace_getLast : ∀ (ns : List String), ns ≠ [] → (∀ n ∈ ns, TokenShape n) →
    ∀ b, (joinSpace ns).data.getLast? = some b → isWordDash b = true := by
  intro ns
  induction ns with
  | nil => intro h _ _ _; exact absurd rfl h
  | cons n ns ih =>
    intro _ hall b hb
    cases ns with
    | nil => exact token_getLast n (hall n (List.mem_cons_self _ _)) b hb
    | cons n2 ns2 =>
      have hjd : (joinSpace (n :: n2 :: ns2)).data =
          n.data ++ ' ' :: (joinSpace (n2 :: ns2)).data := by
        show ((n ++ " ") ++ joinSpace (n2 :: ns2)).data = _
        simp [String.data_append, List.append_assoc]
      rw [hjd] at hb
      have hne2 : (joinSpace (n2 :: ns2)).data ≠ [] :=
        joinSpace_ne_nil (n2 :: ns2) (by simp)
          (fun m hm => hall m (List.mem_cons_of_mem _ hm))
      obtain ⟨b2, hb2⟩ := getLast_some_of_ne_nil _ hne2
      rw [show (n.data ++ ' ' :: (joinSpace (n2 :: ns2)).data) =
        (n.data ++ [' ']) ++ (joinSpace (n2 :: ns2)).data from by
          simp [List.append_assoc]] at hb
      rw [getLast_append_right _ _ b2 hb2] at hb
      have hbb : b2 = b := by injection hb
      rw [← hbb]
      exact ih (by simp) (fun m hm => hall m (List.mem_cons_of_mem _ hm)) b2 hb2

theorem joinSpace_all (p : Char → Bool) (hsp : p ' ' = true) (hdot : p '.' = true)
    (hw : ∀ c, isWordDash c = true → p c = true) :
    ∀ (ns : List String), (∀ n ∈ ns, TokenShape n) → (joinSpace ns).data.all p = true := by
  intro ns
  induction ns with
  | nil => intro _; rfl
  | cons n ns ih =>
    intro hall
    have htok : n.data.all p = true := by
      obtain ⟨run, parts, hdec, _, hrw, hparts⟩ := hall n (List.mem_cons_self _ _)
      rw [hdec, List.all_append, Bool.and_eq_true]
      refine ⟨all_weaken isWordDash p run hrw hw, ?_⟩
      clear hdec
      induction parts with
      | nil => rfl
      | cons q qs ihq =>
        simp only [preDots, List.flatMap_cons, List.all_append, List.all_cons,
          Bool.and_eq_true]
        refine ⟨⟨hdot, ?_⟩, ?_⟩
        · exact all_weaken isWordDash p q (hparts q (List.mem_cons_self _ _)).2 hw
        · exact ihq (fun r hr => hparts r (List.mem_cons_of_mem _ hr))
    cases ns with
    | nil => exact htok
    | cons n2 ns2 =>
      have hjd : (joinSpace (n :: n2 :: ns2)).data =
          n.data ++ ' ' :: (joinSpace (n2 :: ns2)).data := by
        show ((n ++ " ") ++ joinSpace (n2 :: ns2)).data = _
        simp [String.data_append, List.append_assoc]
      rw [hjd, List.all_append, Bool.and_eq_true]
      refine ⟨htok, ?_⟩
      rw [List.all_cons, Bool.and_eq_true]
      exact ⟨hsp, ih (fun m hm => hall m (List.mem_cons_of_mem _ hm))⟩

theorem parse_render (cl : List String)
    (hclp : ∀ c ∈ cl, possibleDate c = false ∧ commentOrBlank c = true ∧
      normalizeLine c = c ∧ endMatch c = false)
    (mid : List String) (dOpt : Option DateTime) (xOpt : Option String)
    (hmidp : ∀ c ∈ mid, normalizeLine c = c ∧ commentOrBlank c = true ∧ endMatch c = false)
    (hmid : mid.foldlM Entry.fromLinesStep (⟨none, [], none, none, cl⟩ : Entry) =
      .ok ⟨none, [], dOpt, xOpt, cl⟩)
    (addr ip : String) (ns : List String) (hns : ns ≠ []) (hipne : ip ≠ "")
    (hna : normalizeLine addr = addr) (hem : endMatch addr = false)
    (hcb : commentOrBlank addr = false)
    (haddr : ∀ e0 : Entry, Entry.fromLinesStep e0 addr =
      .ok { e0 with ipv4 := some ip, names := e0.names ++ ns }) :
    parse ("### BEGIN GHETTONET" :: ((cl ++ mid ++ [addr]) ++ ["### END GHETTONET"]))
      false = .ok [.entry ⟨some ip, ns, dOpt, xOpt, cl⟩] := by
  have hbody : parseAux false ((cl ++ mid) ++ [addr, "### END GHETTONET"]) false [] =
      .ok [.entry ⟨some ip, ns, dOpt, xOpt, cl⟩] := by
    rw [parseAux_block_comments (cl ++ mid) [addr, "### END GHETTONET"] [] (by
      intro c hc
      rcases List.mem_append.mp hc with hc | hc
      · obtain ⟨_, h2, h3, h4⟩ := hclp c hc
        exact ⟨h3, h2, h4⟩
      · exact hmidp c hc)]
    rw [List.nil_append]
    rw [parseAux]
    simp only [hna, hem, hcb, Bool.not_false, Bool.false_eq_true, if_false, if_true,
      Bool.not_true]
    rw [show (cl ++ mid) ++ [addr] = cl ++ (mid ++ [addr]) from List.append_assoc _ _ _]
    rw [from_lines_render cl (fun c hc => ⟨(hclp c hc).1, (hclp c hc).2.1⟩) mid dOpt xOpt
      hmid addr ip ns hns hipne haddr]
    rw [show parseAux false ["### END GHETTONET"] false [] = .ok ([] : List Item)
      from rfl]
  unfold parse
  rw [parseAux]
  rw [show ((cl ++ mid ++ [addr]) ++ ["### END GHETTONET"]) =
    (cl ++ mid) ++ [addr, "### END GHETTONET"] from by simp [List.append_assoc]]
  simp only [show normalizeLine "### BEGIN GHETTONET" = "### BEGIN GHETTONET" from rfl,
    show beginMatch "### BEGIN GHETTONET" = true from rfl, if_true]
  rw [hbody]
  rfl

theorem addr_line_facts (ip : String) (q1 q2 q3 q4 : List Char)
    (hipd : ip.data = q1 ++ '.' :: (q2 ++ '.' :: (q3 ++ '.' :: q4)))
    (h1 : q1.all isDigitC = true) (h1a : 1 ≤ q1.length)
    (h2 : q2.all isDigitC = true) (h3 : q3.all isDigitC = true)
    (h4 : q4.all isDigitC = true)
    (ns : List String) (hns : ns ≠ []) (htok : ∀ n ∈ ns, TokenShape n)
    (line : String)
    (hline : line.data = ip.data ++ (' ' :: ' ' :: ' ' :: ' ' :: (joinSpace ns).data)) :
    endMatch line = false ∧ commentOrBlank line = false ∧ normalizeLine line = line := by
  obtain ⟨a, t, hq1⟩ : ∃ a t, q1 = a :: t := by
    cases hq : q1 with
    | nil =>
      rw [hq] at h1a
      simp at h1a
    | cons a t => exact ⟨a, t, rfl⟩
  have ha : isDigitC a = true := by
    rw [hq1, List.all_cons, Bool.and_eq_true] at h1
    exact h1.1
  obtain ⟨r, hr⟩ : ∃ r, line.data = a :: r := by
    rw [hline, hipd, hq1]
    exact ⟨_, rfl⟩
  have hdw : line.data.dropWhile isPySpace = line.data := by
    rw [hr, List.dropWhile_cons, digit_not_space a ha]
    simp
  have hqlt : ∀ (q : List Char), q.all isDigitC = true →
      q.all (fun c => c ≠ '<') = true := fun q hq =>
    all_weaken _ _ q hq (fun c hc => by simp [digit_ne_lt c hc])
  have hjlt : (joinSpace ns).data.all (fun c => c ≠ '<') = true := by
    refine joinSpace_all _ (by decide) (by decide) ?_ ns htok
    intro c hc
    simp [wordDash_ne_lt c hc]
  have hall_lt : line.data.all (fun c => c ≠ '<') = true := by
    rw [hline, hipd]
    simp only [List.all_append, List.all_cons, Bool.and_eq_true, decide_eq_true_eq]
    refine ⟨⟨hqlt q1 h1, by decide, hqlt q2 h2, by decide, hqlt q3 h3, by decide,
      hqlt q4 h4⟩, by decide, by decide, by decide, by decide, hjlt⟩
  have hjne : (joinSpace ns).data ≠ [] := joinSpace_ne_nil ns hns htok
  have hlast : ∀ ch, line.data.getLast? = some ch → isPySpace ch = false := by
    intro ch hch
    rw [show line.data = (ip.data ++ [' ', ' ', ' ', ' ']) ++ (joinSpace ns).data from by
      rw [hline]; simp [List.append_assoc]] at hch
    obtain ⟨b, hb⟩ := getLast_some_of_ne_nil _ hjne
    rw [getLast_append_right _ _ b hb] at hch
    have hbb : b = ch := by injection hch
    rw [← hbb]
    exact wordDash_not_space b (joinSpace_getLast ns hns htok b hb)
  have hhead : ∀ ch, line.data.head? = some ch → isPySpace ch = false := by
    intro ch hch
    rw [hr] at hch
    have : a = ch := by injection hch
    rw [← this]
    exact digit_not_space a ha
  have hem : endMatch line = false := by
    unfold endMatch endMatchL
    rw [hdw, hr, hashes2_ne a r (digit_ne_hash a ha)]
  have hcb : commentOrBlank line = false := by
    unfold commentOrBlank commentOrBlankL
    rw [hdw, hr]
    simp [digit_ne_hash a ha]
  refine ⟨hem, hcb, ?_⟩
  unfold normalizeLine
  rw [show remove_html line = line from by
    unfold remove_html
    rw [removeHtml_no_lt _ hall_lt]]
  unfold pyStrip
  rw [pyStripL_stable line.data hhead hlast]

theorem iso_all_p (dt : DateTime) (p : Char → Bool) (hd : p '-' = true)
    (hc : p ':' = true) (hs : p ' ' = true)
    (hdig : ∀ k, k < 10 → p (Nat.digitChar k) = true) :
    dt.isoFormat.data.all p = true := by
  rw [List.all_eq_true]
  intro ch hch
  rcases iso_mem ch dt hch with ⟨k, hk, hceq⟩ | h | h | h
  · rw [hceq]
    exact hdig k hk
  · rw [h]
    exact hd
  · rw [h]
    exact hc
  · rw [h]
    exact hs

theorem date_line_facts (dt : DateTime) (tail : List Char) (line : String)
    (hline : line.data = '#' :: '#' :: ' ' :: 'D' :: 'A' :: 'T' :: 'E' :: ' ' ::
      (dt.isoFormat.data ++ tail))
    (htlt : tail.all (fun c => c ≠ '<') = true)
    (htnl : tail.all (fun c => c ≠ '\n') = true)
    (hlast : ∀ ch, (dt.isoFormat.data ++ tail).getLast? = some ch → isPySpace ch = false) :
    normalizeLine line = line ∧ commentOrBlank line = true ∧ endMatch line = false := by
  have hiso_nl : dt.isoFormat.data.all (fun c => c ≠ '\n') = true :=
    iso_all_p dt _ (by decide) (by decide) (by decide)
      (fun k hk => by simp [digit_ne_nl _ (digitChar_digit k hk)])
  have hiso_lt : dt.isoFormat.data.all (fun c => c ≠ '<') = true :=
    iso_all_p dt _ (by decide) (by decide) (by decide)
      (fun k hk => by simp [digit_ne_lt _ (digitChar_digit k hk)])
  have hcb : commentOrBlank line = true := by
    unfold commentOrBlank
    rw [hline]
    show ('#' :: ' ' :: 'D' :: 'A' :: 'T' :: 'E' :: ' ' ::
      (dt.isoFormat.data ++ tail)).all (· ≠ '\n') = true
    simp only [List.all_cons, List.all_append, Bool.and_eq_true, decide_eq_true_eq]
    refine ⟨by decide, by decide, by decide, by decide, by decide, by decide, by decide,
      hiso_nl, htnl⟩
  have hem : endMatch line = false := by
    unfold endMatch
    rw [hline]
    rfl
  have hall_lt : line.data.all (fun c => c ≠ '<') = true := by
    rw [hline]
    simp only [List.all_cons, List.all_append, Bool.and_eq_true, decide_eq_true_eq]
    refine ⟨by decide, by decide, by decide, by decide, by decide, by decide, by decide,
      by decide, hiso_lt, htlt⟩
  have hne : dt.isoFormat.data ++ tail ≠ [] := by
    rw [show dt.isoFormat.data ++ tail = Nat.digitChar (dt.year / 1000 % 10) ::
      (Nat.digitChar (dt.year / 100 % 10) :: Nat.digitChar (dt.year / 10 % 10) ::
      Nat.digitChar (dt.year % 10) :: '-' ::
      (Nat.pad2 dt.month ++ '-' :: (Nat.pad2 dt.day ++ ' ' :: (Nat.pad2 dt.hour ++ ':' ::
        (Nat.pad2 dt.minute ++ ':' :: (Nat.pad2 dt.second ++ tail)))))) from rfl]
    simp
  have hlast2 : ∀ ch, line.data.getLast? = some ch → isPySpace ch = false := by
    intro ch hch
    rw [hline] at hch
    rw [show ('#' :: '#' :: ' ' :: 'D' :: 'A' :: 'T' :: 'E' :: ' ' ::
      (dt.isoFormat.data ++ tail)) =
      ['#', '#', ' ', 'D', 'A', 'T', 'E', ' '] ++ (dt.isoFormat.data ++ tail)
      from rfl] at hch
    obtain ⟨b, hb⟩ := getLast_some_of_ne_nil _ hne
    rw [getLast_append_right _ _ b hb] at hch
    have hbb : b = ch := by injection hch
    rw [← hbb]
    exact hlast b hb
  have hhead : ∀ ch, line.data.head? = some ch → isPySpace ch = false := by
    intro ch hch
    rw [hline] at hch
    have : '#' = ch := by injection hch
    rw [← this]
    decide
  refine ⟨?_, hcb, hem⟩
  unfold normalizeLine
  rw [show remove_html line = line from by
    unfold remove_html
    rw [removeHtml_no_lt _ hall_lt]]
  unfold pyStrip
  rw [pyStripL_stable line.data hhead hlast2]

/-- C3 (amended): the render/re-parse round trip holds for entries whose
address is a true dotted quad of 1-3-digit runs, whose names are
lower-case NAME-shaped tokens, whose comments are normalization-stable
comment lines that do not look like date or end markers, and whose date
(if any) is calendar-valid with a well-behaved extra text; the re-parsed
entry keeps the address, the name multiset, the date and extra, and the
comments up to leading-blank trimming. -/
theorem c3_round_trip (e : Entry)
    (hip : ∃ ip q1 q2 q3 q4, e.ipv4 = some ip ∧
      ip.data = q1 ++ '.' :: (q2 ++ '.' :: (q3 ++ '.' :: q4)) ∧
      (q1.all isDigitC = true ∧ 1 ≤ q1.length ∧ q1.length ≤ 3) ∧
      (q2.all isDigitC = true ∧ 1 ≤ q2.length ∧ q2.length ≤ 3) ∧
      (q3.all isDigitC = true ∧ 1 ≤ q3.length ∧ q3.length ≤ 3) ∧
      (q4.all isDigitC = true ∧ 1 ≤ q4.length ∧ q4.length ≤ 3))
    (hnames : e.names ≠ [] ∧ ∀ n ∈ e.names, TokenShape n ∧ pyLowerL n.data = n.data)
    (hcm : ∀ c ∈ e.comments, normalizeLine c = c ∧ commentOrBlank c = true ∧
      possibleDate c = false ∧ endMatch c = false)
    (hdate : (e.date = none ∧ e.date_extra = none) ∨
      (∃ dt x, e.date = some dt ∧ validDT dt = true ∧ e.date_extra = some x ∧
        (x = "" ∨ (x.data ≠ [] ∧
          (∀ ch, x.data.head? = some ch → isPySpace ch = false) ∧
          (∀ ch, x.data.getLast? = some ch → isPySpace ch = false) ∧
          x.data.all (fun ch => ch ≠ '<' && ch ≠ '\n') = true)))) :
    ∃ e', parse ("### BEGIN GHETTONET" :: (e.renderLines ++ ["### END GHETTONET"]))
        false = .ok [.entry e'] ∧
      e'.ipv4 = e.ipv4 ∧ e'.names.Perm e.names ∧ e'.date = e.date ∧
      e'.date_extra = e.date_extra ∧
      e'.comments = e.comments.dropWhile (fun c => pyStrip c == "") := by
  obtain ⟨ip, q1, q2, q3, q4, hipv4, hipd, ⟨h1, h1a, h1b⟩, ⟨h2, h2a, h2b⟩,
    ⟨h3, h3a, h3b⟩, ⟨h4, h4a, h4b⟩⟩ := hip
  obtain ⟨hnne, hntok⟩ := hnames
  -- the rendered pieces
  set cl := e.comments.dropWhile (fun c => pyStrip c == "") with hcl_def
  have hclm : ∀ c ∈ cl, c ∈ e.comments :=
    fun c hc => (List.dropWhile_sublist _).subset hc
  have hclp : ∀ c ∈ cl, possibleDate c = false ∧ commentOrBlank c = true ∧
      normalizeLine c = c ∧ endMatch c = false := by
    intro c hc
    obtain ⟨n1, n2, n3, n4⟩ := hcm c (hclm c hc)
    exact ⟨n3, n2, n1, n4⟩
  have hipne : ip ≠ "" := by
    intro h
    rw [h] at hipd
    cases hq : q1 with
    | nil =>
      rw [hq] at h1a
      simp at h1a
    | cons a t =>
      rw [hq] at hipd
      cases hipd
  -- names
  set ns := sortLenDesc e.names with hns_def
  have hperm : ns.Perm e.names := sortLenDesc_perm e.names
  have hnsne : ns ≠ [] := by
    intro h
    rw [h] at hperm
    exact hnne hperm.symm.eq_nil
  have hnstok : ∀ n ∈ ns, TokenShape n ∧ pyLowerL n.data = n.data :=
    fun n hn => hntok n (hperm.mem_iff.mp hn)
  have hnstok1 : ∀ n ∈ ns, TokenShape n := fun n hn => (hnstok n hn).1
  -- address line
  set addr := ip ++ "    " ++ joinSpace ns with haddr_def
  have hfa : e.format_address = [addr] := by
    unfold Entry.format_address
    rw [hipv4, ← hns_def]
    rfl
  have hlineaddr : addr.data = ip.data ++ (' ' :: ' ' :: ' ' :: ' ' ::
      (joinSpace ns).data) := by
    rw [haddr_def]
    show ((ip ++ "    ") ++ joinSpace ns).data = _
    simp [String.data_append, List.append_assoc]
  obtain ⟨haem, hacb, hana⟩ := addr_line_facts ip q1 q2 q3 q4 hipd h1 h1a h2 h3 h4
    ns hnsne hnstok1 addr hlineaddr
  have haddrStep : ∀ e0 : Entry, Entry.fromLinesStep e0 addr =
      .ok { e0 with ipv4 := some ip, names := e0.names ++ ns } :=
    fun e0 => fromLinesStep_address e0 ip q1 q2 q3 q4 hipd h1 h1a h1b h2 h2a h2b
      h3 h3a h3b h4 h4a h4b ns hnsne hnstok addr hlineaddr
  -- the render list shape
  have hrender : e.renderLines ++ ["### END GHETTONET"] =
      (cl ++ e.format_date ++ [addr]) ++ ["### END GHETTONET"] := by
    unfold Entry.renderLines Entry.format_comments
    rw [hfa]
  rcases hdate with ⟨hdn, hxn⟩ | ⟨dt, x, hdt, hv, hx, hxgood⟩
  · -- no date
    have hfd : e.format_date = [] := by
      unfold Entry.format_date
      rw [hdn]
    refine ⟨⟨some ip, ns, none, none, cl⟩, ?_, hipv4.symm, hperm, hdn.symm, hxn.symm, rfl⟩
    rw [hrender, hfd]
    exact parse_render cl hclp [] none none (fun c hc => absurd hc (List.not_mem_nil c))
      rfl addr ip ns hnsne hipne hana haem hacb haddrStep
  · -- date present
    rcases hxgood with hxe | ⟨hxne, hxhead, hxlast, hxall⟩
    · -- extra is the empty string
      subst hxe
      have hfd : e.format_date = ["## DATE " ++ dt.isoFormat] := by
        unfold Entry.format_date
        rw [hdt, hx]
        rfl
      have hdl : ("## DATE " ++ dt.isoFormat).data =
          '#' :: '#' :: ' ' :: 'D' :: 'A' :: 'T' :: 'E' :: ' ' ::
          (dt.isoFormat.data ++ []) := by
        rw [List.append_nil]
        rfl
      have hisoLast : (dt.isoFormat.data ++ ([] : List Char)).getLast? =
          some (Nat.digitChar (dt.second % 10)) := by
        rw [List.append_nil]
        rw [show dt.isoFormat.data = (Nat.digitChar (dt.year / 1000 % 10) ::
          Nat.digitChar (dt.year / 100 % 10) :: Nat.digitChar (dt.year / 10 % 10) ::
          Nat.digitChar (dt.year % 10) :: '-' ::
          (Nat.pad2 dt.month ++ '-' :: (Nat.pad2 dt.day ++ ' ' ::
            (Nat.pad2 dt.hour ++ ':' :: (Nat.pad2 dt.minute ++ [':']))))) ++
          Nat.pad2 dt.second from rfl]
        exact getLast_append_right _ _ _ rfl
      obtain ⟨hdna, hdcb, hdem⟩ := date_line_facts dt [] ("## DATE " ++ dt.isoFormat)
        hdl rfl rfl (by
          intro ch hch
          rw [hisoLast] at hch
          have hbb : Nat.digitChar (dt.second % 10) = ch := by injection hch
          rw [← hbb]
          exact digit_not_space _ (digitChar_digit _ (Nat.mod_lt _ (by omega))))
      have hmid : (["## DATE " ++ dt.isoFormat] : List String).foldlM Entry.fromLinesStep
          (⟨none, [], none, none, cl⟩ : Entry) =
          .ok ⟨none, [], some dt, some "", cl⟩ := by
        rw [List.foldlM_cons, fromLinesStep_date ⟨none, [], none, none, cl⟩ dt hv rfl
          [] none (Or.inl ⟨rfl, rfl⟩) _ hdl, exBindOk]
        rfl
      refine ⟨⟨some ip, ns, some dt, some "", cl⟩, ?_, hipv4.symm, hperm, hdt.symm,
        hx.symm, rfl⟩
      rw [hrender, hfd]
      exact parse_render cl hclp ["## DATE " ++ dt.isoFormat] (some dt) (some "")
        (fun c hc => by
          rw [List.mem_singleton] at hc
          subst hc
          exact ⟨hdna, hdcb, hdem⟩)
        hmid addr ip ns hnsne hipne hana haem hacb haddrStep
    · -- extra is a nonempty well-behaved string
      obtain ⟨xc, xcs, hxdec⟩ : ∃ c cs, x.data = c :: cs := by
        cases hq : x.data with
        | nil => exact absurd hq hxne
        | cons a t => exact ⟨a, t, rfl⟩
      have hxcns : isPySpace xc = false := hxhead xc (by rw [hxdec]; rfl)
      have hxnl : x.data.all (fun ch => ch ≠ '\n') = true :=
        all_weaken _ _ _ hxall (fun c hc => by
          rw [Bool.and_eq_true] at hc
          exact hc.2)
      have hxlt : x.data.all (fun ch => ch ≠ '<') = true :=
        all_weaken _ _ _ hxall (fun c hc => by
          rw [Bool.and_eq_true] at hc
          exact hc.1)
      have hxne2 : x ≠ "" := by
        intro h
        rw [h] at hxdec
        cases hxdec
      have hfd : e.format_date = [("## DATE " ++ dt.isoFormat) ++ " " ++ x] := by
        unfold Entry.format_date
        simp only [hdt, hx]
        rw [if_pos hxne2]
      have hdl : (("## DATE " ++ dt.isoFormat) ++ " " ++ x).data =
          '#' :: '#' :: ' ' :: 'D' :: 'A' :: 'T' :: 'E' :: ' ' ::
          (dt.isoFormat.data ++ (' ' :: x.data)) := rfl
      have htlt : (' ' :: x.data).all (fun c => c ≠ '<') = true := by
        rw [List.all_cons, Bool.and_eq_true]
        exact ⟨by decide, hxlt⟩
      have htnl : (' ' :: x.data).all (fun c => c ≠ '\n') = true := by
        rw [List.all_cons, Bool.and_eq_true]
        exact ⟨by decide, hxnl⟩
      have hlastd : ∀ ch, (dt.isoFormat.data ++ (' ' :: x.data)).getLast? = some ch →
          isPySpace ch = false := by
        intro ch hch
        rw [show dt.isoFormat.data ++ (' ' :: x.data) =
          (dt.isoFormat.data ++ [' ']) ++ x.data from by simp [List.append_assoc]] at hch
        obtain ⟨b, hb⟩ := getLast_some_of_ne_nil x.data hxne
        rw [getLast_append_right _ _ b hb] at hch
        have hbb : b = ch := by injection hch
        rw [← hbb]
        exact hxlast b hb
      obtain ⟨hdna, hdcb, hdem⟩ := date_line_facts dt (' ' :: x.data)
        (("## DATE " ++ dt.isoFormat) ++ " " ++ x) hdl htlt htnl hlastd
      have hmid : ([("## DATE " ++ dt.isoFormat) ++ " " ++ x] : List String).foldlM
          Entry.fromLinesStep (⟨none, [], none, none, cl⟩ : Entry) =
          .ok ⟨none, [], some dt, some x, cl⟩ := by
        rw [List.foldlM_cons, fromLinesStep_date ⟨none, [], none, none, cl⟩ dt hv rfl
          (' ' :: x.data) (some x)
          (Or.inr ⟨x, xc, xcs, rfl, rfl, hxdec, hxcns, hxnl⟩) _ hdl, exBindOk]
        rfl
      refine ⟨⟨some ip, ns, some dt, some x, cl⟩, ?_, hipv4.symm, hperm, hdt.symm,
        hx.symm, rfl⟩
      rw [hrender, hfd]
      exact parse_render cl hclp [("## DATE " ++ dt.isoFormat) ++ " " ++ x]
        (some dt) (some x)
        (fun c hc => by
          rw [List.mem_singleton] at hc
          subst hc
          exact ⟨hdna, hdcb, hdem⟩)
        hmid addr ip ns hnsne hipne hana haem hacb haddrStep

/-- Witness for the amended C3 at a concrete entry with an address, one
name, no date and one comment. -/
theorem c3_round_trip_witness :
    ∃ e', parse ("### BEGIN GHETTONET" ::
        ((⟨some "1.2.3.4", ["x"], none, none, ["# note"]⟩ : Entry).renderLines ++
          ["### END GHETTONET"])) false = .ok [.entry e'] ∧
      e'.ipv4 = some "1.2.3.4" ∧ e'.names.Perm ["x"] ∧ e'.date = none ∧
      e'.date_extra = none ∧
      e'.comments = (["# note"] : List String).dropWhile (fun c => pyStrip c == "") :=
  c3_round_trip ⟨some "1.2.3.4", ["x"], none, none, ["# note"]⟩
    ⟨"1.2.3.4", ['1'], ['2'], ['3'], ['4'], rfl, rfl,
      ⟨rfl, by decide, by decide⟩, ⟨rfl, by decide, by decide⟩,
      ⟨rfl, by decide, by decide⟩, ⟨rfl, by decide, by decide⟩⟩
    ⟨by decide, fun n hn => by
      rw [List.mem_singleton] at hn
      subst hn
      exact ⟨⟨['x'], [], rfl, by decide, rfl,
        fun p hp => absurd hp (List.not_mem_nil p)⟩, rfl⟩⟩
    (fun c hc => by
      rw [List.mem_singleton] at hc
      subst hc
      exact ⟨rfl, rfl, rfl, rfl⟩)
    (Or.inl ⟨rfl, rfl⟩)
